import Mathlib

/-!
# The simple versioner: `Simple.Archive`

A shallow embedding of `internal/versioner/simple.go`.  Go strings are lists of
characters, the filesystem is an explicit state, and every call `Archive` makes
to the operating system is recorded in a trace next to the state it produces.
-/

namespace Versioner

/-- A Go string. -/
abbrev Str := List Char

/-! ## `path/filepath` on Unix -/

/-- The path separator. -/
def Separator : Char := '/'

/-- The elements of a path between separators: `a//b` has elements `a`, the empty one, `b`. -/
def splitSep : Str → List Str
  | [] => [[]]
  | c :: cs =>
    if c = Separator then [] :: splitSep cs
    else
      match splitSep cs with
      | [] => [[c]]
      | h :: t => (c :: h) :: t

/-- The elements joined with single separators. -/
def joinSep : List Str → Str
  | [] => []
  | [a] => a
  | a :: b :: rest => a ++ Separator :: joinSep (b :: rest)

/-- One step of `Clean`: the cleaned elements so far, then the next element. -/
def cleanStep (rooted : Bool) (acc : List Str) (c : Str) : List Str :=
  if c = [] ∨ c = ['.'] then acc
  else if c = ['.', '.'] then
    match acc.getLast? with
    | none => if rooted then acc else acc ++ [c]
    | some top => if top = ['.', '.'] then acc ++ [c] else acc.dropLast
  else acc ++ [c]

/-- The cleaned elements of a path. -/
def cleanElems (rooted : Bool) (p : Str) : List Str :=
  (splitSep p).foldl (cleanStep rooted) []

/-- Whether a path starts at the root. -/
def isRooted (p : Str) : Bool :=
  match p with
  | c :: _ => c == Separator
  | [] => false

/-- Go `filepath.Clean`: the shortest path naming the same place by lexical rules. -/
def Clean (p : Str) : Str :=
  let rooted := isRooted p
  let elems := cleanElems rooted p
  if rooted then Separator :: joinSep elems
  else if elems = [] then ['.'] else joinSep elems

/-- Go `filepath.Join`: empty elements are ignored, the rest is joined and cleaned,
and a join of nothing but empty elements is the empty string. -/
def Join (elem : List Str) : Str :=
  match elem.filter (fun e => e ≠ []) with
  | [] => []
  | es => Clean (joinSep es)

/-- A path without its trailing separators. -/
def stripTrailingSep (p : Str) : Str :=
  (p.reverse.dropWhile (fun c => c == Separator)).reverse

/-- What follows the last separator of a path (the whole path when it has none). -/
def lastElem (p : Str) : Str :=
  (p.reverse.takeWhile (fun c => c != Separator)).reverse

/-- Go `filepath.Base`: the last element of the path, trailing separators removed first. -/
def Base (p : Str) : Str :=
  if p = [] then ['.']
  else
    let q := stripTrailingSep p
    if q = [] then [Separator] else lastElem q

/-- Go `filepath.Split`: the path up to and including its last separator, and the rest. -/
def Split (p : Str) : Str × Str :=
  ((p.reverse.dropWhile (fun c => c != Separator)).reverse, lastElem p)

/-- Go `filepath.Dir`: all but the last element of the path, cleaned. -/
def Dir (p : Str) : Str := Clean (Split p).1

/-- The extension scan of `filepath.Ext`, over the reversed name: the characters after
the last dot, reversed, when a dot comes before any separator. -/
def extScan : Str → Str → Option Str
  | [], _ => none
  | c :: cs, acc =>
    if c = Separator then none
    else if c = '.' then some (c :: acc)
    else extScan cs (c :: acc)

/-- Go `filepath.Ext`: the suffix beginning at the final dot of the final element. -/
def Ext (p : Str) : Str := (extScan p.reverse []).getD []

/-- The elements `filepath.Rel` walks over in a cleaned path. -/
def relElems (p : Str) : List Str :=
  if p = [] then [] else if p = [Separator] then [[]] else splitSep p

/-- The loop of `filepath.Rel`: drop the common leading elements; fail when the first
differing element of the base is `..`. -/
def relStrip : List Str → List Str → Option (List Str × List Str)
  | b :: bs, t :: ts =>
    if b = t then relStrip bs ts
    else if b = ['.', '.'] then none
    else some (b :: bs, t :: ts)
  | bs, ts => some (bs, ts)

/-- Go `filepath.Rel`: a relative path that names `targpath` when joined to `basepath`,
or `none` when one is rooted and the other is not, or when the base would have to be
left through a `..` of its own. -/
def Rel (basepath targpath : Str) : Option Str :=
  let base := Clean basepath
  let targ := Clean targpath
  if targ = base then some ['.']
  else
    let base := if base = ['.'] then [] else base
    if isRooted base != isRooted targ then none
    else
      match relStrip (relElems base) (relElems targ) with
      | none => none
      | some (bs, ts) =>
        if bs ≠ [] then
          let ups := joinSep (bs.map (fun _ => ['.', '.']))
          if ts ≠ [] then some (ups ++ Separator :: joinSep ts) else some ups
        else some (joinSep ts)


/-! ## `filepath.Match` and `filepath.Glob` -/

/-- Go `hasMeta`: whether a path holds one of the characters `Glob` treats as magic. -/
def hasMeta (p : Str) : Bool := p.any (fun c => c == '*' || c == '?' || c == '[')

/-- The scan of `scanChunk` after the leading stars: the chunk up to the next star
outside a character class, and the rest of the pattern. -/
def scanLoop : Str → Bool → Str × Str
  | [], _ => ([], [])
  | ['\\'], _ => (['\\'], [])
  | '\\' :: c :: rest, inrange =>
    let r := scanLoop rest inrange
    ('\\' :: c :: r.1, r.2)
  | c :: rest, inrange =>
    if c = '[' then let r := scanLoop rest true; (c :: r.1, r.2)
    else if c = ']' then let r := scanLoop rest false; (c :: r.1, r.2)
    else if c = '*' then
      if inrange then let r := scanLoop rest inrange; (c :: r.1, r.2)
      else ([], c :: rest)
    else let r := scanLoop rest inrange; (c :: r.1, r.2)

/-- Go `scanChunk`: whether the segment starts with a star, the star-free chunk that
follows, and the rest of the pattern. -/
def scanChunk (pattern : Str) : Bool × Str × Str :=
  let stripped := pattern.dropWhile (fun c => c == '*')
  let r := scanLoop stripped false
  (stripped.length < pattern.length, r.1, r.2)

/-- Go `getEsc`: a possibly escaped character of a character class and what follows it;
`none` is `ErrBadPattern`. -/
def getEsc (chunk : Str) : Option (Char × Str) :=
  match chunk with
  | [] => none
  | c :: rest =>
    if c = '-' ∨ c = ']' then none
    else
      match (if c = '\\' then rest else chunk) with
      | [] => none
      | r :: nchunk => if nchunk = [] then none else some (r, nchunk)

/-- The range loop of a character class in `matchChunk`, for the character `r` of the
name: whether some range held `r`, and the chunk after the closing bracket; `none` is
`ErrBadPattern`.  Every round consumes a character of the chunk, which bounds the fuel. -/
def classLoop (r : Char) : Nat → Str → Nat → Bool → Option (Bool × Str)
  | 0, _, _, _ => none
  | fuel + 1, chunk, nrange, matched =>
    if chunk.head? = some ']' ∧ 0 < nrange then some (matched, chunk.tail)
    else
      match getEsc chunk with
      | none => none
      | some (lo, chunk1) =>
        if chunk1.head? = some '-' then
          match getEsc chunk1.tail with
          | none => none
          | some (hi, chunk2) =>
            classLoop r fuel chunk2 (nrange + 1) (matched || (decide (lo ≤ r) && decide (r ≤ hi)))
        else classLoop r fuel chunk1 (nrange + 1) (matched || (lo == r))

/-- The three ways `matchChunk` ends. -/
inductive ChunkResult where
  | bad
  | no
  | yes (rest : Str)
  deriving DecidableEq, Repr

/-- Go `matchChunk`: whether the chunk matches the beginning of `s`, and then the rest
of `s`.  Every round consumes a character of the chunk, which bounds the fuel. -/
def matchChunk : Nat → Str → Str → ChunkResult
  | 0, _, _ => .bad
  | fuel + 1, chunk, s =>
    match chunk with
    | [] => .yes s
    | c :: chunk1 =>
      match s with
      | [] => .no
      | r :: s1 =>
        if c = '[' then
          match chunk1 with
          | [] => .bad
          | c1 :: chunk2 =>
            let negated := c1 == '^'
            let body := if negated then chunk2 else chunk1
            match classLoop r (body.length + 1) body 0 false with
            | none => .bad
            | some (matched, chunk3) =>
              if matched = negated then .no else matchChunk fuel chunk3 s1
        else if c = '?' then
          if r = Separator then .no else matchChunk fuel chunk1 s1
        else if c = '\\' then
          match chunk1 with
          | [] => .bad
          | c1 :: chunk2 => if c1 ≠ r then .no else matchChunk fuel chunk2 s1
        else
          if c ≠ r then .no else matchChunk fuel chunk1 s1

/-- The three ways the star loop of `Match` ends. -/
inductive StarResult where
  | bad
  | exhausted
  | found (rest : Str)
  deriving DecidableEq, Repr

/-- The star loop of `Match`: skip one more character of the name at a time (never a
separator) until the chunk matches. -/
def starLoop (chunk : Str) (lastChunk : Bool) : Str → StarResult
  | [] => .exhausted
  | c :: name1 =>
    if c = Separator then .exhausted
    else
      match matchChunk (chunk.length + 1) chunk name1 with
      | .yes t => if lastChunk ∧ t ≠ [] then starLoop chunk lastChunk name1 else .found t
      | .bad => .bad
      | .no => starLoop chunk lastChunk name1

/-- Go `filepath.Match` with explicit fuel; `none` is `ErrBadPattern`.  Every round
consumes a character of the pattern. -/
def matchFuel : Nat → Str → Str → Option Bool
  | 0, _, _ => none
  | fuel + 1, pattern, name =>
    if pattern = [] then some (name = [])
    else
      let sc := scanChunk pattern
      let star := sc.1
      let chunk := sc.2.1
      let rest := sc.2.2
      if star ∧ chunk = [] then some (!name.contains Separator)
      else
        match matchChunk (chunk.length + 1) chunk name with
        | .bad => none
        | r =>
          let here : Option Str :=
            match r with
            | .yes t => if t = [] ∨ rest ≠ [] then some t else none
            | _ => none
          match here with
          | some t => matchFuel fuel rest t
          | none =>
            if star then
              match starLoop chunk (rest = []) name with
              | .found t => matchFuel fuel rest t
              | .bad => none
              | .exhausted => some false
            else some false

/-- Go `filepath.Match`. -/
def Match (pattern name : Str) : Option Bool := matchFuel (pattern.length + 1) pattern name


/-! ## The filesystem -/

/-- A point in time as the file's modification time reports it: calendar date and
time of day. -/
structure Time where
  year : Nat
  month : Nat
  day : Nat
  hour : Nat
  minute : Nat
  second : Nat
  deriving DecidableEq, Repr

/-- The errors of the model: the operating system's, and the one of `filepath.Rel`. -/
inductive GoError where
  | ENOENT
  | ENOTDIR
  | EISDIR
  | ENOTEMPTY
  | EINVAL
  | EBUSY
  | EEXIST
  | ErrRel
  deriving DecidableEq, Repr

deriving instance DecidableEq for Except

/-- Go `os.IsNotExist`. -/
def IsNotExist (e : GoError) : Bool := e == .ENOENT

/-- Go `os.IsExist`. -/
def IsExist (e : GoError) : Bool := e == .EEXIST || e == .ENOTEMPTY

/-- What `os.Lstat` reports of a file: whether it is a directory, and when it was last
modified. -/
structure FileInfo where
  isDir : Bool
  modTime : Time
  deriving DecidableEq, Repr

/-- A place in the tree: the names from the root down. -/
abbrev Loc := List Str

/-- The filesystem: the working directory, the clock, and the files and directories in
the tree, each under its place.  The root is always there and is a directory. -/
structure FS where
  cwd : Loc
  now : Time
  nodes : List (Loc × FileInfo)
  deriving Repr

/-- The file or directory at a place. -/
def FS.get (fs : FS) (loc : Loc) : Option FileInfo :=
  if loc = [] then some ⟨true, fs.now⟩
  else (fs.nodes.find? (fun e => e.1 = loc)).map (fun e => e.2)

/-- One step of path resolution. -/
def resolveStep (acc : Loc) (c : Str) : Loc :=
  if c = [] ∨ c = ['.'] then acc
  else if c = ['.', '.'] then acc.dropLast
  else acc ++ [c]

/-- The place a path names: a rooted path is walked from the root, another one from the
working directory. -/
def FS.resolve (fs : FS) (p : Str) : Loc :=
  (splitSep p).foldl resolveStep (if isRooted p then [] else fs.cwd)

/-- Whether the path to a place runs through something that is not a directory. -/
def FS.hasFileAncestor (fs : FS) (loc : Loc) : Bool :=
  (List.range loc.length).any (fun i =>
    match fs.get (loc.take i) with
    | some n => !n.isDir
    | none => false)

/-- Whether a path can only name a directory: it ends in a separator, `.` or `..`. -/
def mustBeDir (p : Str) : Bool :=
  lastElem p = [] || lastElem p = ['.'] || lastElem p = ['.', '.']

/-- Whether something lies directly inside a place. -/
def FS.hasChildren (fs : FS) (loc : Loc) : Bool :=
  fs.nodes.any (fun e => e.1 ≠ [] && e.1.dropLast = loc)

/-- Whether `a` is a leading part of `b`. -/
def startsWith (a b : Loc) : Bool := b.take a.length = a

/-- Go `os.Lstat`. -/
def Lstat (fs : FS) (p : Str) : Except GoError FileInfo :=
  if p = [] then .error .ENOENT
  else if fs.hasFileAncestor (fs.resolve p) then .error .ENOTDIR
  else
    match fs.get (fs.resolve p) with
    | none => .error .ENOENT
    | some n => if mustBeDir p ∧ n.isDir = false then .error .ENOTDIR else .ok n

/-- Whether `os.Lstat` finds something at a path. -/
def FS.present (fs : FS) (p : Str) : Bool :=
  match Lstat fs p with
  | .ok _ => true
  | .error _ => false

/-- Go `os.Stat`; the model has no symbolic links to follow. -/
def Stat (fs : FS) (p : Str) : Except GoError FileInfo := Lstat fs p

/-- The filesystem with a new entry at a place that had none. -/
def FS.insert (fs : FS) (loc : Loc) (n : FileInfo) : FS :=
  { fs with nodes := (loc, n) :: fs.nodes }

/-- The filesystem without the entry at a place. -/
def FS.erase (fs : FS) (loc : Loc) : FS :=
  { fs with nodes := fs.nodes.filter (fun e => e.1 ≠ loc) }

/-- The walk of `os.MkdirAll` down the names of a place: what is there must be a
directory, what is missing is created. -/
def mkdirFrom (fs : FS) (cur : Loc) : List Str → Option GoError × FS
  | [] => (none, fs)
  | c :: rest =>
    match fs.get (cur ++ [c]) with
    | some n => if n.isDir then mkdirFrom fs (cur ++ [c]) rest else (some .ENOTDIR, fs)
    | none => mkdirFrom (fs.insert (cur ++ [c]) ⟨true, fs.now⟩) (cur ++ [c]) rest

/-- Go `os.MkdirAll`: create the directory and the parents it needs. -/
def MkdirAll (fs : FS) (p : Str) : Option GoError × FS :=
  if p = [] then (some .ENOENT, fs) else mkdirFrom fs [] (fs.resolve p)

/-- Go `os.Remove`: delete a file or an empty directory. -/
def Remove (fs : FS) (p : Str) : Option GoError × FS :=
  if p = [] then (some .ENOENT, fs)
  else if fs.hasFileAncestor (fs.resolve p) then (some .ENOTDIR, fs)
  else if fs.resolve p = [] then (some .EBUSY, fs)
  else
    match fs.get (fs.resolve p) with
    | none => (some .ENOENT, fs)
    | some n =>
      if n.isDir = false then
        if mustBeDir p then (some .ENOTDIR, fs) else (none, fs.erase (fs.resolve p))
      else if Base p = ['.'] ∨ Base p = ['.', '.'] then (some .EINVAL, fs)
      else if fs.hasChildren (fs.resolve p) then (some .ENOTEMPTY, fs)
      else (none, fs.erase (fs.resolve p))

/-- The tree after a move: what lay at or under `s` lies at or under `d` (a file moves
alone), and what lay at `d` is gone. -/
def moveNodes (nodes : List (Loc × FileInfo)) (s d : Loc) (n : FileInfo) :
    List (Loc × FileInfo) :=
  (if n.isDir then
      (nodes.filter (fun e => startsWith s e.1)).map (fun e => (d ++ e.1.drop s.length, e.2))
    else [(d, n)])
  ++ nodes.filter (fun e => !(startsWith s e.1) && e.1 ≠ d)

/-- Modelled from the spec: `osutil.Rename`, which the sources do not hold.  The spec has
it "atomically rename (not copy+delete) the source file to the destination path", and a
rename that fails "must leave the original file untouched"; it is the rename of the
operating system. -/
def Rename (fs : FS) (src dst : Str) : Option GoError × FS :=
  if src = [] ∨ dst = [] then (some .ENOENT, fs)
  else if fs.hasFileAncestor (fs.resolve src) ∨ fs.hasFileAncestor (fs.resolve dst) then
    (some .ENOTDIR, fs)
  else
    match fs.get (fs.resolve src) with
    | none => (some .ENOENT, fs)
    | some n =>
      if Base src = ['.'] ∨ Base src = ['.', '.'] ∨ Base src = [Separator]
          ∨ Base dst = ['.'] ∨ Base dst = ['.', '.'] ∨ Base dst = [Separator] then
        (some .EBUSY, fs)
      else if fs.resolve src = [] ∨ fs.resolve dst = [] then (some .EBUSY, fs)
      else if n.isDir = false ∧ (mustBeDir src ∨ mustBeDir dst) then (some .ENOTDIR, fs)
      else if fs.get (fs.resolve dst).dropLast = none then (some .ENOENT, fs)
      else if fs.resolve src = fs.resolve dst then (none, fs)
      else if startsWith (fs.resolve src) (fs.resolve dst) then (some .EINVAL, fs)
      else if startsWith (fs.resolve dst) (fs.resolve src) then (some .ENOTEMPTY, fs)
      else
        match fs.get (fs.resolve dst) with
        | some m =>
          if n.isDir ∧ m.isDir = false then (some .ENOTDIR, fs)
          else if n.isDir = false ∧ m.isDir then (some .EISDIR, fs)
          else if m.isDir ∧ fs.hasChildren (fs.resolve dst) then (some .ENOTEMPTY, fs)
          else (none, { fs with nodes := moveNodes fs.nodes (fs.resolve src) (fs.resolve dst) n })
        | none =>
          (none, { fs with nodes := moveNodes fs.nodes (fs.resolve src) (fs.resolve dst) n })

/-- Modelled from the spec: `osutil.HideFile`, which the sources do not hold: "a
file-hiding primitive ..., a no-op on platforms without the concept"; on Unix it leaves
the filesystem as it is. -/
def HideFile (fs : FS) (_p : Str) : FS := fs

/-- Go `sort.Strings`: the strings in increasing order. -/
def sortStrings (strings : List Str) : List Str :=
  strings.insertionSort (fun a b => a ≤ b)

/-- Modelled from the spec: `uniqueSortedStrings`, which the sources do not hold: the
spec has the pruner "deduplicate and sort using plain lexicographic string order". -/
def uniqueSortedStrings (strings : List Str) : List Str :=
  sortStrings strings.dedup

/-- Go `Readdirnames` followed by `sort.Strings`: the names directly inside a place, each
once. -/
def FS.readdirnames (fs : FS) (loc : Loc) : List Str :=
  sortStrings
    ((fs.nodes.filter (fun e => e.1 ≠ [] && e.1.dropLast = loc)).filterMap
      (fun e => e.1.getLast?)).dedup

/-- The loop of Go `glob` over the sorted names of a directory; `none` is
`ErrBadPattern`. -/
def globNames (dir pattern : Str) : List Str → List Str → Option (List Str)
  | [], m => some m
  | n :: names, m =>
    match Match pattern n with
    | none => none
    | some matched => globNames dir pattern names (if matched then m ++ [Join [dir, n]] else m)

/-- Go `glob`: the names in `dir` that match `pattern`, appended to `matches`. -/
def glob (fs : FS) (dir pattern : Str) (m : List Str) : Option (List Str) :=
  match Stat fs dir with
  | .error _ => some m
  | .ok fi =>
    if fi.isDir = false then some m
    else globNames dir pattern (fs.readdirnames (fs.resolve dir)) m

/-- The loop of Go `Glob` over the directories that matched. -/
def globDirs (fs : FS) (file : Str) : List Str → List Str → Option (List Str)
  | [], m => some m
  | d :: ds, m =>
    match glob fs d file m with
    | none => none
    | some m1 => globDirs fs file ds m1

/-- Go `filepath.Glob` with explicit fuel; `none` is `ErrBadPattern`.  The pattern of
every inner call is a proper leading part of the pattern, which bounds the fuel. -/
def globFuel (fs : FS) : Nat → Str → Option (List Str)
  | 0, _ => none
  | fuel + 1, pattern =>
    if hasMeta pattern = false then
      match Lstat fs pattern with
      | .error _ => some []
      | .ok _ => some [pattern]
    else
      let sp := Split pattern
      let dir : Str :=
        if sp.1 = [] then ['.']
        else if sp.1 = [Separator] then sp.1
        else sp.1.dropLast
      if hasMeta dir = false then glob fs dir sp.2 []
      else
        match globFuel fs fuel dir with
        | none => none
        | some m => globDirs fs sp.2 m []

/-- Go `filepath.Glob`. -/
def Glob (fs : FS) (pattern : Str) : Option (List Str) :=
  globFuel fs (pattern.length + 1) pattern

/-! ## The versioner -/

/-- A decimal digit. -/
def digit (n : Nat) : Char := Char.ofNat (48 + n % 10)

/-- A number in two digits. -/
def pad2 (n : Nat) : Str := [digit (n / 10), digit n]

/-- The decimal digits of a number, none for zero; the fuel bounds the number of digits. -/
def bigDigits : Nat → Nat → Str
  | 0, _ => []
  | fuel + 1, n => if n = 0 then [] else bigDigits fuel (n / 10) ++ [digit n]

/-- A year in four digits, and in as many as it has beyond that. -/
def pad4 (n : Nat) : Str :=
  if n < 10000 then [digit (n / 1000), digit (n / 100), digit (n / 10), digit n]
  else bigDigits n n

/-- Modelled from the spec: `Time.Format(TimeFormat)` for the constant `TimeFormat`, which
the sources do not hold: "a fixed-width format such as `YYYYMMDD-HHMMSS` (sortable as
text)". -/
def Format (t : Time) : Str :=
  pad4 t.year ++ pad2 t.month ++ pad2 t.day ++ '-' :: (pad2 t.hour ++ pad2 t.minute ++ pad2 t.second)

/-- Modelled from the spec: the constant `TimeGlob`, which the sources do not hold: the
pattern for "any timestamp" of the fixed format, a digit class for every digit. -/
def TimeGlob : Str :=
  let d : Str := ['[', '0', '-', '9', ']']
  d ++ d ++ d ++ d ++ d ++ d ++ d ++ d ++ '-' :: (d ++ d ++ d ++ d ++ d ++ d)

/-- Modelled from the spec: `taggedFilename`, which the sources do not hold: the tagged
name is "`{base}~{timestamp}{ext}` where ... `{base}`/`{ext}` are the original filename
split at the final extension separator". -/
def taggedFilename (name tag : Str) : Str :=
  name.take (name.length - (Ext name).length) ++ '~' :: (tag ++ Ext name)

/-- The constants of package `config` that name the archive below the folder; the
sources do not hold their values. -/
structure Config where
  MarkerDir : Str
  VersionsDir : Str
  deriving Repr

/-- The versioner's configuration. -/
structure Simple where
  keep : Int
  folderPath : Str
  deriving DecidableEq, Repr

/-- The digits of a decimal number, most significant first, as a value. -/
def parseDigits : Str → Nat → Option Nat
  | [], acc => some acc
  | c :: cs, acc =>
    if '0' ≤ c ∧ c ≤ '9' then parseDigits cs (acc * 10 + (c.toNat - 48)) else none

/-- Go `strconv.Atoi`: an optional sign and decimal digits, within the range of `int`;
`none` is the error. -/
def Atoi (s : Str) : Option Int :=
  let body : Str :=
    match s with
    | '+' :: r => r
    | '-' :: r => r
    | _ => s
  if body = [] then none
  else
    match parseDigits body 0 with
    | none => none
    | some n =>
      let v : Int := if s.head? = some '-' then - (n : Int) else (n : Int)
      if v < -(2 : Int) ^ 63 ∨ (2 : Int) ^ 63 - 1 < v then none else some v

/-- The constructor `NewSimple`; a Go map gives the empty string for a missing key. -/
def NewSimple (_folderID folderPath : Str) (params : List (Str × Str)) : Simple :=
  let keep : Int :=
    match Atoi ((params.lookup ['k', 'e', 'e', 'p']).getD []) with
    | none => 5
    | some k => k
  { keep := keep, folderPath := folderPath }

/-- A call `Archive` makes that changes the filesystem or lists it, with what the call
returned. -/
inductive Call where
  | MkdirAll (path : Str) (err : Option GoError)
  | HideFile (path : Str)
  | Rename (src dst : Str) (err : Option GoError)
  | Glob (pattern : Str) (found : Option (List Str))
  | Remove (path : Str) (err : Option GoError)
  deriving DecidableEq, Repr

/-- How a call of `Archive` ends: `nil`, an error, or a run-time panic. -/
inductive Result where
  | nil
  | error (e : GoError)
  | panic
  deriving DecidableEq, Repr

/-- What a call of `Archive` leaves: its result, the filesystem, and the calls made. -/
structure Outcome where
  result : Result
  fs : FS
  trace : List Call
  deriving Repr

/-- The loop over `versions[:len(versions)-v.keep]`: every entry is removed on its own,
and an error is logged and passed over. -/
def removeAll (fs : FS) : List Str → FS × List Call
  | [] => (fs, [])
  | toRemove :: rest =>
    let r := Remove fs toRemove
    let t := removeAll r.2 rest
    (t.1, Call.Remove toRemove r.1 :: t.2)

/-- The part of `Archive` after the rename: both globs, then the removal of the oldest
versions beyond `keep`.  The slice expression panics when its upper bound is beyond the
slice, which is taken to have no spare capacity. -/
def prune (v : Simple) (fs : FS) (dir file : Str) (tr : List Call) : Outcome :=
  let newPattern := Join [dir, taggedFilename file TimeGlob]
  match Glob fs newPattern with
  | none => ⟨.nil, fs, tr ++ [Call.Glob newPattern none]⟩
  | some newVersions =>
    let oldPattern := Join [dir, file ++ '~' :: TimeGlob]
    match Glob fs oldPattern with
    | none => ⟨.nil, fs, tr ++ [Call.Glob newPattern (some newVersions), Call.Glob oldPattern none]⟩
    | some oldVersions =>
      let tr1 := tr ++ [Call.Glob newPattern (some newVersions),
        Call.Glob oldPattern (some oldVersions)]
      let versions := uniqueSortedStrings (oldVersions ++ newVersions)
      if (versions.length : Int) > v.keep then
        if (versions.length : Int) - v.keep > versions.length then ⟨.panic, fs, tr1⟩
        else
          let r := removeAll fs (versions.take ((versions.length : Int) - v.keep).toNat)
          ⟨.nil, r.1, tr1 ++ r.2⟩
      else ⟨.nil, fs, tr1⟩

/-- The part of `Archive` from the rename on: the tagged name, the move, the pruning. -/
def moveAndPrune (v : Simple) (fs : FS) (filePath : Str) (fileInfo : FileInfo)
    (dir file : Str) (tr : List Call) : Outcome :=
  let ver := taggedFilename file (Format fileInfo.modTime)
  let dst := Join [dir, ver]
  let r := Rename fs filePath dst
  match r.1 with
  | some e => ⟨.error e, r.2, tr ++ [Call.Rename filePath dst r.1]⟩
  | none => prune v r.2 dir file (tr ++ [Call.Rename filePath dst r.1])

/-- The part of `Archive` after the versions directory is seen to: the destination
directory, then the move and the pruning. -/
def archiveInto (v : Simple) (fs : FS) (filePath : Str) (fileInfo : FileInfo)
    (versionsDir : Str) (tr : List Call) : Outcome :=
  let file := Base filePath
  match Rel v.folderPath (Dir filePath) with
  | none => ⟨.error .ErrRel, fs, tr⟩
  | some inFolderPath =>
    let dir := Join [versionsDir, inFolderPath]
    let m := MkdirAll fs dir
    match m.1 with
    | some e =>
      if IsExist e then
        moveAndPrune v m.2 filePath fileInfo dir file (tr ++ [Call.MkdirAll dir m.1])
      else ⟨.error e, m.2, tr ++ [Call.MkdirAll dir m.1]⟩
    | none => moveAndPrune v m.2 filePath fileInfo dir file (tr ++ [Call.MkdirAll dir m.1])

/-- The method `Simple.Archive`: move the named file away to the version archive. -/
def Archive (c : Config) (v : Simple) (fs : FS) (filePath : Str) : Outcome :=
  match Lstat fs filePath with
  | .error e => if IsNotExist e then ⟨.nil, fs, []⟩ else ⟨.error e, fs, []⟩
  | .ok fileInfo =>
    let versionsDir := Join [v.folderPath, c.MarkerDir, c.VersionsDir]
    match Stat fs versionsDir with
    | .ok _ => archiveInto v fs filePath fileInfo versionsDir []
    | .error e =>
      if IsNotExist e then
        let m := MkdirAll fs versionsDir
        archiveInto v (HideFile m.2 versionsDir) filePath fileInfo versionsDir
          [Call.MkdirAll versionsDir m.1, Call.HideFile versionsDir]
      else ⟨.error e, fs, []⟩

/-- A name as a directory holds it: not empty, not `.` or `..`, without a separator. -/
def isName (e : Str) : Prop :=
  e ≠ [] ∧ e ≠ ['.'] ∧ e ≠ ['.', '.'] ∧ Separator ∉ e

/-! ## Reading a trace -/

/-- What the globs of a trace returned, in the order of the calls. -/
def globResults (tr : List Call) : List (Option (List Str)) :=
  tr.filterMap (fun call =>
    match call with
    | .Glob _ r => some r
    | _ => none)

/-- The paths a trace asks to remove, in the order of the calls. -/
def removedPaths (tr : List Call) : List Str :=
  tr.filterMap (fun call =>
    match call with
    | .Remove q _ => some q
    | _ => none)

/-- A call that prepares the archive: the creation of a directory, or its hiding. -/
def Call.isPrep : Call → Prop
  | .MkdirAll _ _ => True
  | .HideFile _ => True
  | _ => False

/-- A call of the loop that removes old versions. -/
def Call.isRemove : Call → Prop
  | .Remove _ _ => True
  | _ => False

/-- How the filesystem `fs2` comes from `fs` by preparing the archive: the working
directory is the same, what is new is a directory, what was there is there, and the calls
made are calls that prepare. -/
def Prepared (fs fs2 : FS) (tr : List Call) : Prop :=
  fs2.cwd = fs.cwd ∧ (∀ loc n, fs2.get loc = some n → fs.get loc = some n ∨ n.isDir = true)
    ∧ (∀ call ∈ tr, call.isPrep)
    ∧ ∀ loc n, fs.get loc = some n → fs2.get loc = some n

/-- The directory of the archive that takes the versions of a file, given where the
file's directory lies in the folder. -/
def archiveDir (c : Config) (v : Simple) (rel : Str) : Str :=
  Join [Join [v.folderPath, c.MarkerDir, c.VersionsDir], rel]

/-- The path a file is moved to. -/
def archiveDst (c : Config) (v : Simple) (rel filePath : Str) (fileInfo : FileInfo) : Str :=
  Join [archiveDir c v rel, taggedFilename (Base filePath) (Format fileInfo.modTime)]

/-- Whether a call is a removal that returned an error. -/
def Call.isFailedRemove : Call → Bool
  | .Remove _ (some _) => true
  | _ => false

/-- A call of the pruning: a glob or a removal. -/
def Call.isPruning : Call → Prop
  | .Glob _ _ => True
  | .Remove _ _ => True
  | _ => False

/-! ## Example filesystems -/

/-- A Go string from a literal. -/
def str (s : String) : Str := s.toList

/-- The constants of package `config` as the examples have them. -/
def exConfig : Config := ⟨str ".stfolder", str ".stversions"⟩

/-- Midnight of a day. -/
def day (year month d : Nat) : Time := ⟨year, month, d, 0, 0, 0⟩

/-- A folder `/f` that holds the file `a.txt` and has no archive yet. -/
def exFresh : FS :=
  { cwd := [], now := day 2015 6 1,
    nodes := [([str "f"], ⟨true, day 2015 1 1⟩),
      ([str "f", str "a.txt"], ⟨false, ⟨2015, 3, 4, 5, 6, 7⟩⟩)] }

/-- A folder `/f` that holds the file `a.txt` and an archive with two things named like
versions of it: a directory that is not empty, and a file. -/
def exStuck : FS :=
  { cwd := [], now := day 2015 6 1,
    nodes := [([str "f"], ⟨true, day 2015 1 1⟩),
      ([str "f", str "a.txt"], ⟨false, ⟨2015, 3, 4, 5, 6, 7⟩⟩),
      ([str "f", str ".stfolder"], ⟨true, day 2015 1 1⟩),
      ([str "f", str ".stfolder", str ".stversions"], ⟨true, day 2015 1 1⟩),
      ([str "f", str ".stfolder", str ".stversions", str "a~20140101-000000.txt"],
        ⟨true, day 2014 1 1⟩),
      ([str "f", str ".stfolder", str ".stversions", str "a~20140101-000000.txt", str "x"],
        ⟨false, day 2014 1 1⟩),
      ([str "f", str ".stfolder", str ".stversions", str "a~20140202-000000.txt"],
        ⟨false, day 2014 2 2⟩)] }

/-- A folder `/f` that holds the file `a.txt` and an archive with two versions of it: one
under its legacy name, one under its current name. -/
def exFull : FS :=
  { cwd := [], now := day 2015 6 1,
    nodes := [([str "f"], ⟨true, day 2015 1 1⟩),
      ([str "f", str "a.txt"], ⟨false, ⟨2015, 3, 4, 5, 6, 7⟩⟩),
      ([str "f", str ".stfolder"], ⟨true, day 2015 1 1⟩),
      ([str "f", str ".stfolder", str ".stversions"], ⟨true, day 2015 1 1⟩),
      ([str "f", str ".stfolder", str ".stversions", str "a~20140101-000000.txt"],
        ⟨false, day 2014 1 1⟩),
      ([str "f", str ".stfolder", str ".stversions", str "a.txt~20140202-000000"],
        ⟨false, day 2014 2 2⟩)] }

/-- Whether a character is a decimal digit. -/
def isDigit (c : Char) : Bool := decide ('0' ≤ c) && decide (c ≤ '9')

/-- Whether a string has the shape of a time in the time format: eight digits, a dash,
six digits. -/
def isTimestamp (t : Str) : Bool :=
  t.length == 15 && (t.drop 8).head? == some '-' && (t.take 8 ++ t.drop 9).all isDigit

/-- The places that hold a file in `after` and held nothing in `before`. -/
def newFiles (before after : FS) : List Loc :=
  ((after.nodes.map (fun e => e.1)).dedup).filter (fun loc =>
    (match after.get loc with
      | some n => !n.isDir
      | none => false) && (before.get loc).isNone)

/-- A folder `/f` that holds the file `a.txt`, last modified in 2015, and an archive with
a version of it from 2016. -/
def exNewer : FS :=
  { cwd := [], now := day 2016 6 1,
    nodes := [([str "f"], ⟨true, day 2015 1 1⟩),
      ([str "f", str "a.txt"], ⟨false, ⟨2015, 3, 4, 5, 6, 7⟩⟩),
      ([str "f", str ".stfolder"], ⟨true, day 2015 1 1⟩),
      ([str "f", str ".stfolder", str ".stversions"], ⟨true, day 2015 1 1⟩),
      ([str "f", str ".stfolder", str ".stversions", str "a~20160101-000000.txt"],
        ⟨false, day 2016 1 1⟩)] }

/-- The filesystem after a file was written at a place, as the program that fills the
folder does between two calls of `Archive`. -/
def FS.write (fs : FS) (loc : Loc) (n : FileInfo) : FS := (fs.erase loc).insert loc n

/-- A folder `/f` that holds the file `report[12].txt`, and an archive with one version
of `report1.txt` and one of `report2.txt`. -/
def exOthers : FS :=
  { cwd := [], now := day 2015 6 1,
    nodes := [([str "f"], ⟨true, day 2015 1 1⟩),
      ([str "f", str "report[12].txt"], ⟨false, ⟨2015, 3, 4, 5, 6, 7⟩⟩),
      ([str "f", str ".stfolder"], ⟨true, day 2015 1 1⟩),
      ([str "f", str ".stfolder", str ".stversions"], ⟨true, day 2015 1 1⟩),
      ([str "f", str ".stfolder", str ".stversions", str "report1~20150101-000000.txt"],
        ⟨false, day 2015 1 1⟩),
      ([str "f", str ".stfolder", str ".stversions", str "report2~20150101-000000.txt"],
        ⟨false, day 2015 1 1⟩)] }

/-- A folder `/f` that holds the file `report[1].txt`, last modified on 1 January 2015,
and has no archive yet. -/
def exBracket : FS :=
  { cwd := [], now := day 2015 6 1,
    nodes := [([str "f"], ⟨true, day 2015 1 1⟩),
      ([str "f", str "report[1].txt"], ⟨false, day 2015 1 1⟩)] }

/-- The filesystem after `Archive` was called for `/f/report[1].txt` in `exBracket`, a
new version of the file was written on 2 February 2015, and `Archive` was called for it
again, all with `keep = 1`. -/
def exBracketTwice : FS :=
  (Archive exConfig ⟨1, str "/f"⟩
    ((Archive exConfig ⟨1, str "/f"⟩ exBracket (str "/f/report[1].txt")).fs.write
      [str "f", str "report[1].txt"] ⟨false, day 2015 2 2⟩)
    (str "/f/report[1].txt")).fs

/-- A folder `/f` that holds the file `report[1].txt`, last modified on 2 February 2015,
and an archive with the version of that file of 1 January 2015. -/
def exBracketArchived : FS :=
  { cwd := [], now := day 2015 6 1,
    nodes := [([str "f"], ⟨true, day 2015 1 1⟩),
      ([str "f", str "report[1].txt"], ⟨false, day 2015 2 2⟩),
      ([str "f", str ".stfolder"], ⟨true, day 2015 1 1⟩),
      ([str "f", str ".stfolder", str ".stversions"], ⟨true, day 2015 1 1⟩),
      ([str "f", str ".stfolder", str ".stversions", str "report[1]~20150101-000000.txt"],
        ⟨false, day 2015 1 1⟩)] }

/-- A folder `/f` that holds the file `report.txt`, last modified on the given day, and
has no archive yet. -/
def exReport (t : Time) : FS :=
  { cwd := [], now := day 2015 6 1,
    nodes := [([str "f"], ⟨true, day 2015 1 1⟩), ([str "f", str "report.txt"], ⟨false, t⟩)] }

/-- The filesystem after `/f/report.txt` was archived three times with `keep = 2`, the
file written anew with the next modification time before the second and the third
call. -/
def exReportThrice (t1 t2 t3 : Time) : FS :=
  (Archive exConfig ⟨2, str "/f"⟩
    ((Archive exConfig ⟨2, str "/f"⟩
      ((Archive exConfig ⟨2, str "/f"⟩ (exReport t1) (str "/f/report.txt")).fs.write
        [str "f", str "report.txt"] ⟨false, t2⟩)
      (str "/f/report.txt")).fs.write [str "f", str "report.txt"] ⟨false, t3⟩)
    (str "/f/report.txt")).fs

/-- The shape of cleaned elements: some `..` first, none of them in a rooted path, then
names. -/
def CleanList (rooted : Bool) (elems : List Str) : Prop :=
  ∃ k names, elems = List.replicate k ['.', '.'] ++ names ∧ (∀ n ∈ names, isName n)
    ∧ (rooted = true → k = 0)

/-! ## Patterns of plain characters and digit classes -/

/-- Whether a character is magic in a pattern of `Match`. -/
def isMeta (c : Char) : Bool := c == '*' || c == '?' || c == '[' || c == '\\'

/-- Whether a string holds no character that is magic in a pattern. -/
def isPlain (s : Str) : Bool := s.all (fun c => !isMeta c)

/-- The class of the decimal digits in a pattern. -/
def digitClass : Str := ['[', '0', '-', '9', ']']

/-- An item of a pattern that is made of plain characters and digit classes. -/
inductive Item where
  | lit (c : Char)
  | digit
  deriving DecidableEq, Repr

/-- The pattern an item list stands for. -/
def renderItems : List Item → Str
  | [] => []
  | .lit c :: rest => c :: renderItems rest
  | .digit :: rest => digitClass ++ renderItems rest

/-- What it means for such a pattern to match the beginning of a string: item by item,
a plain character matches itself and a digit class matches a digit. -/
def refMatch : List Item → Str → ChunkResult
  | [], s => .yes s
  | _ :: _, [] => .no
  | .lit c :: items, r :: s => if c = r then refMatch items s else .no
  | .digit :: items, r :: s => if isDigit r then refMatch items s else .no

/-- The items of the pattern for any timestamp. -/
def timeItems : List Item :=
  List.replicate 8 Item.digit ++ Item.lit '-' :: List.replicate 6 Item.digit

/-- The items of a pattern are all plain. -/
def plainItems (items : List Item) : Prop :=
  ∀ c, Item.lit c ∈ items → isMeta c = false

/-- The items of a string of plain characters. -/
def lits (s : Str) : List Item := s.map Item.lit

/-- The items of the pattern for the versions of a file under their current names. -/
def newItems (file : Str) : List Item :=
  lits (file.take (file.length - (Ext file).length)) ++ Item.lit '~' :: (timeItems ++ lits (Ext file))

/-- The items of the pattern for the versions of a file under their legacy names. -/
def oldItems (file : Str) : List Item :=
  lits file ++ Item.lit '~' :: timeItems


/-! ## The directory part of a joined path -/

/-- What `Join` puts before a name that is joined to a directory. -/
def joinFront (dir : Str) : Str :=
  if dir = [] then []
  else
    (if isRooted dir then [Separator] else [])
      ++ (if cleanElems (isRooted dir) dir = [] then []
          else joinSep (cleanElems (isRooted dir) dir) ++ [Separator])

/-- The directory `Glob` reads for a pattern whose part up to its last separator is
given. -/
def globDir (front : Str) : Str :=
  if front = [] then ['.'] else if front = [Separator] then front else front.dropLast
/-! ## Paths: elements and last elements -/

theorem splitSep_ne_nil (s : Str) : splitSep s ≠ [] := by
  cases s with
  | nil => simp [splitSep]
  | cons c cs =>
    unfold splitSep
    split
    · simp
    · split <;> simp

theorem splitSep_append_sep (a b : Str) :
    splitSep (a ++ Separator :: b) = splitSep a ++ splitSep b := by
  induction a with
  | nil => simp [splitSep]
  | cons c cs ih =>
    by_cases hc : c = Separator
    · simp [splitSep, hc, ih]
    · have hne := splitSep_ne_nil cs
      cases hs : splitSep cs with
      | nil => exact absurd hs hne
      | cons h t => simp [splitSep, hc, ih, hs]

theorem splitSep_noSep (s : Str) (h : Separator ∉ s) : splitSep s = [s] := by
  induction s with
  | nil => rfl
  | cons c cs ih =>
    have hc : c ≠ Separator := fun e => h (by simp [e])
    have hcs : Separator ∉ cs := fun e => h (by simp [e])
    simp [splitSep, hc, ih hcs]

theorem splitSep_replicate (k : Nat) :
    splitSep (List.replicate k Separator) = List.replicate (k + 1) [] := by
  induction k with
  | zero => rfl
  | succ k ih => simp [List.replicate_succ, splitSep, ih]

theorem splitSep_name_seps (b : Str) (hb : Separator ∉ b) (k : Nat) :
    splitSep (b ++ List.replicate k Separator) = [b] ++ List.replicate k [] := by
  cases k with
  | zero => simp [splitSep_noSep b hb]
  | succ k =>
    rw [List.replicate_succ, splitSep_append_sep, splitSep_noSep b hb, splitSep_replicate]

theorem lastElem_noSep (q : Str) : Separator ∉ lastElem q := by
  unfold lastElem
  intro h
  rw [List.mem_reverse] at h
  have := List.mem_takeWhile_imp h
  simp at this

theorem lastElem_decomp (q : Str) :
    ∃ pre, q = pre ++ lastElem q ∧ (pre = [] ∨ ∃ X, pre = X ++ [Separator]) := by
  refine ⟨(q.reverse.dropWhile (fun c => c != Separator)).reverse, ?_, ?_⟩
  · unfold lastElem
    rw [← List.reverse_append, List.takeWhile_append_dropWhile, List.reverse_reverse]
  · cases hd : q.reverse.dropWhile (fun c => c != Separator) with
    | nil => left; rfl
    | cons c rest =>
      right
      have hc := List.head_dropWhile_not (fun c => c != Separator) q.reverse (by simp [hd])
      simp [hd] at hc
      exact ⟨rest.reverse, by simp [hc]⟩

theorem strip_decomp (p : Str) :
    ∃ k, p = stripTrailingSep p ++ List.replicate k Separator := by
  refine ⟨(p.reverse.takeWhile (fun c => c == Separator)).length, ?_⟩
  have h1 : p.reverse.takeWhile (fun c => c == Separator)
      = List.replicate (p.reverse.takeWhile (fun c => c == Separator)).length Separator := by
    rw [List.eq_replicate_iff]
    refine ⟨rfl, ?_⟩
    intro b hb
    have := List.mem_takeWhile_imp hb
    simpa using this
  have h2 : p.reverse = p.reverse.takeWhile (fun c => c == Separator)
      ++ p.reverse.dropWhile (fun c => c == Separator) :=
    (List.takeWhile_append_dropWhile _ _).symm
  have h3 := congrArg List.reverse h2
  rw [List.reverse_reverse, List.reverse_append] at h3
  unfold stripTrailingSep
  rw [h1] at h3
  rw [List.reverse_replicate] at h3
  exact h3

theorem lastElem_strip_ne_nil (p : Str) (h : stripTrailingSep p ≠ []) :
    lastElem (stripTrailingSep p) ≠ [] := by
  unfold lastElem stripTrailingSep at *
  rw [List.reverse_reverse]
  cases hd : p.reverse.dropWhile (fun c => c == Separator) with
  | nil => simp [hd] at h
  | cons c rest =>
    have hc := List.head_dropWhile_not (fun c => c == Separator) p.reverse (by simp [hd])
    simp [hd] at hc
    have hc2 : (c != Separator) = true := by simp [hc]
    simp [List.takeWhile, hc2]

/-- The elements of a path whose base is a name: some elements, the base, and empty
elements for the trailing separators. -/
theorem base_decomp (p : Str) (hp : p ≠ []) (hb : Base p ≠ [Separator]) :
    ∃ L k, splitSep p = L ++ [Base p] ++ List.replicate k [] ∧ Separator ∉ Base p
      ∧ Base p ≠ [] := by
  have hq : stripTrailingSep p ≠ [] := by
    intro h
    apply hb
    simp [Base, hp, h]
  have hbase : Base p = lastElem (stripTrailingSep p) := by simp [Base, hp, hq]
  obtain ⟨k, hk⟩ := strip_decomp p
  obtain ⟨pre, hpre, hcases⟩ := lastElem_decomp (stripTrailingSep p)
  have hns : Separator ∉ Base p := by rw [hbase]; exact lastElem_noSep _
  have hne : Base p ≠ [] := by rw [hbase]; exact lastElem_strip_ne_nil p hq
  rw [← hbase] at hpre
  have hsplit := congrArg splitSep hk
  rw [hpre] at hsplit
  rcases hcases with h0 | ⟨X, hX⟩
  · refine ⟨[], k, ?_, hns, hne⟩
    rw [hsplit, h0]
    simpa using splitSep_name_seps (Base p) hns k
  · refine ⟨splitSep X, k, ?_, hns, hne⟩
    rw [hsplit, hX]
    have : X ++ [Separator] ++ Base p ++ List.replicate k Separator
        = X ++ Separator :: (Base p ++ List.replicate k Separator) := by simp
    rw [this, splitSep_append_sep, splitSep_name_seps (Base p) hns k]
    simp

theorem foldl_resolveStep_empties (init : Loc) (k : Nat) :
    (List.replicate k ([] : Str)).foldl resolveStep init = init := by
  induction k with
  | zero => rfl
  | succ k ih => simp [List.replicate_succ, resolveStep, ih]

theorem resolveStep_name (acc : Loc) (e : Str) (h : isName e) :
    resolveStep acc e = acc ++ [e] := by
  obtain ⟨h1, h2, h3, _⟩ := h
  simp [resolveStep, h1, h2, h3]

/-- The place a path names ends in the base of the path, when the base is a name. -/
theorem resolve_base (fs : FS) (p : Str) (hp : p ≠ []) (h1 : Base p ≠ [Separator])
    (h2 : Base p ≠ ['.']) (h3 : Base p ≠ ['.', '.']) :
    ∃ A, fs.resolve p = A ++ [Base p] := by
  obtain ⟨L, k, hs, hns, hne⟩ := base_decomp p hp h1
  refine ⟨L.foldl resolveStep (if isRooted p then [] else fs.cwd), ?_⟩
  unfold FS.resolve
  rw [hs, List.foldl_append, List.foldl_append, foldl_resolveStep_empties]
  simp [resolveStep_name _ _ ⟨hne, h2, h3, hns⟩]

/-! ## Joining a name to a directory -/

theorem cleanStep_name (r : Bool) (acc : List Str) (e : Str) (h : isName e) :
    cleanStep r acc e = acc ++ [e] := by
  obtain ⟨h1, h2, h3, _⟩ := h
  simp [cleanStep, h1, h2, h3]

theorem joinSep_append_singleton (E : List Str) (e : Str) :
    joinSep (E ++ [e]) = if E = [] then e else joinSep E ++ Separator :: e := by
  induction E with
  | nil => simp [joinSep]
  | cons a rest ih =>
    cases rest with
    | nil => simp [joinSep]
    | cons b rest2 =>
      simp only [List.cons_append, joinSep] at ih ⊢
      simp at ih
      simp [ih]

theorem name_not_rooted (n : Str) (h : isName n) : isRooted n = false := by
  obtain ⟨h1, _, _, h4⟩ := h
  cases n with
  | nil => exact absurd rfl h1
  | cons c cs =>
    have : c ≠ Separator := fun e => h4 (by simp [e])
    simp [isRooted, this]

theorem isRooted_append (d x : Str) (hd : d ≠ []) : isRooted (d ++ x) = isRooted d := by
  cases d with
  | nil => exact absurd rfl hd
  | cons c cs => rfl

/-- Joining a name to a directory puts the name behind a text that depends on the
directory alone and is empty or ends in a separator. -/
theorem join_name_eq (dir : Str) :
    ∃ P : Str, (P = [] ∨ ∃ X, P = X ++ [Separator]) ∧
      ∀ n, isName n → Join [dir, n] = P ++ n := by
  by_cases hdir : dir = []
  · refine ⟨[], Or.inl rfl, ?_⟩
    intro n hn
    have hne : n ≠ [] := hn.1
    have hsplit : splitSep n = [n] := splitSep_noSep n hn.2.2.2
    simp [Join, hdir, hne, joinSep, Clean, name_not_rooted n hn, cleanElems, hsplit,
      cleanStep_name _ _ _ hn]
  · let r := isRooted dir
    let E := (splitSep dir).foldl (cleanStep r) []
    have hclean : ∀ n, isName n → Join [dir, n]
        = (if r then [Separator] else []) ++ (if E = [] then n else joinSep E ++ Separator :: n) := by
      intro n hn
      have hne : n ≠ [] := hn.1
      have hsplit : splitSep n = [n] := splitSep_noSep n hn.2.2.2
      have hroot : isRooted (dir ++ Separator :: n) = r := isRooted_append dir _ hdir
      have helems : cleanElems r (dir ++ Separator :: n) = E ++ [n] := by
        simp [cleanElems, splitSep_append_sep, hsplit, List.foldl_append,
          cleanStep_name _ _ _ hn, E]
      simp only [Join, List.filter, hdir, hne, decide_not, decide_False, Bool.not_false,
        joinSep, Clean, hroot, helems, joinSep_append_singleton]
      cases r <;> simp
    by_cases hE : E = []
    · cases hr : r
      · refine ⟨[], Or.inl rfl, ?_⟩
        intro n hn
        rw [hclean n hn]
        simp [hE, hr]
      · refine ⟨[Separator], Or.inr ⟨[], rfl⟩, ?_⟩
        intro n hn
        rw [hclean n hn]
        simp [hE, hr]
    · refine ⟨(if r then [Separator] else []) ++ joinSep E ++ [Separator],
        Or.inr ⟨(if r then [Separator] else []) ++ joinSep E, rfl⟩, ?_⟩
      intro n hn
      rw [hclean n hn]
      simp [hE]

theorem splitSep_join_name (dir ver : Str) (h : isName ver) :
    ∃ L, splitSep (Join [dir, ver]) = L ++ [ver] := by
  obtain ⟨P, hP, hjoin⟩ := join_name_eq dir
  rw [hjoin ver h]
  rcases hP with h0 | ⟨X, hX⟩
  · exact ⟨[], by simp [h0, splitSep_noSep ver h.2.2.2]⟩
  · refine ⟨splitSep X, ?_⟩
    rw [hX]
    have : X ++ [Separator] ++ ver = X ++ Separator :: ver := by simp
    rw [this, splitSep_append_sep, splitSep_noSep ver h.2.2.2]

/-- The place a joined path names ends in the joined name. -/
theorem resolve_join_name (fs : FS) (dir ver : Str) (h : isName ver) :
    ∃ A, fs.resolve (Join [dir, ver]) = A ++ [ver] := by
  obtain ⟨L, hL⟩ := splitSep_join_name dir ver h
  refine ⟨L.foldl resolveStep (if isRooted (Join [dir, ver]) then [] else fs.cwd), ?_⟩
  unfold FS.resolve
  rw [hL, List.foldl_append]
  simp [resolveStep_name _ _ h]

/-! ## `Clean` is idempotent, and `Join` can be nested -/

theorem splitSep_elems_noSep (p : Str) : ∀ e ∈ splitSep p, Separator ∉ e := by
  induction p with
  | nil => simp [splitSep]
  | cons c cs ih =>
    intro e he
    unfold splitSep at he
    split at he
    · simp only [List.mem_cons] at he
      rcases he with he | he
      · rw [he]; simp
      · exact ih e he
    · rename_i hc
      split at he
      · simp only [List.mem_singleton] at he
        rw [he]
        simp
        exact fun h => hc h.symm
      · rename_i h t hs
        simp only [List.mem_cons] at he
        rcases he with he | he
        · rw [he]
          simp only [List.mem_cons, not_or]
          exact ⟨fun h => hc h.symm, ih h (by rw [hs]; simp)⟩
        · exact ih e (by rw [hs]; simp [he])

theorem splitSep_joinSep (E : List Str) (hne : E ≠ []) (h : ∀ e ∈ E, Separator ∉ e) :
    splitSep (joinSep E) = E := by
  induction E with
  | nil => exact absurd rfl hne
  | cons a rest ih =>
    cases rest with
    | nil => simp [joinSep, splitSep_noSep a (h a (by simp))]
    | cons b rest2 =>
      simp only [joinSep]
      rw [splitSep_append_sep, splitSep_noSep a (h a (by simp)),
        ih (by simp) (fun e he => h e (by simp [he]))]
      rfl

theorem cleanList_elems (r : Bool) (E : List Str) (h : CleanList r E) :
    ∀ e ∈ E, e ≠ [] ∧ Separator ∉ e := by
  obtain ⟨k, names, hE, hn, _⟩ := h
  intro e he
  rw [hE, List.mem_append] at he
  rcases he with he | he
  · have := List.eq_of_mem_replicate he
    rw [this]
    exact ⟨by simp, by simp [Separator]⟩
  · exact ⟨(hn e he).1, (hn e he).2.2.2⟩

theorem cleanStep_clean (r : Bool) (acc : List Str) (c : Str) (h : CleanList r acc)
    (hc : Separator ∉ c) : CleanList r (cleanStep r acc c) := by
  obtain ⟨k, names, hE, hn, hr⟩ := h
  unfold cleanStep
  split
  · exact ⟨k, names, hE, hn, hr⟩
  · rename_i h1
    simp only [not_or] at h1
    split
    · rename_i h2
      cases hl : acc.getLast? with
      | none =>
        dsimp only
        split
        · exact ⟨k, names, hE, hn, hr⟩
        · rename_i hroot
          have hacc : acc = [] := List.getLast?_eq_none_iff.mp hl
          refine ⟨1, [], by simp [hacc, h2], by simp, fun h => absurd h hroot⟩
      | some top =>
        dsimp only
        split
        · rename_i htop
          have hnames : names = [] := by
            by_contra hne
            have : acc.getLast? = names.getLast? := by
              rw [hE, List.getLast?_append_of_ne_nil _ hne]
            rw [this] at hl
            have hmem := List.mem_of_getLast?_eq_some hl
            have := (hn top hmem).2.2.1
            exact this htop
          subst hnames
          have hk0 : ¬ r = true := by
            intro hrt
            have := hr hrt
            subst this
            simp at hE
            rw [hE] at hl
            simp at hl
          refine ⟨k + 1, [], ?_, by simp, fun h => absurd h hk0⟩
          rw [hE, h2]
          simp [List.replicate_succ']
        · rename_i htop
          have hnames : names ≠ [] := by
            intro hne
            subst hne
            simp at hE
            rw [hE] at hl
            have hmem := List.mem_of_getLast?_eq_some hl
            exact htop (List.eq_of_mem_replicate hmem)
          refine ⟨k, names.dropLast, ?_, fun n hn1 => hn n (List.mem_of_mem_dropLast hn1), hr⟩
          rw [hE, List.dropLast_append_of_ne_nil _ hnames]
    · rename_i h2
      refine ⟨k, names ++ [c], by rw [hE]; simp, ?_, hr⟩
      intro n hn1
      rw [List.mem_append] at hn1
      rcases hn1 with hn1 | hn1
      · exact hn n hn1
      · simp only [List.mem_singleton] at hn1
        rw [hn1]
        exact ⟨h1.1, h1.2, h2, hc⟩

theorem foldl_cleanStep_clean (r : Bool) (l : List Str) : ∀ (acc : List Str),
    CleanList r acc → (∀ e ∈ l, Separator ∉ e) → CleanList r (l.foldl (cleanStep r) acc) := by
  induction l with
  | nil => intro acc h _; exact h
  | cons c rest ih =>
    intro acc h hl
    simp only [List.foldl_cons]
    exact ih _ (cleanStep_clean r acc c h (hl c (by simp))) (fun e he => hl e (by simp [he]))

theorem cleanElems_clean (r : Bool) (p : Str) : CleanList r (cleanElems r p) :=
  foldl_cleanStep_clean r _ [] ⟨0, [], rfl, by simp, fun _ => rfl⟩ (splitSep_elems_noSep p)

theorem foldl_cleanStep_names (r : Bool) (names : List Str) : ∀ (acc : List Str),
    (∀ n ∈ names, isName n) → names.foldl (cleanStep r) acc = acc ++ names := by
  induction names with
  | nil => intro acc _; simp
  | cons n rest ih =>
    intro acc h
    simp only [List.foldl_cons]
    rw [cleanStep_name r acc n (h n (by simp)), ih _ (fun m hm => h m (by simp [hm]))]
    simp

theorem foldl_cleanStep_dots (k : Nat) :
    (List.replicate k ['.', '.']).foldl (cleanStep false) [] = List.replicate k ['.', '.'] := by
  induction k with
  | zero => rfl
  | succ k ih =>
    rw [List.replicate_succ', List.foldl_append, ih]
    simp only [List.foldl_cons, List.foldl_nil]
    unfold cleanStep
    simp only [List.cons_ne_self, false_or, if_false, if_true]
    have h1 : ¬ (['.', '.'] : Str) = [] := by simp
    have h2 : ¬ (['.', '.'] : Str) = ['.'] := by simp
    simp only [h1, h2, or_self, if_false]
    cases k with
    | zero => simp
    | succ k => simp [List.replicate_succ']

theorem foldl_cleanStep_id (r : Bool) (E : List Str) (h : CleanList r E) :
    E.foldl (cleanStep r) [] = E := by
  obtain ⟨k, names, hE, hn, hr⟩ := h
  rw [hE, List.foldl_append]
  cases r with
  | true =>
    have := hr rfl
    subst this
    simp only [List.replicate_zero, List.foldl_nil, List.nil_append]
    rw [foldl_cleanStep_names true names [] hn]
    simp
  | false =>
    rw [foldl_cleanStep_dots, foldl_cleanStep_names false names _ hn]

theorem joinSep_ne_nil (E : List Str) (hne : E ≠ []) (h : ∀ e ∈ E, e ≠ []) :
    joinSep E ≠ [] := by
  cases E with
  | nil => exact absurd rfl hne
  | cons a rest =>
    cases rest with
    | nil => simpa [joinSep] using h a (by simp)
    | cons b rest2 => simp [joinSep]

theorem isRooted_joinSep (E : List Str) (hne : E ≠ [])
    (h : ∀ e ∈ E, e ≠ [] ∧ Separator ∉ e) : isRooted (joinSep E) = false := by
  cases E with
  | nil => exact absurd rfl hne
  | cons a rest =>
    obtain ⟨ha, hs⟩ := h a (by simp)
    cases a with
    | nil => exact absurd rfl ha
    | cons c cs =>
      have hc : c ≠ Separator := fun e => hs (by simp [e])
      cases rest with
      | nil => simp [joinSep, isRooted, hc]
      | cons b rest2 => simp [joinSep, isRooted, hc]

theorem clean_ne_nil (p : Str) : Clean p ≠ [] := by
  unfold Clean
  dsimp only
  split
  · simp
  · split
    · simp
    · rename_i hE
      exact joinSep_ne_nil _ hE (fun e he => (cleanList_elems _ _ (cleanElems_clean _ p) e he).1)

theorem isRooted_clean (p : Str) : isRooted (Clean p) = isRooted p := by
  unfold Clean
  dsimp only
  cases hr : isRooted p with
  | true => simp [isRooted, Separator]
  | false =>
    simp only [Bool.false_eq_true, if_false]
    split
    · rfl
    · rename_i hE
      exact isRooted_joinSep _ hE (cleanList_elems _ _ (cleanElems_clean _ p))

theorem cleanElems_of_clean (p : Str) :
    cleanElems (isRooted p) (Clean p) = cleanElems (isRooted p) p := by
  have hcl := cleanElems_clean (isRooted p) p
  have hid := foldl_cleanStep_id _ _ hcl
  have hel := cleanList_elems _ _ hcl
  unfold Clean
  dsimp only
  cases hr : isRooted p with
  | true =>
    rw [hr] at hcl hid hel
    simp only [if_true]
    by_cases hE : cleanElems true p = []
    · rw [hE]
      simp [cleanElems, joinSep, splitSep, Separator, cleanStep]
    · have hs := splitSep_joinSep _ hE (fun e he => (hel e he).2)
      have : cleanElems true (Separator :: joinSep (cleanElems true p))
          = (splitSep (joinSep (cleanElems true p))).foldl (cleanStep true) [] := by
        simp [cleanElems, splitSep, cleanStep]
      rw [this, hs, hid]
  | false =>
    rw [hr] at hcl hid hel
    simp only [Bool.false_eq_true, if_false]
    by_cases hE : cleanElems false p = []
    · rw [if_pos hE, hE]
      simp [cleanElems, splitSep, Separator, cleanStep]
    · rw [if_neg hE]
      have hs := splitSep_joinSep _ hE (fun e he => (hel e he).2)
      unfold cleanElems at hs hid ⊢
      rw [hs, hid]

theorem clean_eq (p : Str) :
    Clean p = if isRooted p = true then Separator :: joinSep (cleanElems (isRooted p) p)
      else if cleanElems (isRooted p) p = [] then ['.']
      else joinSep (cleanElems (isRooted p) p) := rfl

/-- `Clean` leaves a cleaned path as it is. -/
theorem clean_idem (p : Str) : Clean (Clean p) = Clean p := by
  have h1 := isRooted_clean p
  have h2 := cleanElems_of_clean p
  rw [clean_eq (Clean p), h1, h2]
  exact (clean_eq p).symm

/-- Cleaning the front of a path first changes nothing. -/
theorem clean_join (X Y : Str) (hX : X ≠ []) :
    Clean (Clean X ++ Separator :: Y) = Clean (X ++ Separator :: Y) := by
  have h1 : isRooted (Clean X ++ Separator :: Y) = isRooted X := by
    rw [isRooted_append _ _ (clean_ne_nil X), isRooted_clean]
  have h2 : isRooted (X ++ Separator :: Y) = isRooted X := isRooted_append _ _ hX
  have h3 : cleanElems (isRooted X) (Clean X ++ Separator :: Y)
      = cleanElems (isRooted X) (X ++ Separator :: Y) := by
    have := cleanElems_of_clean X
    unfold cleanElems at this ⊢
    rw [splitSep_append_sep, splitSep_append_sep, List.foldl_append, List.foldl_append, this]
  rw [clean_eq (Clean X ++ Separator :: Y), clean_eq (X ++ Separator :: Y), h1, h2, h3]

theorem joinSep_append (A B : List Str) (hA : A ≠ []) (hB : B ≠ []) :
    joinSep (A ++ B) = joinSep A ++ Separator :: joinSep B := by
  induction A with
  | nil => exact absurd rfl hA
  | cons a rest ih =>
    cases rest with
    | nil =>
      cases B with
      | nil => exact absurd rfl hB
      | cons b rest2 => simp [joinSep]
    | cons a2 rest2 =>
      have h1 := ih (by simp)
      have h2 : joinSep (a :: a2 :: rest2 ++ B)
          = a ++ Separator :: joinSep (a2 :: rest2 ++ B) := rfl
      have h3 : joinSep (a :: a2 :: rest2) = a ++ Separator :: joinSep (a2 :: rest2) := rfl
      rw [h2, h1, h3]
      simp

theorem join_eq (es : List Str) :
    Join es = match es.filter (fun e => e ≠ []) with
      | [] => []
      | es1 => Clean (joinSep es1) := rfl

/-- A join whose first element is itself a join is the join of all the elements. -/
theorem join_nested (xs ys : List Str) : Join (Join xs :: ys) = Join (xs ++ ys) := by
  have hfilter : ∀ l : List Str, ∀ e ∈ l.filter (fun e => e ≠ []), e ≠ [] := by
    intro l e he
    have := (List.mem_filter.mp he).2
    simpa using this
  cases hx : xs.filter (fun e => e ≠ []) with
  | nil =>
    have hJ : Join xs = [] := by rw [join_eq, hx]
    rw [hJ, join_eq, join_eq, List.filter_append, hx, List.nil_append,
      List.filter_cons_of_neg (by simp)]
  | cons a rest =>
    have hJ : Join xs = Clean (joinSep (a :: rest)) := by rw [join_eq, hx]
    have hXne : joinSep (a :: rest) ≠ [] :=
      joinSep_ne_nil _ (by simp) (fun e he => hfilter xs e (by rw [hx]; exact he))
    have hcne : Clean (joinSep (a :: rest)) ≠ [] := clean_ne_nil _
    rw [hJ, join_eq, join_eq, List.filter_append, hx,
      List.filter_cons_of_pos (by simpa using hcne)]
    cases hy : ys.filter (fun e => e ≠ []) with
    | nil =>
      simp only [List.append_nil]
      show Clean (Clean (joinSep (a :: rest))) = Clean (joinSep (a :: rest))
      exact clean_idem _
    | cons b rest2 =>
      show Clean (joinSep (Clean (joinSep (a :: rest)) :: b :: rest2))
        = Clean (joinSep ((a :: rest) ++ (b :: rest2)))
      rw [joinSep_append (a :: rest) (b :: rest2) (by simp) (by simp)]
      exact clean_join _ _ hXne

/-- The destination of the move, as one join. -/
theorem archiveDst_flat (c : Config) (v : Simple) (rel p : Str) (fi : FileInfo) :
    archiveDst c v rel p fi
      = Join [v.folderPath, c.MarkerDir, c.VersionsDir, rel,
          taggedFilename (Base p) (Format fi.modTime)] := by
  unfold archiveDst archiveDir
  rw [join_nested, List.cons_append, join_nested]
  rfl

/-! ## Tagged names -/

theorem extScan_mem (l : Str) : ∀ (acc r : Str), extScan l acc = some r →
    ∀ c ∈ r, c ∈ l ∨ c ∈ acc := by
  induction l with
  | nil => intro acc r h; simp [extScan] at h
  | cons a rest ih =>
    intro acc r h c hc
    unfold extScan at h
    split at h
    · simp at h
    · split at h
      · simp at h
        subst h
        simp at hc
        rcases hc with h1 | h1
        · left; simp [h1]
        · right; exact h1
      · rcases ih _ _ h c hc with h1 | h1
        · left; simp [h1]
        · simp at h1
          rcases h1 with h2 | h2
          · left; simp [h2]
          · right; exact h2

theorem ext_mem (p : Str) (c : Char) (h : c ∈ Ext p) : c ∈ p := by
  unfold Ext at h
  cases hs : extScan p.reverse [] with
  | none => simp [hs] at h
  | some r =>
    simp [hs] at h
    rcases extScan_mem _ _ _ hs c h with h1 | h1
    · simpa using h1
    · simp at h1

theorem tagged_length (name tag : Str) :
    name.length < (taggedFilename name tag).length := by
  unfold taggedFilename
  simp
  omega

theorem tagged_isName (name tag : Str) (hn : Separator ∉ name) (ht : Separator ∉ tag) :
    isName (taggedFilename name tag) := by
  have hmem : '~' ∈ taggedFilename name tag := by simp [taggedFilename]
  refine ⟨?_, ?_, ?_, ?_⟩
  · intro h; rw [h] at hmem; simp at hmem
  · intro h; rw [h] at hmem; simp at hmem
  · intro h; rw [h] at hmem; simp at hmem
  · intro h
    unfold taggedFilename at h
    simp only [List.mem_append, List.mem_cons] at h
    rcases h with h | h | h | h
    · exact hn (List.mem_of_mem_take h)
    · simp [Separator] at h
    · exact ht h
    · exact hn (ext_mem _ _ h)

theorem digit_ne_sep (n : Nat) : digit n ≠ Separator := by
  unfold digit
  have h : n % 10 < 10 := Nat.mod_lt _ (by decide)
  generalize n % 10 = k at h
  interval_cases k <;> decide

theorem bigDigits_noSep (fuel : Nat) : ∀ n, Separator ∉ bigDigits fuel n := by
  induction fuel with
  | zero => intro n; simp [bigDigits]
  | succ f ih =>
    intro n
    unfold bigDigits
    split
    · simp
    · simp only [List.mem_append, List.mem_singleton, not_or]
      exact ⟨ih _, fun h => digit_ne_sep n h.symm⟩

theorem pad2_noSep (n : Nat) : Separator ∉ pad2 n := by
  simp [pad2]
  exact ⟨fun h => digit_ne_sep _ h.symm, fun h => digit_ne_sep _ h.symm⟩

theorem pad4_noSep (n : Nat) : Separator ∉ pad4 n := by
  unfold pad4
  split
  · simp
    exact ⟨fun h => digit_ne_sep _ h.symm, fun h => digit_ne_sep _ h.symm,
      fun h => digit_ne_sep _ h.symm, fun h => digit_ne_sep _ h.symm⟩
  · exact bigDigits_noSep _ _

theorem format_noSep (t : Time) : Separator ∉ Format t := by
  unfold Format
  simp only [List.mem_append, List.mem_cons, not_or]
  exact ⟨⟨⟨pad4_noSep _, pad2_noSep _⟩, pad2_noSep _⟩, by decide,
    ⟨pad2_noSep _, pad2_noSep _⟩, pad2_noSep _⟩

/-! ## The fuel of `Match` and `Glob` is enough -/

theorem getEsc_length (chunk : Str) (r : Char) (nchunk : Str)
    (h : getEsc chunk = some (r, nchunk)) : nchunk.length < chunk.length := by
  unfold getEsc at h
  split at h
  · simp at h
  · rename_i c rest
    split at h
    · simp at h
    · split at h
      · simp at h
      · rename_i r1 n1 heq
        split at h
        · simp at h
        · injection h with h
          injection h with _ h2
          subst h2
          by_cases hc : c = '\\'
          · simp [hc] at heq
            rw [heq]
            simp
            omega
          · simp [hc] at heq
            rw [← heq.2]
            simp

theorem classLoop_fuel (r : Char) : ∀ (f1 f2 : Nat) (chunk : Str) (nrange : Nat) (m : Bool),
    chunk.length < f1 → chunk.length < f2 →
    classLoop r f1 chunk nrange m = classLoop r f2 chunk nrange m := by
  intro f1
  induction f1 with
  | zero => intro f2 chunk nrange m h1; omega
  | succ f1 ih =>
    intro f2 chunk nrange m h1 h2
    cases f2 with
    | zero => omega
    | succ f2 =>
      unfold classLoop
      split
      · rfl
      · cases hg : getEsc chunk with
        | none => rfl
        | some p =>
          obtain ⟨lo, chunk1⟩ := p
          have hl1 := getEsc_length chunk lo chunk1 hg
          dsimp only
          split
          · cases hg2 : getEsc chunk1.tail with
            | none => rfl
            | some p2 =>
              obtain ⟨hi, chunk2⟩ := p2
              have hl2 := getEsc_length _ hi chunk2 hg2
              have hl3 : chunk1.tail.length ≤ chunk1.length := by simp
              dsimp only
              exact ih f2 chunk2 _ _ (by omega) (by omega)
          · exact ih f2 chunk1 _ _ (by omega) (by omega)

theorem classLoop_length (r : Char) : ∀ (f : Nat) (chunk : Str) (nrange : Nat) (m b : Bool)
    (rest : Str), classLoop r f chunk nrange m = some (b, rest) →
    rest.length < chunk.length := by
  intro f
  induction f with
  | zero => intro chunk nrange m b rest h; simp [classLoop] at h
  | succ f ih =>
    intro chunk nrange m b rest h
    unfold classLoop at h
    split at h
    · rename_i hc
      injection h with h
      injection h with _ h2
      subst h2
      cases chunk with
      | nil => simp at hc
      | cons a t => simp
    · cases hg : getEsc chunk with
      | none => rw [hg] at h; simp at h
      | some p =>
        obtain ⟨lo, chunk1⟩ := p
        have hl1 := getEsc_length chunk lo chunk1 hg
        rw [hg] at h
        dsimp only at h
        split at h
        · cases hg2 : getEsc chunk1.tail with
          | none => rw [hg2] at h; simp at h
          | some p2 =>
            obtain ⟨hi, chunk2⟩ := p2
            have hl2 := getEsc_length _ hi chunk2 hg2
            have hl3 : chunk1.tail.length ≤ chunk1.length := by simp
            rw [hg2] at h
            dsimp only at h
            have := ih _ _ _ _ _ h
            omega
        · have := ih _ _ _ _ _ h
          omega

theorem matchChunk_fuel : ∀ (f1 f2 : Nat) (chunk s : Str),
    chunk.length < f1 → chunk.length < f2 → matchChunk f1 chunk s = matchChunk f2 chunk s := by
  intro f1
  induction f1 with
  | zero => intro f2 chunk s h1; omega
  | succ f1 ih =>
    intro f2 chunk s h1 h2
    cases f2 with
    | zero => omega
    | succ f2 =>
      unfold matchChunk
      cases chunk with
      | nil => rfl
      | cons c chunk1 =>
        cases s with
        | nil => rfl
        | cons r s1 =>
          simp only [List.length_cons] at h1 h2
          dsimp only
          split
          · cases chunk1 with
            | nil => rfl
            | cons c1 chunk2 =>
              simp only [List.length_cons] at h1 h2
              dsimp only
              cases hcl : classLoop r ((if (c1 == '^') = true then chunk2 else c1 :: chunk2).length + 1)
                  (if (c1 == '^') = true then chunk2 else c1 :: chunk2) 0 false with
              | none => rfl
              | some p =>
                obtain ⟨matched, chunk3⟩ := p
                have hl := classLoop_length _ _ _ _ _ _ _ hcl
                have hb : (if (c1 == '^') = true then chunk2 else c1 :: chunk2).length
                    ≤ chunk2.length + 1 := by
                  split <;> simp
                dsimp only
                split
                · rfl
                · exact ih f2 chunk3 s1 (by omega) (by omega)
          · split
            · split
              · rfl
              · exact ih f2 chunk1 s1 (by omega) (by omega)
            · split
              · cases chunk1 with
                | nil => rfl
                | cons c1 chunk2 =>
                  simp only [List.length_cons] at h1 h2
                  dsimp only
                  split
                  · rfl
                  · exact ih f2 chunk2 s1 (by omega) (by omega)
              · split
                · rfl
                · exact ih f2 chunk1 s1 (by omega) (by omega)

theorem scanLoop_length (p : Str) (b : Bool) :
    (scanLoop p b).2.length ≤ p.length
      ∧ (∀ c rest, p = c :: rest → c ≠ '*' → (scanLoop p b).2.length < p.length) := by
  induction p, b using scanLoop.induct with
  | case1 x => simp [scanLoop]
  | case2 x => simp [scanLoop]
  | case3 c rest inrange ih =>
    rw [scanLoop.eq_3]
    simp only [List.length_cons]
    exact ⟨by omega, fun _ _ _ _ => by omega⟩
  | case4 rest inrange h1 h2 ih =>
    rw [scanLoop.eq_4 _ _ _ h1 h2]
    simp only [if_true, List.length_cons]
    exact ⟨by omega, fun _ _ _ _ => by omega⟩
  | case5 rest inrange h1 h2 h3 ih =>
    rw [scanLoop.eq_4 _ _ _ h1 h2]
    simp only [h3, if_false, if_true, List.length_cons]
    exact ⟨by omega, fun _ _ _ _ => by omega⟩
  | case6 rest h1 h2 h3 h4 ih =>
    rw [scanLoop.eq_4 _ _ _ h1 h2]
    simp only [h3, h4, if_false, if_true, List.length_cons]
    exact ⟨by omega, fun _ _ _ _ => by omega⟩
  | case7 rest inrange hb h1 h2 h3 h4 =>
    rw [scanLoop.eq_4 _ _ _ h1 h2]
    simp only [h3, h4, hb, if_false, if_true, List.length_cons, Bool.false_eq_true]
    refine ⟨by omega, fun c r hc hstar => ?_⟩
    injection hc with hc _
    exact absurd hc.symm hstar
  | case8 c rest inrange h1 h2 h3 h4 h5 ih =>
    rw [scanLoop.eq_4 _ _ _ h1 h2]
    simp only [h3, h4, h5, if_false, List.length_cons]
    exact ⟨by omega, fun _ _ _ _ => by omega⟩

theorem scanChunk_length (pattern : Str) (h : pattern ≠ []) :
    (scanChunk pattern).2.2.length < pattern.length := by
  unfold scanChunk
  dsimp only
  cases pattern with
  | nil => exact absurd rfl h
  | cons c cs =>
    by_cases hc : c = '*'
    · subst hc
      have h1 : ('*' :: cs).dropWhile (fun c => c == '*') = cs.dropWhile (fun c => c == '*') := by
        simp [List.dropWhile]
      rw [h1]
      have h2 := (scanLoop_length (cs.dropWhile (fun c => c == '*')) false).1
      have h3 := (List.dropWhile_sublist (fun c => c == '*') (l := cs)).length_le
      simp only [List.length_cons]
      omega
    · have h1 : (c :: cs).dropWhile (fun c => c == '*') = c :: cs := by
        have hcb : (c == '*') = false := by simp [hc]
        simp [List.dropWhile, hcb]
      rw [h1]
      exact (scanLoop_length (c :: cs) false).2 c cs rfl hc

theorem matchFuel_fuel : ∀ (f1 f2 : Nat) (pattern name : Str),
    pattern.length < f1 → pattern.length < f2 →
    matchFuel f1 pattern name = matchFuel f2 pattern name := by
  intro f1
  induction f1 with
  | zero => intro f2 pattern name h1; omega
  | succ f1 ih =>
    intro f2 pattern name h1 h2
    cases f2 with
    | zero => omega
    | succ f2 =>
      unfold matchFuel
      split
      · rfl
      · rename_i hne
        have hlen := scanChunk_length pattern hne
        have e1 := fun t => ih f2 (scanChunk pattern).2.2 t (by omega) (by omega)
        dsimp only
        split
        · rfl
        · split
          · rfl
          · split
            · exact e1 _
            · split
              · split
                · exact e1 _
                · rfl
                · rfl
              · rfl

/-- The result of `Match` does not depend on the fuel, once there is enough of it. -/
theorem match_fuel (fuel : Nat) (pattern name : Str) (h : pattern.length < fuel) :
    matchFuel fuel pattern name = Match pattern name :=
  matchFuel_fuel fuel (pattern.length + 1) pattern name h (Nat.lt_succ_self _)

theorem globFuel_fuel (fs : FS) : ∀ (f1 f2 : Nat) (pattern : Str),
    pattern.length < f1 → pattern.length < f2 →
    globFuel fs f1 pattern = globFuel fs f2 pattern := by
  intro f1
  induction f1 with
  | zero => intro f2 pattern h1; omega
  | succ f1 ih =>
    intro f2 pattern h1 h2
    cases f2 with
    | zero => omega
    | succ f2 =>
      unfold globFuel
      by_cases hm : hasMeta pattern = false
      · simp only [hm, if_true]
      · simp only [hm, if_false]
        generalize hd : (if (Split pattern).1 = [] then ['.']
            else if (Split pattern).1 = [Separator] then (Split pattern).1
            else (Split pattern).1.dropLast) = dir
        by_cases hmd : hasMeta dir = false
        · simp only [hmd, if_true]
        · simp only [hmd, if_false]
          have hdir : dir.length < pattern.length := by
            subst hd
            by_cases hA : (Split pattern).1 = []
            · simp [hA, hasMeta] at hmd
            · by_cases hB : (Split pattern).1 = [Separator]
              · simp [hB, hasMeta, Separator] at hmd
              · have hle : (Split pattern).1.length ≤ pattern.length := by
                  unfold Split
                  simp only [List.length_reverse]
                  have := (List.dropWhile_sublist (fun c => c != Separator)
                    (l := pattern.reverse)).length_le
                  simpa using this
                have hpos : 0 < (Split pattern).1.length := List.length_pos.mpr hA
                simp only [hA, hB, if_false, List.length_dropLast]
                omega
          rw [ih f2 dir (by omega) (by omega)]

/-- The result of `Glob` does not depend on the fuel, once there is enough of it. -/
theorem glob_fuel (fs : FS) (fuel : Nat) (pattern : Str) (h : pattern.length < fuel) :
    globFuel fs fuel pattern = Glob fs pattern :=
  globFuel_fuel fs fuel (pattern.length + 1) pattern h (Nat.lt_succ_self _)

/-! ## `Match` on patterns of plain characters and digit classes -/

theorem matchChunk_lit (f : Nat) (c : Char) (chunk s : Str) (h : isMeta c = false) :
    matchChunk (f + 1) (c :: chunk) s
      = match s with
        | [] => .no
        | r :: s1 => if c = r then matchChunk f chunk s1 else .no := by
  simp only [isMeta, Bool.or_eq_false_iff, beq_eq_false_iff_ne, ne_eq] at h
  obtain ⟨⟨⟨_, h2⟩, h3⟩, h4⟩ := h
  cases s with
  | nil => simp [matchChunk]
  | cons r s1 =>
    simp only [matchChunk, h2, h3, h4, if_false]
    by_cases hr : c = r <;> simp [hr]

theorem matchChunk_digit (f : Nat) (chunk s : Str) :
    matchChunk (f + 1) (digitClass ++ chunk) s
      = match s with
        | [] => .no
        | r :: s1 => if isDigit r then matchChunk f chunk s1 else .no := by
  cases s with
  | nil => simp [matchChunk, digitClass]
  | cons r s1 =>
    simp only [digitClass, List.cons_append, List.nil_append, matchChunk, if_true]
    have h1 : (('0' : Char) == '^') = false := by decide
    simp only [h1, Bool.false_eq_true, if_false, List.length_cons]
    have h2 : classLoop r (chunk.length + 1 + 1 + 1 + 1 + 1) ('0' :: '-' :: '9' :: ']' :: chunk) 0 false
        = some (isDigit r, chunk) := by
      simp [classLoop, getEsc, isDigit]
    rw [h2]
    simp only
    cases hd : isDigit r <;> simp

theorem matchChunk_items (items : List Item) : ∀ (f : Nat) (s : Str),
    plainItems items → (renderItems items).length < f →
    matchChunk f (renderItems items) s = refMatch items s := by
  induction items with
  | nil =>
    intro f s _ hf
    cases f with
    | zero => simp at hf
    | succ f => simp [renderItems, matchChunk, refMatch]
  | cons it rest ih =>
    intro f s hp hf
    have hprest : plainItems rest := fun c hc => hp c (by simp [hc])
    cases f with
    | zero => simp at hf
    | succ f =>
      cases it with
      | lit c =>
        simp only [renderItems, List.length_cons] at hf
        rw [renderItems, matchChunk_lit f c _ s (hp c (by simp))]
        cases s with
        | nil => simp [refMatch]
        | cons r s1 =>
          simp only [refMatch]
          rw [ih f s1 hprest (by omega)]
      | digit =>
        have h5 : digitClass.length = 5 := rfl
        simp only [renderItems, List.length_append, h5] at hf
        rw [renderItems, matchChunk_digit f _ s]
        cases s with
        | nil => simp [refMatch]
        | cons r s1 =>
          simp only [refMatch]
          rw [ih f s1 hprest (by omega)]

theorem scanLoop_step (c : Char) (rest : Str) (b : Bool) (h1 : c ≠ '\\') (h2 : c ≠ '*') :
    scanLoop (c :: rest) b
      = (c :: (scanLoop rest (if c = '[' then true else if c = ']' then false else b)).1,
          (scanLoop rest (if c = '[' then true else if c = ']' then false else b)).2) := by
  rw [scanLoop.eq_4 _ _ _ (fun h => absurd h h1) (fun _ _ h => absurd h h1)]
  by_cases h3 : c = '['
  · simp [h3]
  · by_cases h4 : c = ']'
    · simp [h4]
    · simp [h2, h3, h4]

theorem scanLoop_plain (items : List Item) (hp : plainItems items) : ∀ (b : Bool),
    scanLoop (renderItems items) b = (renderItems items, []) := by
  induction items with
  | nil => intro b; simp [renderItems, scanLoop]
  | cons it rest ih =>
    intro b
    have hprest : plainItems rest := fun c hc => hp c (by simp [hc])
    cases it with
    | lit c =>
      have hc := hp c (by simp)
      simp only [isMeta, Bool.or_eq_false_iff, beq_eq_false_iff_ne, ne_eq] at hc
      obtain ⟨⟨⟨h1, _⟩, h3⟩, h4⟩ := hc
      rw [renderItems, scanLoop_step c _ b h4 h1, ih hprest]
    | digit =>
      have e : renderItems (Item.digit :: rest)
          = '[' :: '0' :: '-' :: '9' :: ']' :: renderItems rest := rfl
      rw [e, scanLoop_step _ _ _ (by decide) (by decide),
        scanLoop_step _ _ _ (by decide) (by decide),
        scanLoop_step _ _ _ (by decide) (by decide),
        scanLoop_step _ _ _ (by decide) (by decide),
        scanLoop_step _ _ _ (by decide) (by decide), ih hprest]

theorem renderItems_head (items : List Item) (hp : plainItems items) (hne : items ≠ []) :
    ∃ c rest, renderItems items = c :: rest ∧ c ≠ '*' := by
  cases items with
  | nil => exact absurd rfl hne
  | cons it rest =>
    cases it with
    | lit c =>
      have hc := hp c (by simp)
      simp only [isMeta, Bool.or_eq_false_iff, beq_eq_false_iff_ne, ne_eq] at hc
      exact ⟨c, _, rfl, hc.1.1.1⟩
    | digit => exact ⟨'[', _, rfl, by decide⟩

/-- `Match` on a pattern of plain characters and digit classes says whether the pattern
matches the whole name, item by item; it never returns an error. -/
theorem match_items (items : List Item) (hp : plainItems items) (hne : items ≠ [])
    (name : Str) :
    Match (renderItems items) name = some (decide (refMatch items name = .yes [])) := by
  obtain ⟨c, rest, hr, hstar⟩ := renderItems_head items hp hne
  have hsc : scanChunk (renderItems items) = (false, renderItems items, []) := by
    unfold scanChunk
    have hdw : (renderItems items).dropWhile (fun c => c == '*') = renderItems items := by
      rw [hr]
      have : (c == '*') = false := by simp [hstar]
      simp [List.dropWhile, this]
    simp only [hdw, scanLoop_plain items hp, Nat.lt_irrefl, decide_False]
  unfold Match matchFuel
  have hpne : renderItems items ≠ [] := by rw [hr]; simp
  simp only [hpne, if_false, hsc, Bool.false_eq_true, false_and]
  rw [matchChunk_items items _ name hp (Nat.lt_succ_self _)]
  cases hm : refMatch items name with
  | bad => 
    exfalso
    clear hsc hpne hr
    induction items generalizing name with
    | nil => simp [refMatch] at hm
    | cons it rest2 ih =>
      cases name with
      | nil => simp [refMatch] at hm
      | cons r s1 =>
        have hprest : plainItems rest2 := fun c hc => hp c (by simp [hc])
        cases it with
        | lit c1 =>
          simp only [refMatch] at hm
          split at hm
          · cases rest2 with
            | nil => simp [refMatch] at hm
            | cons it2 r2 => exact ih hprest (by simp) s1 hm
          · simp at hm
        | digit =>
          simp only [refMatch] at hm
          split at hm
          · cases rest2 with
            | nil => simp [refMatch] at hm
            | cons it2 r2 => exact ih hprest (by simp) s1 hm
          · simp at hm
  | no => simp
  | yes t =>
    by_cases ht : t = []
    · subst ht
      simp only [true_or, if_true]
      rw [hr]
      simp [matchFuel]
    · simp [ht]

/-! ## The filesystem: lookups after a change -/

theorem find_filter_key (l : List (Loc × FileInfo)) (q : Loc → Bool) (loc : Loc) :
    (l.filter (fun e => q e.1)).find? (fun e => decide (e.1 = loc))
      = if q loc then l.find? (fun e => decide (e.1 = loc)) else none := by
  induction l with
  | nil => simp
  | cons a rest ih =>
    by_cases hq : q a.1 = true
    · by_cases ha : a.1 = loc
      · subst ha
        simp [List.filter, hq]
      · simp [List.filter, hq, List.find?, ha, ih]
    · have hq2 : q a.1 = false := by simpa using hq
      by_cases ha : a.1 = loc
      · subst ha
        simp [List.filter, hq2, ih]
      · simp [List.filter, hq2, List.find?, ha, ih]

theorem resolve_congr (fs1 fs2 : FS) (h : fs1.cwd = fs2.cwd) (p : Str) :
    fs1.resolve p = fs2.resolve p := by
  unfold FS.resolve
  rw [h]

theorem get_erase (fs : FS) (l loc : Loc) :
    (fs.erase l).get loc = if loc = l ∧ loc ≠ [] then none else fs.get loc := by
  unfold FS.get FS.erase
  by_cases h0 : loc = []
  · simp [h0]
  · simp only [h0, if_false]
    have := find_filter_key fs.nodes (fun k => decide (k ≠ l)) loc
    simp only [ne_eq, decide_not] at this ⊢
    rw [this]
    by_cases hl : loc = l
    · subst hl
      simp [h0]
    · simp [hl]

theorem get_insert (fs : FS) (l loc : Loc) (n : FileInfo) :
    (fs.insert l n).get loc = if loc = [] then fs.get loc else if loc = l then some n
      else fs.get loc := by
  unfold FS.get FS.insert
  by_cases h0 : loc = []
  · simp [h0]
  · by_cases hl : loc = l
    · subst hl
      simp [h0, List.find?]
    · have hl2 : ¬ l = loc := fun e => hl e.symm
      simp [h0, hl, hl2, List.find?]

theorem lstat_of_get_none (fs : FS) (p : Str) (h : fs.get (fs.resolve p) = none)
    (n : FileInfo) : Lstat fs p ≠ .ok n := by
  unfold Lstat
  split
  · simp
  · split
    · simp
    · simp [h]

theorem present_of_get_none (fs : FS) (p : Str) (h : fs.get (fs.resolve p) = none) :
    fs.present p = false := by
  unfold FS.present
  split
  · rename_i n hn
    exact absurd hn (lstat_of_get_none fs p h n)
  · rfl

/-! ## `os.Remove` and the removal loop -/

theorem remove_cases (fs : FS) (q : Str) :
    (∃ e, Remove fs q = (some e, fs)) ∨
      (Remove fs q = (none, fs.erase (fs.resolve q)) ∧ fs.resolve q ≠ []) := by
  unfold Remove
  split
  · left; exact ⟨_, rfl⟩
  · split
    · left; exact ⟨_, rfl⟩
    · split
      · left; exact ⟨_, rfl⟩
      · rename_i hne
        split
        · left; exact ⟨_, rfl⟩
        · split
          · split
            · left; exact ⟨_, rfl⟩
            · right; exact ⟨rfl, hne⟩
          · split
            · left; exact ⟨_, rfl⟩
            · split
              · left; exact ⟨_, rfl⟩
              · right; exact ⟨rfl, hne⟩

theorem remove_cwd (fs : FS) (q : Str) : (Remove fs q).2.cwd = fs.cwd := by
  rcases remove_cases fs q with ⟨e, h⟩ | ⟨h, _⟩
  · rw [h]
  · rw [h]; rfl

theorem remove_get_some (fs : FS) (q : Str) (loc : Loc) (n : FileInfo)
    (h : (Remove fs q).2.get loc = some n) : fs.get loc = some n := by
  rcases remove_cases fs q with ⟨e, he⟩ | ⟨he, _⟩
  · rw [he] at h; exact h
  · rw [he] at h
    simp only [get_erase] at h
    split at h
    · simp at h
    · exact h

theorem remove_get_none (fs : FS) (q : Str) (loc : Loc) (h : fs.get loc = none) :
    (Remove fs q).2.get loc = none := by
  cases hg : (Remove fs q).2.get loc with
  | none => rfl
  | some n => rw [remove_get_some fs q loc n hg] at h; simp at h

theorem remove_ok_gone (fs : FS) (q : Str) (h : (Remove fs q).1 = none) :
    (Remove fs q).2.get (fs.resolve q) = none := by
  rcases remove_cases fs q with ⟨e, he⟩ | ⟨he, hne⟩
  · rw [he] at h; simp at h
  · rw [he]
    simp [get_erase, hne]

theorem remove_get_other (fs : FS) (q : Str) (loc : Loc) (h : loc ≠ fs.resolve q) :
    (Remove fs q).2.get loc = fs.get loc := by
  rcases remove_cases fs q with ⟨e, he⟩ | ⟨he, _⟩
  · rw [he]
  · rw [he]
    simp [get_erase, h]

theorem removeAll_cwd (l : List Str) : ∀ fs : FS, (removeAll fs l).1.cwd = fs.cwd := by
  induction l with
  | nil => intro fs; rfl
  | cons q rest ih =>
    intro fs
    simp only [removeAll]
    rw [ih, remove_cwd]

theorem removeAll_get_some (l : List Str) : ∀ (fs : FS) (loc : Loc) (n : FileInfo),
    (removeAll fs l).1.get loc = some n → fs.get loc = some n := by
  induction l with
  | nil => intro fs loc n h; exact h
  | cons q rest ih =>
    intro fs loc n h
    simp only [removeAll] at h
    exact remove_get_some fs q loc n (ih _ loc n h)

theorem removeAll_get_none (l : List Str) (fs : FS) (loc : Loc) (h : fs.get loc = none) :
    (removeAll fs l).1.get loc = none := by
  cases hg : (removeAll fs l).1.get loc with
  | none => rfl
  | some n => rw [removeAll_get_some l fs loc n hg] at h; simp at h

theorem removeAll_paths (l : List Str) : ∀ fs : FS, removedPaths (removeAll fs l).2 = l := by
  induction l with
  | nil => intro fs; rfl
  | cons q rest ih =>
    intro fs
    simp only [removeAll, removedPaths, List.filterMap_cons]
    have := ih (Remove fs q).2
    simp only [removedPaths] at this
    rw [this]

theorem removeAll_isRemove (l : List Str) : ∀ (fs : FS), ∀ call ∈ (removeAll fs l).2,
    call.isRemove := by
  induction l with
  | nil => intro fs call h; simp [removeAll] at h
  | cons q rest ih =>
    intro fs call h
    simp only [removeAll, List.mem_cons] at h
    rcases h with h | h
    · rw [h]; trivial
    · exact ih _ call h

/-- A path the loop removed without error names nothing afterwards. -/
theorem removeAll_gone (l : List Str) : ∀ (fs : FS) (q : Str),
    Call.Remove q none ∈ (removeAll fs l).2 →
    (removeAll fs l).1.get (fs.resolve q) = none := by
  induction l with
  | nil => intro fs q h; simp [removeAll] at h
  | cons a rest ih =>
    intro fs q h
    simp only [removeAll, List.mem_cons] at h ⊢
    rcases h with h | h
    · injection h with h1 h2
      subst h1
      exact removeAll_get_none rest _ _ (remove_ok_gone fs q h2.symm)
    · have := ih (Remove fs a).2 q h
      rw [resolve_congr _ fs (remove_cwd fs a)] at this
      exact this

/-- A place the loop did not remove holds what it held. -/
theorem removeAll_get_other (l : List Str) : ∀ (fs : FS) (loc : Loc),
    (∀ q ∈ l, fs.resolve q ≠ loc) → (removeAll fs l).1.get loc = fs.get loc := by
  induction l with
  | nil => intro fs loc _; rfl
  | cons a rest ih =>
    intro fs loc h
    simp only [removeAll]
    rw [ih]
    · exact remove_get_other fs a loc (fun e => h a (by simp) e.symm)
    · intro q hq
      rw [resolve_congr _ fs (remove_cwd fs a)]
      exact h q (by simp [hq])

/-! ## `os.MkdirAll` -/

theorem mkdirFrom_cwd (l : List Str) : ∀ (fs : FS) (cur : Loc),
    (mkdirFrom fs cur l).2.cwd = fs.cwd := by
  induction l with
  | nil => intro fs cur; rfl
  | cons c rest ih =>
    intro fs cur
    unfold mkdirFrom
    split
    · split
      · exact ih _ _
      · rfl
    · rw [ih]; rfl

theorem mkdirFrom_get (l : List Str) : ∀ (fs : FS) (cur loc : Loc) (n : FileInfo),
    (mkdirFrom fs cur l).2.get loc = some n → fs.get loc = some n ∨ n.isDir = true := by
  induction l with
  | nil => intro fs cur loc n h; exact Or.inl h
  | cons c rest ih =>
    intro fs cur loc n h
    unfold mkdirFrom at h
    split at h
    · split at h
      · exact ih _ _ _ _ h
      · exact Or.inl h
    · rcases ih _ _ _ _ h with h1 | h1
      · rw [get_insert] at h1
        split at h1
        · exact Or.inl h1
        · split at h1
          · right
            injection h1 with h2
            rw [← h2]
          · exact Or.inl h1
      · exact Or.inr h1

theorem mkdirFrom_keeps (l : List Str) : ∀ (fs : FS) (cur loc : Loc) (n : FileInfo),
    fs.get loc = some n → (mkdirFrom fs cur l).2.get loc = some n := by
  induction l with
  | nil => intro fs cur loc n h; exact h
  | cons c rest ih =>
    intro fs cur loc n h
    unfold mkdirFrom
    split
    · split
      · exact ih _ _ _ _ h
      · exact h
    · rename_i hnone
      apply ih
      rw [get_insert]
      split
      · exact h
      · split
        · rename_i heq
          rw [heq, hnone] at h
          simp at h
        · exact h

theorem mkdirAll_keeps (fs : FS) (p : Str) (loc : Loc) (n : FileInfo)
    (h : fs.get loc = some n) : (MkdirAll fs p).2.get loc = some n := by
  unfold MkdirAll
  split
  · exact h
  · exact mkdirFrom_keeps _ _ _ _ _ h

theorem mkdirAll_cwd (fs : FS) (p : Str) : (MkdirAll fs p).2.cwd = fs.cwd := by
  unfold MkdirAll
  split
  · rfl
  · exact mkdirFrom_cwd _ _ _

theorem mkdirAll_get (fs : FS) (p : Str) (loc : Loc) (n : FileInfo)
    (h : (MkdirAll fs p).2.get loc = some n) : fs.get loc = some n ∨ n.isDir = true := by
  unfold MkdirAll at h
  split at h
  · exact Or.inl h
  · exact mkdirFrom_get _ _ _ _ _ h

/-! ## The rename -/

theorem startsWith_self (s : Loc) : startsWith s s = true := by
  simp [startsWith]

theorem startsWith_append (d x : Loc) : startsWith d (d ++ x) = true := by
  simp [startsWith]

theorem find_none_of_keys (l : List (Loc × FileInfo)) (loc : Loc)
    (h : ∀ e ∈ l, e.1 ≠ loc) : l.find? (fun e => decide (e.1 = loc)) = none := by
  rw [List.find?_eq_none]
  intro e he
  simpa using h e he

/-- After a move nothing is left at the source, unless the destination leads to it. -/
theorem moveNodes_find_src (nodes : List (Loc × FileInfo)) (s d : Loc) (n : FileInfo)
    (h : startsWith d s = false) :
    (moveNodes nodes s d n).find? (fun e => decide (e.1 = s)) = none := by
  unfold moveNodes
  rw [List.find?_append]
  have hB : (nodes.filter (fun e => !(startsWith s e.1) && decide (e.1 ≠ d))).find?
      (fun e => decide (e.1 = s)) = none := by
    have := find_filter_key nodes (fun k => !(startsWith s k) && decide (k ≠ d)) s
    rw [this]
    simp [startsWith_self]
  rw [hB]
  have hA : (if n.isDir = true then
      (nodes.filter (fun e => startsWith s e.1)).map (fun e => (d ++ e.1.drop s.length, e.2))
      else [(d, n)]).find? (fun e => decide (e.1 = s)) = none := by
    apply find_none_of_keys
    intro e he
    split at he
    · simp only [List.mem_map] at he
      obtain ⟨a, _, ha⟩ := he
      rw [← ha]
      intro heq
      simp only at heq
      rw [← heq, startsWith_append] at h
      simp at h
    · simp only [List.mem_singleton] at he
      rw [he]
      intro heq
      simp only at heq
      rw [heq, startsWith_self] at h
      simp at h
  rw [hA]
  rfl

/-- After the move of a file, a place holds the file if it is the destination, and
otherwise nothing but what it held. -/
theorem moveNodes_find_file (nodes : List (Loc × FileInfo)) (s d loc : Loc) (n : FileInfo)
    (hn : n.isDir = false) (e : Loc × FileInfo)
    (h : (moveNodes nodes s d n).find? (fun e => decide (e.1 = loc)) = some e) :
    (loc = d ∧ e = (d, n)) ∨ (loc ≠ d ∧ nodes.find? (fun e => decide (e.1 = loc)) = some e) := by
  unfold moveNodes at h
  simp only [hn, Bool.false_eq_true, if_false, List.singleton_append] at h
  by_cases hd : d = loc
  · left
    rw [List.find?_cons_of_pos _ (by simpa using hd)] at h
    injection h with h
    exact ⟨hd.symm, h.symm⟩
  · right
    rw [List.find?_cons_of_neg _ (by simpa using hd)] at h
    have := find_filter_key nodes (fun k => !(startsWith s k) && decide (k ≠ d)) loc
    rw [this] at h
    split at h
    · exact ⟨fun e => hd e.symm, h⟩
    · simp at h

theorem moveNodes_find_dst (nodes : List (Loc × FileInfo)) (s d : Loc) (n : FileInfo)
    (hn : n.isDir = false) :
    (moveNodes nodes s d n).find? (fun e => decide (e.1 = d)) = some (d, n) := by
  unfold moveNodes
  simp only [hn, Bool.false_eq_true, if_false, List.singleton_append]
  rw [List.find?_cons_of_pos _ (by simp)]

theorem moveNodes_find_other (nodes : List (Loc × FileInfo)) (s d loc : Loc) (n : FileInfo)
    (hn : n.isDir = false) (h1 : loc ≠ d) (h2 : startsWith s loc = false) :
    (moveNodes nodes s d n).find? (fun e => decide (e.1 = loc))
      = nodes.find? (fun e => decide (e.1 = loc)) := by
  unfold moveNodes
  have hd : ¬ d = loc := fun e => h1 e.symm
  simp only [hn, Bool.false_eq_true, if_false, List.singleton_append]
  rw [List.find?_cons_of_neg _ (by simpa using hd)]
  have := find_filter_key nodes (fun k => !(startsWith s k) && decide (k ≠ d)) loc
  rw [this]
  simp [h2, h1]

/-- What a rename that returns no error has checked and done. -/
theorem rename_ok (fs fs1 : FS) (src dst : Str) (h : Rename fs src dst = (none, fs1)) :
    src ≠ [] ∧ dst ≠ [] ∧ Base src ≠ ['.'] ∧ Base src ≠ ['.', '.'] ∧ Base src ≠ [Separator]
      ∧ Base dst ≠ ['.'] ∧ Base dst ≠ ['.', '.'] ∧ Base dst ≠ [Separator]
      ∧ fs.resolve src ≠ [] ∧ fs.resolve dst ≠ []
      ∧ ∃ n, fs.get (fs.resolve src) = some n ∧
        ((fs1 = fs ∧ fs.resolve src = fs.resolve dst) ∨
         (fs.resolve src ≠ fs.resolve dst
            ∧ startsWith (fs.resolve dst) (fs.resolve src) = false
            ∧ fs1 = { fs with nodes := moveNodes fs.nodes (fs.resolve src) (fs.resolve dst) n })) := by
  unfold Rename at h
  by_cases h1 : src = [] ∨ dst = []
  · rw [if_pos h1] at h; simp at h
  rw [if_neg h1] at h
  by_cases h2 : fs.hasFileAncestor (fs.resolve src) = true ∨ fs.hasFileAncestor (fs.resolve dst) = true
  · rw [if_pos h2] at h; simp at h
  rw [if_neg h2] at h
  cases hg : fs.get (fs.resolve src) with
  | none => rw [hg] at h; simp at h
  | some n =>
    rw [hg] at h
    dsimp only at h
    by_cases h3 : Base src = ['.'] ∨ Base src = ['.', '.'] ∨ Base src = [Separator]
          ∨ Base dst = ['.'] ∨ Base dst = ['.', '.'] ∨ Base dst = [Separator]
    · rw [if_pos h3] at h; simp at h
    rw [if_neg h3] at h
    by_cases h4 : fs.resolve src = [] ∨ fs.resolve dst = []
    · rw [if_pos h4] at h; simp at h
    rw [if_neg h4] at h
    by_cases h5 : n.isDir = false ∧ (mustBeDir src = true ∨ mustBeDir dst = true)
    · rw [if_pos h5] at h; simp at h
    rw [if_neg h5] at h
    by_cases h6 : fs.get (fs.resolve dst).dropLast = none
    · rw [if_pos h6] at h; simp at h
    rw [if_neg h6] at h
    simp only [not_or] at h1 h3 h4
    refine ⟨h1.1, h1.2, h3.1, h3.2.1, h3.2.2.1, h3.2.2.2.1, h3.2.2.2.2.1, h3.2.2.2.2.2,
      h4.1, h4.2, n, rfl, ?_⟩
    by_cases h7 : fs.resolve src = fs.resolve dst
    · rw [if_pos h7] at h
      left
      injection h with _ hfs
      exact ⟨hfs.symm, h7⟩
    rw [if_neg h7] at h
    by_cases h8 : startsWith (fs.resolve src) (fs.resolve dst) = true
    · rw [if_pos h8] at h; simp at h
    rw [if_neg h8] at h
    by_cases h9 : startsWith (fs.resolve dst) (fs.resolve src) = true
    · rw [if_pos h9] at h; simp at h
    rw [if_neg h9] at h
    have h9f : startsWith (fs.resolve dst) (fs.resolve src) = false := by simpa using h9
    right
    refine ⟨h7, h9f, ?_⟩
    cases hd : fs.get (fs.resolve dst) with
    | none =>
      rw [hd] at h
      injection h with _ hfs
      exact hfs.symm
    | some m =>
      rw [hd] at h
      dsimp only at h
      by_cases h10 : n.isDir = true ∧ m.isDir = false
      · rw [if_pos h10] at h; simp at h
      rw [if_neg h10] at h
      by_cases h11 : n.isDir = false ∧ m.isDir = true
      · rw [if_pos h11] at h; simp at h
      rw [if_neg h11] at h
      by_cases h12 : m.isDir = true ∧ fs.hasChildren (fs.resolve dst) = true
      · rw [if_pos h12] at h; simp at h
      rw [if_neg h12] at h
      injection h with _ hfs
      exact hfs.symm

theorem rename_err (fs fs1 : FS) (src dst : Str) (e : GoError)
    (h : Rename fs src dst = (some e, fs1)) : fs1 = fs := by
  unfold Rename at h
  by_cases h1 : src = [] ∨ dst = []
  · rw [if_pos h1] at h; injection h with _ hfs; exact hfs.symm
  rw [if_neg h1] at h
  by_cases h2 : fs.hasFileAncestor (fs.resolve src) = true ∨ fs.hasFileAncestor (fs.resolve dst) = true
  · rw [if_pos h2] at h; injection h with _ hfs; exact hfs.symm
  rw [if_neg h2] at h
  cases hg : fs.get (fs.resolve src) with
  | none => rw [hg] at h; injection h with _ hfs; exact hfs.symm
  | some n =>
    rw [hg] at h
    dsimp only at h
    by_cases h3 : Base src = ['.'] ∨ Base src = ['.', '.'] ∨ Base src = [Separator]
          ∨ Base dst = ['.'] ∨ Base dst = ['.', '.'] ∨ Base dst = [Separator]
    · rw [if_pos h3] at h; injection h with _ hfs; exact hfs.symm
    rw [if_neg h3] at h
    by_cases h4 : fs.resolve src = [] ∨ fs.resolve dst = []
    · rw [if_pos h4] at h; injection h with _ hfs; exact hfs.symm
    rw [if_neg h4] at h
    by_cases h5 : n.isDir = false ∧ (mustBeDir src = true ∨ mustBeDir dst = true)
    · rw [if_pos h5] at h; injection h with _ hfs; exact hfs.symm
    rw [if_neg h5] at h
    by_cases h6 : fs.get (fs.resolve dst).dropLast = none
    · rw [if_pos h6] at h; injection h with _ hfs; exact hfs.symm
    rw [if_neg h6] at h
    by_cases h7 : fs.resolve src = fs.resolve dst
    · rw [if_pos h7] at h; injection h with _ hfs; exact hfs.symm
    rw [if_neg h7] at h
    by_cases h8 : startsWith (fs.resolve src) (fs.resolve dst) = true
    · rw [if_pos h8] at h; injection h with _ hfs; exact hfs.symm
    rw [if_neg h8] at h
    by_cases h9 : startsWith (fs.resolve dst) (fs.resolve src) = true
    · rw [if_pos h9] at h; injection h with _ hfs; exact hfs.symm
    rw [if_neg h9] at h
    cases hd : fs.get (fs.resolve dst) with
    | none =>
      rw [hd] at h
      simp at h
    | some m =>
      rw [hd] at h
      dsimp only at h
      by_cases h10 : n.isDir = true ∧ m.isDir = false
      · rw [if_pos h10] at h; injection h with _ hfs; exact hfs.symm
      rw [if_neg h10] at h
      by_cases h11 : n.isDir = false ∧ m.isDir = true
      · rw [if_pos h11] at h; injection h with _ hfs; exact hfs.symm
      rw [if_neg h11] at h
      by_cases h12 : m.isDir = true ∧ fs.hasChildren (fs.resolve dst) = true
      · rw [if_pos h12] at h; injection h with _ hfs; exact hfs.symm
      rw [if_neg h12] at h
      simp at h

theorem rename_cwd (fs : FS) (src dst : Str) : (Rename fs src dst).2.cwd = fs.cwd := by
  cases h : Rename fs src dst with
  | mk e fs1 =>
    cases e with
    | none =>
      obtain ⟨_, _, _, _, _, _, _, _, _, _, n, _, h1⟩ := rename_ok fs fs1 src dst h
      rcases h1 with ⟨h2, _⟩ | ⟨_, _, h2⟩ <;> rw [h2]
    | some e => rw [rename_err fs fs1 src dst e h]

/-! ## The shape of a call of `Archive` -/

theorem prepared_refl (fs : FS) : Prepared fs fs [] :=
  ⟨rfl, fun _ _ h => Or.inl h, fun _ h => by simp at h, fun _ _ h => h⟩

theorem prepared_mkdir (fs fs1 : FS) (tr : List Call) (h : Prepared fs fs1 tr) (dir : Str) :
    Prepared fs (MkdirAll fs1 dir).2 (tr ++ [Call.MkdirAll dir (MkdirAll fs1 dir).1]) := by
  obtain ⟨h1, h2, h3, h5⟩ := h
  refine ⟨by rw [mkdirAll_cwd, h1], ?_, ?_, ?_⟩
  · intro loc n hg
    rcases mkdirAll_get fs1 dir loc n hg with h4 | h4
    · exact h2 loc n h4
    · exact Or.inr h4
  · intro call hc
    simp only [List.mem_append, List.mem_singleton] at hc
    rcases hc with hc | hc
    · exact h3 call hc
    · rw [hc]; trivial
  · intro loc n hg
    exact mkdirAll_keeps _ _ _ _ (h5 loc n hg)

/-- Either the destination directory cannot be had, or the file is moved there. -/
theorem archiveInto_cases (v : Simple) (fs fs1 : FS) (p : Str) (fi : FileInfo) (vd : Str)
    (tr : List Call) (h : Prepared fs fs1 tr) :
    (∃ e, (archiveInto v fs1 p fi vd tr).result = .error e
        ∧ ∀ call ∈ (archiveInto v fs1 p fi vd tr).trace, call.isPrep)
    ∨ (∃ rel fs2 tr2, Rel v.folderPath (Dir p) = some rel ∧ Prepared fs fs2 tr2
        ∧ archiveInto v fs1 p fi vd tr
          = moveAndPrune v fs2 p fi (Join [vd, rel]) (Base p) tr2) := by
  unfold archiveInto
  cases hrel : Rel v.folderPath (Dir p) with
  | none =>
    left
    exact ⟨.ErrRel, rfl, h.2.2.1⟩
  | some rel =>
    have hprep := prepared_mkdir fs fs1 tr h (Join [vd, rel])
    dsimp only
    cases hm : (MkdirAll fs1 (Join [vd, rel])).1 with
    | none =>
      right
      rw [hm] at hprep
      exact ⟨rel, _, _, rfl, hprep, rfl⟩
    | some e =>
      rw [hm] at hprep
      dsimp only
      by_cases he : IsExist e = true
      · right
        rw [if_pos he]
        exact ⟨rel, _, _, rfl, hprep, rfl⟩
      · left
        rw [if_neg he]
        exact ⟨e, rfl, hprep.2.2.1⟩

/-- The three ways a call of `Archive` goes: there is nothing to look at, the archive
cannot be prepared, or the file is moved. -/
theorem archive_cases (c : Config) (v : Simple) (fs : FS) (p : Str) :
    (∃ e, Lstat fs p = .error e
        ∧ Archive c v fs p = ⟨if IsNotExist e then .nil else .error e, fs, []⟩)
    ∨ (∃ fi e, Lstat fs p = .ok fi ∧ (Archive c v fs p).result = .error e
        ∧ ∀ call ∈ (Archive c v fs p).trace, call.isPrep)
    ∨ (∃ fi rel fs2 tr, Lstat fs p = .ok fi ∧ Rel v.folderPath (Dir p) = some rel
        ∧ Prepared fs fs2 tr
        ∧ Archive c v fs p = moveAndPrune v fs2 p fi (archiveDir c v rel) (Base p) tr) := by
  unfold Archive
  cases hL : Lstat fs p with
  | error e =>
    left
    refine ⟨e, rfl, ?_⟩
    dsimp only
    by_cases he : IsNotExist e = true
    · simp [he]
    · simp [he]
  | ok fi =>
    right
    dsimp only
    cases hS : Stat fs (Join [v.folderPath, c.MarkerDir, c.VersionsDir]) with
    | ok _ =>
      dsimp only
      rcases archiveInto_cases v fs fs p fi (Join [v.folderPath, c.MarkerDir, c.VersionsDir]) []
        (prepared_refl fs) with ⟨e, h1, h2⟩ | ⟨rel, fs2, tr2, h1, h2, h3⟩
      · left; exact ⟨fi, e, rfl, h1, h2⟩
      · right; exact ⟨fi, rel, fs2, tr2, rfl, h1, h2, h3⟩
    | error e =>
      dsimp only
      by_cases he : IsNotExist e = true
      · rw [if_pos he]
        have hprep : Prepared fs
            (HideFile (MkdirAll fs (Join [v.folderPath, c.MarkerDir, c.VersionsDir])).2
              (Join [v.folderPath, c.MarkerDir, c.VersionsDir]))
            [Call.MkdirAll (Join [v.folderPath, c.MarkerDir, c.VersionsDir])
                (MkdirAll fs (Join [v.folderPath, c.MarkerDir, c.VersionsDir])).1,
              Call.HideFile (Join [v.folderPath, c.MarkerDir, c.VersionsDir])] := by
          refine ⟨mkdirAll_cwd _ _, fun loc n hg => mkdirAll_get _ _ loc n hg, ?_,
            fun loc n hg => mkdirAll_keeps _ _ loc n hg⟩
          intro call hc
          simp only [List.mem_cons, List.mem_singleton, List.not_mem_nil, or_false] at hc
          rcases hc with hc | hc <;> (rw [hc]; trivial)
        rcases archiveInto_cases v fs _ p fi (Join [v.folderPath, c.MarkerDir, c.VersionsDir]) _
          hprep with ⟨e, h1, h2⟩ | ⟨rel, fs2, tr2, h1, h2, h3⟩
        · left; exact ⟨fi, e, rfl, h1, h2⟩
        · right; exact ⟨fi, rel, fs2, tr2, rfl, h1, h2, h3⟩
      · rw [if_neg he]
        left
        exact ⟨fi, e, rfl, rfl, fun _ h => by simp at h⟩

/-- The two ways the move goes: the rename fails and its error is returned, or it
succeeds and the pruning follows. -/
theorem moveAndPrune_cases (v : Simple) (fs2 : FS) (p : Str) (fi : FileInfo) (dir file : Str)
    (tr : List Call) :
    (∃ e, Rename fs2 p (Join [dir, taggedFilename file (Format fi.modTime)]) = (some e, fs2)
        ∧ moveAndPrune v fs2 p fi dir file tr
          = ⟨.error e, fs2,
              tr ++ [Call.Rename p (Join [dir, taggedFilename file (Format fi.modTime)]) (some e)]⟩)
    ∨ (∃ fs3, Rename fs2 p (Join [dir, taggedFilename file (Format fi.modTime)]) = (none, fs3)
        ∧ moveAndPrune v fs2 p fi dir file tr
          = prune v fs3 dir file
              (tr ++ [Call.Rename p (Join [dir, taggedFilename file (Format fi.modTime)]) none])) := by
  unfold moveAndPrune
  dsimp only
  cases hR : Rename fs2 p (Join [dir, taggedFilename file (Format fi.modTime)]) with
  | mk e fs3 =>
    cases e with
    | none => right; exact ⟨fs3, rfl, rfl⟩
    | some e =>
      left
      have := rename_err fs2 fs3 _ _ e hR
      subst this
      exact ⟨e, rfl, rfl⟩

/-- The ways the pruning goes: a glob fails and nothing is removed; or both globs
succeed, and then a negative `keep` panics, and another `keep` has the loop remove the
first versions beyond it. -/
theorem prune_cases (v : Simple) (fs : FS) (dir file : Str) (tr : List Call) :
    (Glob fs (Join [dir, taggedFilename file TimeGlob]) = none
        ∧ prune v fs dir file tr
          = ⟨.nil, fs, tr ++ [Call.Glob (Join [dir, taggedFilename file TimeGlob]) none]⟩)
    ∨ (∃ newV, Glob fs (Join [dir, taggedFilename file TimeGlob]) = some newV
        ∧ Glob fs (Join [dir, file ++ '~' :: TimeGlob]) = none
        ∧ prune v fs dir file tr
          = ⟨.nil, fs, tr ++ [Call.Glob (Join [dir, taggedFilename file TimeGlob]) (some newV),
              Call.Glob (Join [dir, file ++ '~' :: TimeGlob]) none]⟩)
    ∨ (∃ newV oldV, Glob fs (Join [dir, taggedFilename file TimeGlob]) = some newV
        ∧ Glob fs (Join [dir, file ++ '~' :: TimeGlob]) = some oldV
        ∧ ((v.keep < 0 ∧ prune v fs dir file tr
              = ⟨.panic, fs, tr ++ [Call.Glob (Join [dir, taggedFilename file TimeGlob]) (some newV),
                  Call.Glob (Join [dir, file ++ '~' :: TimeGlob]) (some oldV)]⟩)
          ∨ (0 ≤ v.keep ∧ prune v fs dir file tr
              = ⟨.nil,
                  (removeAll fs ((uniqueSortedStrings (oldV ++ newV)).take
                    ((uniqueSortedStrings (oldV ++ newV)).length - v.keep.toNat))).1,
                  tr ++ [Call.Glob (Join [dir, taggedFilename file TimeGlob]) (some newV),
                    Call.Glob (Join [dir, file ++ '~' :: TimeGlob]) (some oldV)]
                  ++ (removeAll fs ((uniqueSortedStrings (oldV ++ newV)).take
                    ((uniqueSortedStrings (oldV ++ newV)).length - v.keep.toNat))).2⟩))) := by
  unfold prune
  dsimp only
  cases hN : Glob fs (Join [dir, taggedFilename file TimeGlob]) with
  | none => left; exact ⟨rfl, rfl⟩
  | some newV =>
    right
    dsimp only
    cases hO : Glob fs (Join [dir, file ++ '~' :: TimeGlob]) with
    | none => left; exact ⟨newV, rfl, rfl, rfl⟩
    | some oldV =>
      right
      refine ⟨newV, oldV, rfl, rfl, ?_⟩
      dsimp only
      by_cases hk : v.keep < 0
      · left
        refine ⟨hk, ?_⟩
        have h1 : ((uniqueSortedStrings (oldV ++ newV)).length : Int) > v.keep := by omega
        have h2 : ((uniqueSortedStrings (oldV ++ newV)).length : Int) - v.keep
            > (uniqueSortedStrings (oldV ++ newV)).length := by omega
        rw [if_pos h1, if_pos h2]
      · right
        have hk0 : 0 ≤ v.keep := by omega
        refine ⟨hk0, ?_⟩
        have hnat : (((uniqueSortedStrings (oldV ++ newV)).length : Int) - v.keep).toNat
            = (uniqueSortedStrings (oldV ++ newV)).length - v.keep.toNat := by omega
        by_cases h1 : ((uniqueSortedStrings (oldV ++ newV)).length : Int) > v.keep
        · have h2 : ¬ ((uniqueSortedStrings (oldV ++ newV)).length : Int) - v.keep
              > (uniqueSortedStrings (oldV ++ newV)).length := by omega
          rw [if_pos h1, if_neg h2, hnat]
        · rw [if_neg h1]
          have h0 : (uniqueSortedStrings (oldV ++ newV)).length - v.keep.toNat = 0 := by omega
          rw [h0]
          simp [removeAll]

/-! ## The trace of a call -/

theorem globResults_append (a b : List Call) :
    globResults (a ++ b) = globResults a ++ globResults b := by
  simp [globResults, List.filterMap_append]

theorem removedPaths_append (a b : List Call) :
    removedPaths (a ++ b) = removedPaths a ++ removedPaths b := by
  simp [removedPaths, List.filterMap_append]

theorem globResults_prep (tr : List Call) (h : ∀ call ∈ tr, call.isPrep) :
    globResults tr = [] := by
  unfold globResults
  rw [List.filterMap_eq_nil_iff]
  intro call hc
  have := h call hc
  cases call <;> simp [Call.isPrep] at this ⊢

theorem removedPaths_prep (tr : List Call) (h : ∀ call ∈ tr, call.isPrep) :
    removedPaths tr = [] := by
  unfold removedPaths
  rw [List.filterMap_eq_nil_iff]
  intro call hc
  have := h call hc
  cases call <;> simp [Call.isPrep] at this ⊢

theorem globResults_removeAll (l : List Str) (fs : FS) :
    globResults (removeAll fs l).2 = [] := by
  unfold globResults
  rw [List.filterMap_eq_nil_iff]
  intro call hc
  have := removeAll_isRemove l fs call hc
  cases call <;> simp [Call.isRemove] at this ⊢

theorem prune_trace_shape (v : Simple) (fs : FS) (dir file : Str) (tr : List Call) :
    ∃ extra, (prune v fs dir file tr).trace = tr ++ extra ∧ ∀ call ∈ extra, call.isPruning := by
  rcases prune_cases v fs dir file tr with ⟨_, h⟩ | ⟨newV, _, _, h⟩ |
    ⟨newV, oldV, _, _, ⟨_, h⟩ | ⟨_, h⟩⟩
  · rw [h]
    exact ⟨_, rfl, fun call hc => by simp at hc; rw [hc]; trivial⟩
  · rw [h]
    refine ⟨_, rfl, fun call hc => ?_⟩
    simp at hc
    rcases hc with hc | hc <;> (rw [hc]; trivial)
  · rw [h]
    refine ⟨_, rfl, fun call hc => ?_⟩
    simp at hc
    rcases hc with hc | hc <;> (rw [hc]; trivial)
  · rw [h]
    refine ⟨_, List.append_assoc _ _ _, fun call hc => ?_⟩
    simp only [List.mem_append, List.mem_cons, List.mem_singleton, List.not_mem_nil,
      or_false] at hc
    rcases hc with (hc | hc) | hc
    · rw [hc]; trivial
    · rw [hc]; trivial
    · have := removeAll_isRemove _ _ call hc
      cases call <;> simp [Call.isRemove] at this ⊢
      trivial

theorem prune_fs (v : Simple) (fs : FS) (dir file : Str) (tr : List Call) :
    ∃ l, (prune v fs dir file tr).fs = (removeAll fs l).1 := by
  rcases prune_cases v fs dir file tr with ⟨_, h⟩ | ⟨newV, _, _, h⟩ |
    ⟨newV, oldV, _, _, ⟨_, h⟩ | ⟨_, h⟩⟩
  · exact ⟨[], by rw [h]; rfl⟩
  · exact ⟨[], by rw [h]; rfl⟩
  · exact ⟨[], by rw [h]; rfl⟩
  · exact ⟨_, by rw [h]⟩

/-- A rename in the trace is the one of the file to its tagged name in the archive; when
it went well, the rest of the call is the pruning. -/
theorem archive_rename_call (c : Config) (v : Simple) (fs : FS) (p src dst : Str)
    (e : Option GoError) (h : Call.Rename src dst e ∈ (Archive c v fs p).trace) :
    ∃ fi rel fs2 tr, Lstat fs p = .ok fi ∧ Rel v.folderPath (Dir p) = some rel
      ∧ Prepared fs fs2 tr ∧ src = p ∧ dst = archiveDst c v rel p fi
      ∧ (e = none → ∃ fs3, Rename fs2 p dst = (none, fs3)
          ∧ Archive c v fs p
            = prune v fs3 (archiveDir c v rel) (Base p) (tr ++ [Call.Rename p dst none])) := by
  rcases archive_cases c v fs p with ⟨e1, _, h1⟩ | ⟨fi, e1, _, _, h1⟩ |
    ⟨fi, rel, fs2, tr, hL, hrel, hprep, h1⟩
  · rw [h1] at h; simp at h
  · exact absurd (h1 _ h) (by simp [Call.isPrep])
  · have hnot : Call.Rename src dst e ∉ tr := fun hm => by
      have := hprep.2.2.1 _ hm
      simp [Call.isPrep] at this
    rcases moveAndPrune_cases v fs2 p fi (archiveDir c v rel) (Base p) tr with
      ⟨e2, _, h2⟩ | ⟨fs3, hR, h2⟩
    · rw [h1, h2] at h
      simp only [List.mem_append, List.mem_singleton] at h
      rcases h with h | h
      · exact absurd h hnot
      · injection h with hs hd he
        refine ⟨fi, rel, fs2, tr, hL, hrel, hprep, hs, hd, ?_⟩
        intro hn
        rw [hn] at he
        simp at he
    · obtain ⟨extra, hx, hall⟩ := prune_trace_shape v fs3 (archiveDir c v rel) (Base p)
        (tr ++ [Call.Rename p (Join [archiveDir c v rel,
          taggedFilename (Base p) (Format fi.modTime)]) none])
      rw [h1, h2, hx] at h
      simp only [List.mem_append, List.mem_singleton] at h
      rcases h with (h | h) | h
      · exact absurd h hnot
      · injection h with hs hd he
        refine ⟨fi, rel, fs2, tr, hL, hrel, hprep, hs, hd, ?_⟩
        intro _
        rw [hd]
        exact ⟨fs3, hR, by rw [h1, h2]⟩
      · have := hall _ h
        simp [Call.isPruning] at this

/-- A call that returns `nil` for a file that was there has renamed it. -/
theorem archive_nil_moved (c : Config) (v : Simple) (fs : FS) (p : Str) (fi : FileInfo)
    (hL : Lstat fs p = .ok fi) (h : (Archive c v fs p).result = .nil) :
    ∃ rel fs2 fs3 tr, Rel v.folderPath (Dir p) = some rel ∧ Prepared fs fs2 tr
      ∧ Rename fs2 p (archiveDst c v rel p fi) = (none, fs3)
      ∧ Archive c v fs p = prune v fs3 (archiveDir c v rel) (Base p)
          (tr ++ [Call.Rename p (archiveDst c v rel p fi) none]) := by
  rcases archive_cases c v fs p with ⟨e1, h0, _⟩ | ⟨fi1, e1, _, h0, _⟩ |
    ⟨fi1, rel, fs2, tr, hL1, hrel, hprep, h1⟩
  · rw [hL] at h0; simp at h0
  · rw [h0] at h; simp at h
  · have hfi : fi1 = fi := by rw [hL] at hL1; injection hL1 with h2; exact h2.symm
    subst hfi
    rcases moveAndPrune_cases v fs2 p fi1 (archiveDir c v rel) (Base p) tr with
      ⟨e2, _, h2⟩ | ⟨fs3, hR, h2⟩
    · rw [h1, h2] at h; simp at h
    · exact ⟨rel, fs2, fs3, tr, hrel, hprep, hR, by rw [h1, h2]; rfl⟩

/-- The rename into the archive takes the file away from where it was. -/
theorem rename_into_archive (fs2 fs3 : FS) (p dir : Str) (t : Str) (ht : Separator ∉ t)
    (h : Rename fs2 p (Join [dir, taggedFilename (Base p) t]) = (none, fs3)) :
    ∃ n A, fs2.get (fs2.resolve p) = some n ∧ fs2.resolve p ≠ []
      ∧ fs2.resolve (Join [dir, taggedFilename (Base p) t]) = A ++ [taggedFilename (Base p) t]
      ∧ fs2.resolve p ≠ fs2.resolve (Join [dir, taggedFilename (Base p) t])
      ∧ startsWith (fs2.resolve (Join [dir, taggedFilename (Base p) t])) (fs2.resolve p) = false
      ∧ fs3 = { fs2 with nodes := (moveNodes fs2.nodes (fs2.resolve p)
          (fs2.resolve (Join [dir, taggedFilename (Base p) t])) n) } := by
  obtain ⟨hp, _, hb1, hb2, hb3, _, _, _, hs, _, n, hn, hcases⟩ := rename_ok fs2 fs3 p _ h
  obtain ⟨_, _, _, hns, _⟩ := base_decomp p hp hb3
  have hname := tagged_isName (Base p) t hns ht
  obtain ⟨A, hA⟩ := resolve_join_name fs2 dir _ hname
  obtain ⟨B, hB⟩ := resolve_base fs2 p hp hb3 hb1 hb2
  have hne : fs2.resolve p ≠ fs2.resolve (Join [dir, taggedFilename (Base p) t]) := by
    intro heq
    rw [hA, hB] at heq
    have hlast := congrArg List.getLast? heq
    simp at hlast
    have hlen := tagged_length (Base p) t
    rw [← hlast] at hlen
    exact Nat.lt_irrefl _ hlen
  rcases hcases with ⟨_, heq⟩ | ⟨_, hsw, hfs⟩
  · exact absurd heq hne
  · exact ⟨n, A, hn, hs, hA, hne, hsw, hfs⟩

theorem get_of_nodes (fs : FS) (nodes : List (Loc × FileInfo)) (loc : Loc) (h : loc ≠ []) :
    ({ fs with nodes := nodes } : FS).get loc
      = (nodes.find? (fun e => decide (e.1 = loc))).map (fun e => e.2) := by
  simp [FS.get, h]

theorem prune_cwd (v : Simple) (fs : FS) (dir file : Str) (tr : List Call) :
    (prune v fs dir file tr).fs.cwd = fs.cwd := by
  obtain ⟨l, hl⟩ := prune_fs v fs dir file tr
  rw [hl, removeAll_cwd]

/-! ## The extension of a name -/

theorem extScan_shape (l : Str) : ∀ (acc r : Str), extScan l acc = some r →
    ∃ l1 l2, l = l1 ++ '.' :: l2 ∧ '.' ∉ l1 ∧ r = '.' :: (l1.reverse ++ acc) := by
  induction l with
  | nil => intro acc r h; simp [extScan] at h
  | cons a rest ih =>
    intro acc r h
    unfold extScan at h
    split at h
    · simp at h
    · split at h
      · rename_i hdot
        injection h with h
        exact ⟨[], rest, by simp [hdot], by simp, by simp [← h, hdot]⟩
      · rename_i hdot
        obtain ⟨l1, l2, h1, h2, h3⟩ := ih _ _ h
        refine ⟨a :: l1, l2, by simp [h1], ?_, by simp [h3]⟩
        simp only [List.mem_cons, not_or]
        exact ⟨fun e => hdot e.symm, h2⟩

/-- The extension is what is left of the name behind its last dot, the dot included. -/
theorem ext_shape (p : Str) :
    p.take (p.length - (Ext p).length) ++ Ext p = p
      ∧ (Ext p = [] ∨ ∃ rest, Ext p = '.' :: rest ∧ '.' ∉ rest) := by
  unfold Ext
  cases hs : extScan p.reverse [] with
  | none => simp
  | some r =>
    obtain ⟨l1, l2, h1, h2, h3⟩ := extScan_shape _ _ _ hs
    have hp : p = l2.reverse ++ '.' :: l1.reverse := by
      have := congrArg List.reverse h1
      simpa using this
    simp only [Option.getD_some]
    have hr : r = '.' :: l1.reverse := by simpa using h3
    refine ⟨?_, Or.inr ⟨l1.reverse, hr, by simpa using h2⟩⟩
    rw [hr]
    have hlen : p.length - ('.' :: l1.reverse).length = l2.reverse.length := by
      rw [hp]; simp
    rw [hlen]
    conv_lhs => rw [hp]
    rw [List.take_left]
    exact hp.symm

/-! ## The sorted versions -/

theorem uniqueSorted_sorted (l : List Str) :
    (uniqueSortedStrings l).Sorted (fun a b => a < b) := by
  unfold uniqueSortedStrings sortStrings
  apply List.Sorted.lt_of_le
  · exact List.sorted_insertionSort _ _
  · rw [(List.perm_insertionSort _ _).nodup_iff]
    exact List.nodup_dedup l

theorem uniqueSorted_mem (l : List Str) (q : Str) : q ∈ uniqueSortedStrings l ↔ q ∈ l := by
  unfold uniqueSortedStrings sortStrings
  rw [(List.perm_insertionSort _ _).mem_iff, List.mem_dedup]

/-! ## What the trace tells -/

theorem mem_globResults (tr : List Call) (r : Option (List Str)) (h : r ∈ globResults tr) :
    ∃ pat, Call.Glob pat r ∈ tr := by
  unfold globResults at h
  rw [List.mem_filterMap] at h
  obtain ⟨call, hc, he⟩ := h
  cases call <;> simp at he
  rename_i pat r1
  subst he
  exact ⟨pat, hc⟩

theorem mem_removedPaths (tr : List Call) (q : Str) (h : q ∈ removedPaths tr) :
    ∃ e, Call.Remove q e ∈ tr := by
  unfold removedPaths at h
  rw [List.mem_filterMap] at h
  obtain ⟨call, hc, he⟩ := h
  cases call <;> simp at he
  rename_i q1 e
  subst he
  exact ⟨e, hc⟩

/-- A glob or a removal in the trace comes after a rename that went well. -/
theorem archive_pruning_call (c : Config) (v : Simple) (fs : FS) (p : Str) (call : Call)
    (h : call ∈ (Archive c v fs p).trace) (hp : call.isPruning) :
    ∃ dst, Call.Rename p dst none ∈ (Archive c v fs p).trace := by
  rcases archive_cases c v fs p with ⟨e1, _, h1⟩ | ⟨fi, e1, _, _, h1⟩ |
    ⟨fi, rel, fs2, tr, hL, hrel, hprep, h1⟩
  · rw [h1] at h; simp at h
  · have := h1 _ h
    cases call <;> simp [Call.isPrep, Call.isPruning] at this hp
  · have hnot : call ∉ tr := fun hm => by
      have := hprep.2.2.1 _ hm
      cases call <;> simp [Call.isPrep, Call.isPruning] at this hp
    rcases moveAndPrune_cases v fs2 p fi (archiveDir c v rel) (Base p) tr with
      ⟨e2, _, h2⟩ | ⟨fs3, hR, h2⟩
    · rw [h1, h2] at h
      simp only [List.mem_append, List.mem_singleton] at h
      rcases h with h | h
      · exact absurd h hnot
      · rw [h] at hp; simp [Call.isPruning] at hp
    · obtain ⟨extra, hx, _⟩ := prune_trace_shape v fs3 (archiveDir c v rel) (Base p)
        (tr ++ [Call.Rename p (Join [archiveDir c v rel,
          taggedFilename (Base p) (Format fi.modTime)]) none])
      refine ⟨Join [archiveDir c v rel, taggedFilename (Base p) (Format fi.modTime)], ?_⟩
      rw [h1, h2, hx]
      simp

/-- What `Archive` has done when it has come to the pruning: the file is moved, and the
call ends as the pruning does. -/
theorem archive_pruned (c : Config) (v : Simple) (fs : FS) (p : Str) (call : Call)
    (h : call ∈ (Archive c v fs p).trace) (hp : call.isPruning) :
    ∃ fi rel fs2 fs3 tr, Lstat fs p = .ok fi ∧ Rel v.folderPath (Dir p) = some rel
      ∧ Prepared fs fs2 tr
      ∧ Rename fs2 p (archiveDst c v rel p fi) = (none, fs3)
      ∧ Archive c v fs p = prune v fs3 (archiveDir c v rel) (Base p)
          (tr ++ [Call.Rename p (archiveDst c v rel p fi) none]) := by
  obtain ⟨dst, hd⟩ := archive_pruning_call c v fs p call h hp
  obtain ⟨fi, rel, fs2, tr, hL, hrel, hprep, _, hdst, hok⟩ :=
    archive_rename_call c v fs p p dst none hd
  obtain ⟨fs3, hR, hA⟩ := hok rfl
  subst hdst
  exact ⟨fi, rel, fs2, fs3, tr, hL, hrel, hprep, hR, hA⟩

theorem globResults_before (tr : List Call) (h : ∀ call ∈ tr, call.isPrep) (a b : Str)
    (e : Option GoError) : globResults (tr ++ [Call.Rename a b e]) = [] := by
  rw [globResults_append, globResults_prep tr h]
  rfl

theorem removedPaths_before (tr : List Call) (h : ∀ call ∈ tr, call.isPrep) (a b : Str)
    (e : Option GoError) : removedPaths (tr ++ [Call.Rename a b e]) = [] := by
  rw [removedPaths_append, removedPaths_prep tr h]
  rfl

theorem not_remove_before (tr : List Call) (h : ∀ call ∈ tr, call.isPrep) (a b : Str)
    (e e1 : Option GoError) (q : Str) : Call.Remove q e1 ∉ tr ++ [Call.Rename a b e] := by
  intro hm
  simp only [List.mem_append, List.mem_singleton] at hm
  rcases hm with hm | hm
  · have := h _ hm
    simp [Call.isPrep] at this
  · simp at hm

/-- When both globs of a call succeeded and `keep` is not negative, the call returns
`nil` after the loop has asked to remove the first versions beyond `keep`, one after the
other. -/
theorem archive_globbed (c : Config) (v : Simple) (fs : FS) (p : Str)
    (newV oldV : List Str) (hk : 0 ≤ v.keep)
    (h : globResults (Archive c v fs p).trace = [some newV, some oldV]) :
    ∃ fi rel fs2 fs3 tr, Lstat fs p = .ok fi ∧ Rel v.folderPath (Dir p) = some rel
      ∧ Prepared fs fs2 tr
      ∧ Rename fs2 p (archiveDst c v rel p fi) = (none, fs3)
      ∧ Archive c v fs p
        = ⟨.nil,
            (removeAll fs3 ((uniqueSortedStrings (oldV ++ newV)).take
              ((uniqueSortedStrings (oldV ++ newV)).length - v.keep.toNat))).1,
            (tr ++ [Call.Rename p (archiveDst c v rel p fi) none])
            ++ [Call.Glob (Join [archiveDir c v rel, taggedFilename (Base p) TimeGlob])
                  (some newV),
                Call.Glob (Join [archiveDir c v rel, Base p ++ '~' :: TimeGlob]) (some oldV)]
            ++ (removeAll fs3 ((uniqueSortedStrings (oldV ++ newV)).take
              ((uniqueSortedStrings (oldV ++ newV)).length - v.keep.toNat))).2⟩ := by
  have hmem : some newV ∈ globResults (Archive c v fs p).trace := by rw [h]; simp
  obtain ⟨pat, hpat⟩ := mem_globResults _ _ hmem
  obtain ⟨fi, rel, fs2, fs3, tr, hL, hrel, hprep, hR, hA⟩ :=
    archive_pruned c v fs p _ hpat trivial
  refine ⟨fi, rel, fs2, fs3, tr, hL, hrel, hprep, hR, ?_⟩
  have hb := globResults_before tr hprep.2.2.1 p (archiveDst c v rel p fi) none
  rcases prune_cases v fs3 (archiveDir c v rel) (Base p)
      (tr ++ [Call.Rename p (archiveDst c v rel p fi) none]) with
    ⟨_, h1⟩ | ⟨newV1, _, _, h1⟩ | ⟨newV1, oldV1, _, _, ⟨hneg, _⟩ | ⟨_, h1⟩⟩
  · rw [hA, h1] at h
    simp only [globResults_append, hb] at h
    simp [globResults] at h
  · rw [hA, h1] at h
    simp only [globResults_append, hb] at h
    simp [globResults] at h
  · omega
  · rw [hA, h1] at h
    simp only [globResults_append, hb, globResults_removeAll] at h
    simp [globResults] at h
    obtain ⟨hn, ho⟩ := h
    subst hn ho
    rw [hA, h1]

/-- A path `Archive` removed without error names nothing afterwards. -/
theorem archive_removed_gone (c : Config) (v : Simple) (fs : FS) (p q : Str)
    (h : Call.Remove q none ∈ (Archive c v fs p).trace) :
    (Archive c v fs p).fs.present q = false := by
  obtain ⟨fi, rel, fs2, fs3, tr, hL, hrel, hprep, hR, hA⟩ :=
    archive_pruned c v fs p _ h trivial
  have hnb := not_remove_before tr hprep.2.2.1 p (archiveDst c v rel p fi) none none q
  rcases prune_cases v fs3 (archiveDir c v rel) (Base p)
      (tr ++ [Call.Rename p (archiveDst c v rel p fi) none]) with
    ⟨_, h1⟩ | ⟨newV1, _, _, h1⟩ | ⟨newV1, oldV1, _, _, ⟨_, h1⟩ | ⟨_, h1⟩⟩
  · rw [hA, h1] at h
    simp only [List.mem_append, List.mem_singleton] at h
    rcases h with h | h
    · exact absurd (by simpa using h) hnb
    · simp at h
  · rw [hA, h1] at h
    simp only [List.mem_append, List.mem_cons, List.mem_singleton, List.not_mem_nil,
      or_false] at h
    rcases h with h | h | h
    · exact absurd (by simpa using h) hnb
    · simp at h
    · simp at h
  · rw [hA, h1] at h
    simp only [List.mem_append, List.mem_cons, List.mem_singleton, List.not_mem_nil,
      or_false] at h
    rcases h with h | h | h
    · exact absurd (by simpa using h) hnb
    · simp at h
    · simp at h
  · rw [hA, h1] at h ⊢
    simp only [List.mem_append, List.mem_cons, List.mem_singleton, List.not_mem_nil,
      or_false] at h
    rcases h with (h | h | h) | h
    · exact absurd (by simpa using h) hnb
    · simp at h
    · simp at h
    · apply present_of_get_none
      have := removeAll_gone _ fs3 q h
      rw [resolve_congr _ fs3 (removeAll_cwd _ _)]
      exact this

/-- When both globs succeeded and `keep` is not negative, the paths the loop asks to
remove are the first versions beyond `keep`. -/
theorem removedPaths_of_globbed (c : Config) (v : Simple) (fs : FS) (p : Str)
    (hk : 0 ≤ v.keep) (newV oldV : List Str)
    (hg : globResults (Archive c v fs p).trace = [some newV, some oldV]) :
    removedPaths (Archive c v fs p).trace
      = (uniqueSortedStrings (oldV ++ newV)).take
          ((uniqueSortedStrings (oldV ++ newV)).length - v.keep.toNat) := by
  obtain ⟨fi, rel, fs2, fs3, tr, _, _, hprep, _, hA⟩ := archive_globbed c v fs p newV oldV hk hg
  rw [hA]
  simp only [removedPaths_append, removedPaths_before tr hprep.2.2.1, removeAll_paths]
  simp [removedPaths]

/-! ## What is new after a call -/

theorem lstat_get (fs : FS) (p : Str) (fi : FileInfo) (h : Lstat fs p = .ok fi) :
    fs.get (fs.resolve p) = some fi := by
  unfold Lstat at h
  split at h
  · simp at h
  · split at h
    · simp at h
    · split at h
      · simp at h
      · rename_i n hn
        split at h
        · simp at h
        · injection h with h
          rw [hn, h]

theorem prune_removed (v : Simple) (fs : FS) (dir file : Str) (tr : List Call) :
    ∃ l, (prune v fs dir file tr).fs = (removeAll fs l).1
      ∧ removedPaths (prune v fs dir file tr).trace = removedPaths tr ++ l := by
  rcases prune_cases v fs dir file tr with ⟨_, h⟩ | ⟨newV, _, _, h⟩ |
    ⟨newV, oldV, _, _, ⟨_, h⟩ | ⟨_, h⟩⟩
  · exact ⟨[], by rw [h]; rfl, by rw [h]; simp [removedPaths_append, removedPaths]⟩
  · exact ⟨[], by rw [h]; rfl, by rw [h]; simp [removedPaths_append, removedPaths]⟩
  · exact ⟨[], by rw [h]; rfl, by rw [h]; simp [removedPaths_append, removedPaths]⟩
  · refine ⟨_, by rw [h], ?_⟩
    rw [h]
    simp only [removedPaths_append, removeAll_paths]
    simp [removedPaths]

theorem nodup_all_eq (l : List Loc) (d : Loc) (hn : l.Nodup) (h : ∀ x ∈ l, x = d) :
    l.length ≤ 1 ∧ (d ∈ l → l = [d]) := by
  cases l with
  | nil => simp
  | cons a rest =>
    cases rest with
    | nil =>
      have := h a (by simp)
      simp [this]
    | cons b rest2 =>
      have ha := h a (by simp)
      have hb := h b (by simp)
      rw [ha, hb] at hn
      simp at hn

theorem get_some_mem (fs : FS) (loc : Loc) (n : FileInfo) (h0 : loc ≠ [])
    (h : fs.get loc = some n) : loc ∈ fs.nodes.map (fun e => e.1) := by
  unfold FS.get at h
  simp only [h0, if_false] at h
  cases hf : fs.nodes.find? (fun e => decide (e.1 = loc)) with
  | none => simp [hf] at h
  | some e =>
    have hmem := List.mem_of_find?_eq_some hf
    have hkey := List.find?_some hf
    simp at hkey
    rw [List.mem_map]
    exact ⟨e, hmem, hkey⟩

/-- What a call that returned `nil` for a file has left: nothing at the path; no new
file but at the destination; and the file at the destination, unless the loop removed
it. -/
theorem file_moved (c : Config) (v : Simple) (fs : FS) (p : Str) (fi : FileInfo)
    (hL : Lstat fs p = .ok fi) (hfile : fi.isDir = false)
    (hnil : (Archive c v fs p).result = .nil) :
    ∃ rel A, Rel v.folderPath (Dir p) = some rel
      ∧ Call.Rename p (archiveDst c v rel p fi) none ∈ (Archive c v fs p).trace
      ∧ fs.resolve (archiveDst c v rel p fi)
          = A ++ [taggedFilename (Base p) (Format fi.modTime)]
      ∧ (∀ loc n, (Archive c v fs p).fs.get loc = some n → n.isDir = false →
          fs.get loc = none → loc = fs.resolve (archiveDst c v rel p fi))
      ∧ ((∀ q ∈ removedPaths (Archive c v fs p).trace,
            fs.resolve q ≠ fs.resolve (archiveDst c v rel p fi)) →
          (Archive c v fs p).fs.get (fs.resolve (archiveDst c v rel p fi)) = some fi) := by
  obtain ⟨rel, fs2, fs3, tr, hrel, hprep, hR, hA⟩ := archive_nil_moved c v fs p fi hL hnil
  obtain ⟨n, A, hn, hs, hd, hne, hsw, hfs3⟩ :=
    rename_into_archive fs2 fs3 p (archiveDir c v rel) (Format fi.modTime) (format_noSep _) hR
  have hcwd2 : fs2.cwd = fs.cwd := hprep.1
  have hcwd3 : fs3.cwd = fs2.cwd := by rw [hfs3]
  have hres2 : ∀ q, fs2.resolve q = fs.resolve q := fun q => resolve_congr _ _ hcwd2 q
  have hres3 : ∀ q, fs3.resolve q = fs.resolve q := fun q =>
    (resolve_congr _ _ hcwd3 q).trans (hres2 q)
  have hnfi : n = fi := by
    have h1 := hprep.2.2.2 _ _ (lstat_get fs p fi hL)
    rw [← hres2 p, hn] at h1
    injection h1
  subst hnfi
  have hdne : fs2.resolve (archiveDst c v rel p n) ≠ [] := by
    unfold archiveDst
    rw [hd]
    simp
  obtain ⟨l, hl, hpaths⟩ := prune_removed v fs3 (archiveDir c v rel) (Base p)
    (tr ++ [Call.Rename p (archiveDst c v rel p n) none])
  rw [removedPaths_before tr hprep.2.2.1, List.nil_append] at hpaths
  refine ⟨rel, A, hrel, ?_, ?_, ?_, ?_⟩
  · obtain ⟨extra, hx, _⟩ := prune_trace_shape v fs3 (archiveDir c v rel) (Base p)
      (tr ++ [Call.Rename p (archiveDst c v rel p n) none])
    rw [hA, hx]
    simp
  · rw [← hres2]
    exact hd
  · intro loc m hm hmfile hnone
    rw [hA, hl] at hm
    have h3 := removeAll_get_some l fs3 loc m hm
    have hloc : loc ≠ [] := by
      intro h0
      rw [h0] at h3
      simp [FS.get] at h3
      rw [← h3] at hmfile
      simp at hmfile
    rw [hfs3, get_of_nodes _ _ _ hloc] at h3
    cases hf : (moveNodes fs2.nodes (fs2.resolve p)
        (fs2.resolve (Join [archiveDir c v rel, taggedFilename (Base p) (Format n.modTime)])) n).find?
        (fun e => decide (e.1 = loc)) with
    | none => rw [hf] at h3; simp at h3
    | some e =>
      rcases moveNodes_find_file _ _ _ _ _ hfile e hf with ⟨h4, _⟩ | ⟨_, h4⟩
      · rw [h4, ← hres2]
        rfl
      · rw [hf] at h3
        simp only [Option.map_some'] at h3
        have h5 : fs2.get loc = some m := by
          simp only [FS.get, hloc, if_false, h4, Option.map_some']
          exact h3
        rcases hprep.2.1 loc m h5 with h6 | h6
        · rw [h6] at hnone; simp at hnone
        · rw [h6] at hmfile; simp at hmfile
  · intro hkeep
    rw [hA, hl]
    have hget3 : fs3.get (fs.resolve (archiveDst c v rel p n)) = some n := by
      rw [← hres2, hfs3, get_of_nodes _ _ _ hdne]
      unfold archiveDst
      rw [moveNodes_find_dst _ _ _ _ hfile]
      rfl
    rw [removeAll_get_other l fs3 _ ?_]
    · exact hget3
    · intro q hq
      rw [hres3]
      exact hkeep q (by rw [hA, hpaths]; exact hq)

/-! ## The claims -/

/-- After a call that returned `nil`, nothing is found at the path. -/
theorem nil_result_gone (c : Config) (v : Simple) (fs : FS) (filePath : Str)
    (h : (Archive c v fs filePath).result = .nil) :
    (Archive c v fs filePath).fs.present filePath = false := by
  cases hL : Lstat fs filePath with
  | error e =>
    rcases archive_cases c v fs filePath with ⟨e1, _, h1⟩ | ⟨fi, e1, h0, _, _⟩ |
      ⟨fi, rel, fs2, tr, h0, _⟩
    · rw [h1]
      simp [FS.present, hL]
    · rw [hL] at h0; simp at h0
    · rw [hL] at h0; simp at h0
  | ok fi =>
    obtain ⟨rel, fs2, fs3, tr, _, hprep, hR, hA⟩ := archive_nil_moved c v fs filePath fi hL h
    obtain ⟨n, A, _, hs, _, _, hsw, hfs3⟩ :=
      rename_into_archive fs2 fs3 filePath (archiveDir c v rel) (Format fi.modTime)
        (format_noSep _) hR
    have hgone : fs3.get (fs2.resolve filePath) = none := by
      rw [hfs3, get_of_nodes _ _ _ hs, moveNodes_find_src _ _ _ _ hsw]
      rfl
    obtain ⟨l, hl⟩ := prune_fs v fs3 (archiveDir c v rel) (Base filePath)
      (tr ++ [Call.Rename filePath (archiveDst c v rel filePath fi) none])
    have hcwd3 : fs3.cwd = fs2.cwd := by rw [hfs3]
    apply present_of_get_none
    rw [hA, hl, resolve_congr _ fs2 (by rw [removeAll_cwd, hcwd3])]
    exact removeAll_get_none l fs3 _ hgone

/-- **C1.** If `Archive(filePath)` returns `nil`, then `os.Lstat` finds nothing at
`filePath` in the filesystem that the call leaves, whatever the configuration, the
filesystem and the path were. -/
theorem archive_nil_gone (c : Config) (v : Simple) (fs : FS) (filePath : Str)
    (h : (Archive c v fs filePath).result = .nil) :
    (Archive c v fs filePath).fs.present filePath = false :=
  nil_result_gone c v fs filePath h

/-- **C1**, at an example: archiving `/f/a.txt` returns `nil`, and the file is gone. -/
theorem archive_nil_gone_witness :
    (Archive exConfig ⟨2, str "/f"⟩ exFresh (str "/f/a.txt")).result = .nil
      ∧ (Archive exConfig ⟨2, str "/f"⟩ exFresh (str "/f/a.txt")).fs.present (str "/f/a.txt")
        = false :=
  ⟨by decide, archive_nil_gone _ _ _ _ (by decide)⟩

/-- **C2.** When `os.Lstat` reports that nothing exists at `filePath`, `Archive` returns
`nil`, leaves the filesystem as it was and makes no call that could change it: no
directory is created, nothing is renamed, nothing is removed. -/
theorem archive_nonexistent_noop (c : Config) (v : Simple) (fs : FS) (filePath : Str)
    (h : Lstat fs filePath = .error .ENOENT) :
    Archive c v fs filePath = ⟨.nil, fs, []⟩ := by
  unfold Archive
  rw [h]
  rfl

/-- **C2**, at an example: `/f/b.txt` does not exist, and archiving it changes nothing. -/
theorem archive_nonexistent_noop_witness :
    Lstat exFresh (str "/f/b.txt") = .error .ENOENT
      ∧ Archive exConfig ⟨5, str "/f"⟩ exFresh (str "/f/b.txt") = ⟨.nil, exFresh, []⟩ :=
  ⟨by decide, archive_nonexistent_noop _ _ _ _ (by decide)⟩

/-- **C3.** For a file that exists at `filePath` and whose directory has the path `rel`
relative to the folder, every rename `Archive` asks for moves `filePath` to
`Join(folderPath, MarkerDir, VersionsDir, rel, base~T ext)`, where `base` and `ext` are
the name of the file split before its last dot (`ext` is empty when the name has none)
and `T` is the file's own modification time in the time format; and a call that returns
`nil` has asked for that rename and seen it succeed. -/
theorem archive_destination (c : Config) (v : Simple) (fs : FS) (filePath : Str)
    (fi : FileInfo) (rel : Str) (hL : Lstat fs filePath = .ok fi)
    (hrel : Rel v.folderPath (Dir filePath) = some rel) :
    (∀ src dst e, Call.Rename src dst e ∈ (Archive c v fs filePath).trace →
        src = filePath ∧
        dst = Join [v.folderPath, c.MarkerDir, c.VersionsDir, rel,
          (Base filePath).take ((Base filePath).length - (Ext (Base filePath)).length)
            ++ '~' :: (Format fi.modTime ++ Ext (Base filePath))])
      ∧ ((Archive c v fs filePath).result = .nil →
          Call.Rename filePath
            (Join [v.folderPath, c.MarkerDir, c.VersionsDir, rel,
              (Base filePath).take ((Base filePath).length - (Ext (Base filePath)).length)
                ++ '~' :: (Format fi.modTime ++ Ext (Base filePath))]) none
            ∈ (Archive c v fs filePath).trace)
      ∧ (Base filePath).take ((Base filePath).length - (Ext (Base filePath)).length)
          ++ Ext (Base filePath) = Base filePath
      ∧ (Ext (Base filePath) = [] ∨ ∃ rest, Ext (Base filePath) = '.' :: rest ∧ '.' ∉ rest) := by
  refine ⟨?_, ?_, (ext_shape _).1, (ext_shape _).2⟩
  · intro src dst e h
    obtain ⟨fi1, rel1, fs2, tr, hL1, hrel1, _, hs, hd, _⟩ :=
      archive_rename_call c v fs filePath src dst e h
    have hfi : fi1 = fi := by rw [hL] at hL1; injection hL1 with h2; exact h2.symm
    have hr : rel1 = rel := by rw [hrel] at hrel1; injection hrel1 with h2; exact h2.symm
    subst hfi hr
    rw [archiveDst_flat] at hd
    exact ⟨hs, hd⟩
  · intro hnil
    obtain ⟨rel1, fs2, fs3, tr, hrel1, _, _, hA⟩ := archive_nil_moved c v fs filePath fi hL hnil
    have hr : rel1 = rel := by rw [hrel] at hrel1; injection hrel1 with h2; exact h2.symm
    subst hr
    obtain ⟨extra, hx, _⟩ := prune_trace_shape v fs3 (archiveDir c v rel1) (Base filePath)
      (tr ++ [Call.Rename filePath (archiveDst c v rel1 filePath fi) none])
    rw [hA, hx, archiveDst_flat]
    simp [taggedFilename]

/-- **C3**, at an example: `/f/a.txt`, last modified on 4 March 2015 at 05:06:07, goes to
`/f/.stfolder/.stversions/a~20150304-050607.txt`. -/
theorem archive_destination_witness :
    Call.Rename (str "/f/a.txt") (str "/f/.stfolder/.stversions/a~20150304-050607.txt") none
        ∈ (Archive exConfig ⟨2, str "/f"⟩ exFresh (str "/f/a.txt")).trace
      ∧ str "/f/.stfolder/.stversions/a~20150304-050607.txt"
        = Join [str "/f", exConfig.MarkerDir, exConfig.VersionsDir, str ".",
            (Base (str "/f/a.txt")).take
                ((Base (str "/f/a.txt")).length - (Ext (Base (str "/f/a.txt"))).length)
              ++ '~' :: (Format ⟨2015, 3, 4, 5, 6, 7⟩ ++ Ext (Base (str "/f/a.txt")))] :=
  ⟨by decide,
    ((archive_destination exConfig ⟨2, str "/f"⟩ exFresh (str "/f/a.txt")
      ⟨false, ⟨2015, 3, 4, 5, 6, 7⟩⟩ (str ".") (by decide) (by decide)).1
        (str "/f/a.txt") (str "/f/.stfolder/.stversions/a~20150304-050607.txt") none
        (by decide)).2⟩

/-- The rule of the pruning.  With a keep count `N` that is not negative: when the rename
and both globs succeeded and no removal failed, the paths `Archive` removed are the first
`m - N` of the `m` matches of the current and the legacy pattern in the archive directory
of the file, taken together, without repetition and in the order of strings; nothing is
removed when `m ≤ N`; and at most `N` of these matches are still there when `Archive`
returns.  What the patterns match is another matter: see `archive_leaves_more_than_keep`. -/
theorem archive_prunes_oldest (c : Config) (v : Simple) (fs : FS) (filePath : Str) (N : Nat)
    (newV oldV : List Str) (hN : v.keep = (N : Int))
    (hglob : globResults (Archive c v fs filePath).trace = [some newV, some oldV])
    (hdel : ∀ call ∈ (Archive c v fs filePath).trace, call.isFailedRemove = false) :
    (uniqueSortedStrings (oldV ++ newV)).Sorted (fun a b => a < b)
      ∧ (∀ q, q ∈ uniqueSortedStrings (oldV ++ newV) ↔ q ∈ oldV ∨ q ∈ newV)
      ∧ (∃ rel, Rel v.folderPath (Dir filePath) = some rel
          ∧ Call.Glob (Join [archiveDir c v rel, taggedFilename (Base filePath) TimeGlob])
              (some newV) ∈ (Archive c v fs filePath).trace
          ∧ Call.Glob (Join [archiveDir c v rel, Base filePath ++ '~' :: TimeGlob])
              (some oldV) ∈ (Archive c v fs filePath).trace)
      ∧ removedPaths (Archive c v fs filePath).trace
        = (uniqueSortedStrings (oldV ++ newV)).take
            ((uniqueSortedStrings (oldV ++ newV)).length - N)
      ∧ (∀ q ∈ (uniqueSortedStrings (oldV ++ newV)).take
            ((uniqueSortedStrings (oldV ++ newV)).length - N),
          (Archive c v fs filePath).fs.present q = false)
      ∧ ((uniqueSortedStrings (oldV ++ newV)).filter
          (fun q => (Archive c v fs filePath).fs.present q)).length ≤ N := by
  have hk : 0 ≤ v.keep := by omega
  have hkn : v.keep.toNat = N := by omega
  obtain ⟨fi, rel, fs2, fs3, tr, _, hrel, hprep, _, hA⟩ :=
    archive_globbed c v fs filePath newV oldV hk hglob
  rw [hkn] at hA
  have hpaths : removedPaths (Archive c v fs filePath).trace
      = (uniqueSortedStrings (oldV ++ newV)).take
          ((uniqueSortedStrings (oldV ++ newV)).length - N) := by
    rw [hA]
    simp only [removedPaths_append, removedPaths_before tr hprep.2.2.1, removeAll_paths]
    simp [removedPaths]
  have hgone : ∀ q ∈ (uniqueSortedStrings (oldV ++ newV)).take
      ((uniqueSortedStrings (oldV ++ newV)).length - N),
      (Archive c v fs filePath).fs.present q = false := by
    intro q hq
    rw [← hpaths] at hq
    obtain ⟨e, he⟩ := mem_removedPaths _ _ hq
    cases e with
    | some e1 => exact absurd (hdel _ he) (by simp [Call.isFailedRemove])
    | none => exact archive_removed_gone c v fs filePath q he
  refine ⟨uniqueSorted_sorted _, ?_, ⟨rel, hrel, ?_, ?_⟩, hpaths, hgone, ?_⟩
  · intro q
    rw [uniqueSorted_mem, List.mem_append]
  · rw [hA]; simp
  · rw [hA]; simp
  · have hsplit := List.take_append_drop
      ((uniqueSortedStrings (oldV ++ newV)).length - N) (uniqueSortedStrings (oldV ++ newV))
    have hnil : ((uniqueSortedStrings (oldV ++ newV)).take
        ((uniqueSortedStrings (oldV ++ newV)).length - N)).filter
        (fun q => (Archive c v fs filePath).fs.present q) = [] := by
      rw [List.filter_eq_nil_iff]
      intro q hq
      simp [hgone q hq]
    rw [← hsplit, List.filter_append, hnil, List.nil_append]
    calc (List.filter _ _).length
        ≤ ((uniqueSortedStrings (oldV ++ newV)).drop
            ((uniqueSortedStrings (oldV ++ newV)).length - N)).length :=
          List.length_filter_le _ _
      _ ≤ N := by rw [List.length_drop]; omega

/-- The rule of the pruning at an example: with `keep = 1`, a legacy version of 2 February 2014 and a
current version of 1 January 2014 in the archive, archiving `/f/a.txt` removes these two
and leaves at most one version. -/
theorem archive_prunes_oldest_witness :
    globResults (Archive exConfig ⟨1, str "/f"⟩ exFull (str "/f/a.txt")).trace
        = [some [str "/f/.stfolder/.stversions/a~20140101-000000.txt",
              str "/f/.stfolder/.stversions/a~20150304-050607.txt"],
            some [str "/f/.stfolder/.stversions/a.txt~20140202-000000"]]
      ∧ removedPaths (Archive exConfig ⟨1, str "/f"⟩ exFull (str "/f/a.txt")).trace
        = [str "/f/.stfolder/.stversions/a.txt~20140202-000000",
            str "/f/.stfolder/.stversions/a~20140101-000000.txt"]
      ∧ ((uniqueSortedStrings
            ([str "/f/.stfolder/.stversions/a.txt~20140202-000000"]
              ++ [str "/f/.stfolder/.stversions/a~20140101-000000.txt",
                str "/f/.stfolder/.stversions/a~20150304-050607.txt"])).filter
          (fun q => (Archive exConfig ⟨1, str "/f"⟩ exFull (str "/f/a.txt")).fs.present q)).length
        ≤ 1 :=
  ⟨by decide, by decide,
    (archive_prunes_oldest exConfig ⟨1, str "/f"⟩ exFull (str "/f/a.txt") 1
      [str "/f/.stfolder/.stversions/a~20140101-000000.txt",
        str "/f/.stfolder/.stversions/a~20150304-050607.txt"]
      [str "/f/.stfolder/.stversions/a.txt~20140202-000000"]
      rfl (by decide) (by decide)).2.2.2.2.2⟩

/-- Failures of the pruning, with a keep count that is not negative: once the rename of
the file into the archive has succeeded, `Archive` returns `nil`, whatever the two globs
and the removals return; when both globs succeeded, the loop asks to remove every one of
the first versions beyond `keep`, whether or not an earlier removal failed; and every path
whose removal returned no error names nothing afterwards.  With a negative keep count the
call does not return: see `archive_panics_after_rename`. -/
theorem archive_prune_failures_swallowed (c : Config) (v : Simple) (fs : FS)
    (filePath src dst : Str) (hk : 0 ≤ v.keep)
    (h : Call.Rename src dst none ∈ (Archive c v fs filePath).trace) :
    (Archive c v fs filePath).result = .nil
      ∧ (∀ newV oldV, globResults (Archive c v fs filePath).trace = [some newV, some oldV] →
          removedPaths (Archive c v fs filePath).trace
            = (uniqueSortedStrings (oldV ++ newV)).take
                ((uniqueSortedStrings (oldV ++ newV)).length - v.keep.toNat))
      ∧ (∀ q, Call.Remove q none ∈ (Archive c v fs filePath).trace →
          (Archive c v fs filePath).fs.present q = false) := by
  refine ⟨?_, ?_, fun q hq => archive_removed_gone c v fs filePath q hq⟩
  · obtain ⟨fi, rel, fs2, tr, _, _, _, _, _, hok⟩ :=
      archive_rename_call c v fs filePath src dst none h
    obtain ⟨fs3, _, hA⟩ := hok rfl
    rw [hA]
    rcases prune_cases v fs3 (archiveDir c v rel) (Base filePath)
        (tr ++ [Call.Rename filePath dst none]) with
      ⟨_, h1⟩ | ⟨newV1, _, _, h1⟩ | ⟨newV1, oldV1, _, _, ⟨hneg, _⟩ | ⟨_, h1⟩⟩
    · rw [h1]
    · rw [h1]
    · omega
    · rw [h1]
  · intro newV oldV hg
    obtain ⟨fi, rel, fs2, fs3, tr, _, _, hprep, _, hA⟩ :=
      archive_globbed c v fs filePath newV oldV hk hg
    rw [hA]
    simp only [removedPaths_append, removedPaths_before tr hprep.2.2.1, removeAll_paths]
    simp [removedPaths]

/-- Failures of the pruning at an example: with `keep = 1` and an archive whose oldest entry is a
directory that is not empty, the removal of that entry fails, `Archive` still returns
`nil`, and the next entry is removed. -/
theorem archive_prune_failures_swallowed_witness :
    (0 : Int) ≤ (Simple.mk 1 (str "/f")).keep
      ∧ Call.Rename (str "/f/a.txt") (str "/f/.stfolder/.stversions/a~20150304-050607.txt") none
        ∈ (Archive exConfig ⟨1, str "/f"⟩ exStuck (str "/f/a.txt")).trace
      ∧ Call.Remove (str "/f/.stfolder/.stversions/a~20140101-000000.txt") (some .ENOTEMPTY)
        ∈ (Archive exConfig ⟨1, str "/f"⟩ exStuck (str "/f/a.txt")).trace
      ∧ (Archive exConfig ⟨1, str "/f"⟩ exStuck (str "/f/a.txt")).result = .nil
      ∧ (Archive exConfig ⟨1, str "/f"⟩ exStuck (str "/f/a.txt")).fs.present
          (str "/f/.stfolder/.stversions/a~20140202-000000.txt") = false :=
  ⟨by decide, by decide, by decide,
    (archive_prune_failures_swallowed exConfig ⟨1, str "/f"⟩ exStuck (str "/f/a.txt")
      (str "/f/a.txt") (str "/f/.stfolder/.stversions/a~20150304-050607.txt")
      (by decide) (by decide)).1,
    (archive_prune_failures_swallowed exConfig ⟨1, str "/f"⟩ exStuck (str "/f/a.txt")
      (str "/f/a.txt") (str "/f/.stfolder/.stversions/a~20150304-050607.txt")
      (by decide) (by decide)).2.2 _ (by decide)⟩

/-! ## Legacy names and current names -/

theorem isDigit_ne_sep (c : Char) (h : isDigit c = true) : c ≠ Separator := by
  intro hc
  rw [hc] at h
  exact absurd h (by decide)

theorem timestamp_noSep (t : Str) (h : isTimestamp t = true) : Separator ∉ t := by
  unfold isTimestamp at h
  simp only [Bool.and_eq_true, List.all_eq_true, beq_iff_eq] at h
  obtain ⟨⟨_, hdash⟩, hdig⟩ := h
  intro hmem
  have hsplit : t = t.take 8 ++ t.drop 8 := (List.take_append_drop 8 t).symm
  rw [hsplit, List.mem_append] at hmem
  rcases hmem with hm | hm
  · exact isDigit_ne_sep _ (hdig Separator (by simp [hm])) rfl
  · cases hd : t.drop 8 with
    | nil => rw [hd] at hm; simp at hm
    | cons a rest =>
      rw [hd] at hdash hm
      simp at hdash
      have hrest : t.drop 9 = rest := by
        have : t.drop 9 = (t.drop 8).drop 1 := by simp
        rw [this, hd]; rfl
      simp only [List.mem_cons] at hm
      rcases hm with hm | hm
      · rw [hdash] at hm
        simp [Separator] at hm
      · exact isDigit_ne_sep _ (hdig Separator (by simp [hrest, hm])) rfl

theorem base_noSep (p : Str) (h : Ext (Base p) ≠ []) : Separator ∉ Base p := by
  by_cases hp : p = []
  · simp [Base, hp, Separator]
  · by_cases hb : Base p = [Separator]
    · rw [hb] at h
      exact absurd (by decide) h
    · exact (base_decomp p hp hb).choose_spec.choose_spec.2.1

/-- The legacy name of a version is smaller than any current name of a version of the
same file, when the file has an extension. -/
theorem legacy_lt_current (file t1 t2 : Str) (h : Ext file ≠ []) :
    file ++ '~' :: t1 < taggedFilename file t2 := by
  obtain ⟨hsplit, hshape⟩ := ext_shape file
  rcases hshape with h0 | ⟨rest, hrest, _⟩
  · exact absurd h0 h
  · unfold taggedFilename
    generalize file.take (file.length - (Ext file).length) = base at hsplit ⊢
    rw [hrest] at hsplit ⊢
    clear hrest h
    subst hsplit
    rw [List.append_assoc]
    apply List.Lex.append_left
    exact List.Lex.rel (by decide)

theorem legacy_isName (file t : Str) (hf : Separator ∉ file) (ht : Separator ∉ t) :
    isName (file ++ '~' :: t) := by
  have hmem : '~' ∈ file ++ '~' :: t := by simp
  refine ⟨?_, ?_, ?_, ?_⟩
  · intro h; rw [h] at hmem; simp at hmem
  · intro h; rw [h] at hmem; simp at hmem
  · intro h; rw [h] at hmem; simp at hmem
  · intro h
    simp only [List.mem_append, List.mem_cons] at h
    rcases h with h | h | h
    · exact hf h
    · simp [Separator] at h
    · exact ht h

/-- In a list sorted by `<`, the smaller of two entries comes first. -/
theorem sorted_index_lt (V : List Str) (hs : V.Sorted (fun a b => a < b)) (a b : Str)
    (hab : a < b) (i j : Nat) (hi : V[i]? = some a) (hj : V[j]? = some b) : i < j := by
  rw [List.getElem?_eq_some] at hi hj
  obtain ⟨hil, hia⟩ := hi
  obtain ⟨hjl, hjb⟩ := hj
  by_contra hnot
  have hle : j ≤ i := Nat.le_of_not_lt hnot
  rcases Nat.lt_or_eq_of_le hle with hlt | heq
  · have hrel : V[j] < V[i] := hs.rel_get_of_lt (a := ⟨j, hjl⟩) (b := ⟨i, hil⟩) hlt
    rw [hia, hjb] at hrel
    exact lt_asymm hab hrel
  · subst heq
    rw [hia] at hjb
    rw [hjb] at hab
    exact lt_irrefl _ hab

/-- **C6.** For a file name with an extension and two timestamps of the time format,
equal or not: the legacy name `file~t1` is smaller in the order of strings than the
current name `base~t2 ext`, and so are the two paths in one directory; hence, in a call
of `Archive` whose globs have found the legacy entry, a removal of the current entry
comes after the removal of the legacy entry. -/
theorem legacy_pruned_before_current (file t1 t2 : Str) (hext : Ext file ≠ [])
    (h1 : isTimestamp t1 = true) (h2 : isTimestamp t2 = true) :
    file ++ '~' :: t1 < taggedFilename file t2
      ∧ ∀ (c : Config) (v : Simple) (fs : FS) (filePath dir : Str) (newV oldV : List Str),
          Base filePath = file → 0 ≤ v.keep →
          globResults (Archive c v fs filePath).trace = [some newV, some oldV] →
          Join [dir, file ++ '~' :: t1] < Join [dir, taggedFilename file t2]
            ∧ (Join [dir, file ++ '~' :: t1] ∈ oldV ++ newV →
                ∀ j : Nat, (removedPaths (Archive c v fs filePath).trace)[j]?
                    = some (Join [dir, taggedFilename file t2]) →
                  ∃ i : Nat, i < j ∧ (removedPaths (Archive c v fs filePath).trace)[i]?
                    = some (Join [dir, file ++ '~' :: t1])) := by
  refine ⟨legacy_lt_current file t1 t2 hext, ?_⟩
  intro c v fs filePath dir newV oldV hbase hk hglob
  have hns : Separator ∉ file := by
    rw [← hbase]
    exact base_noSep filePath (by rw [hbase]; exact hext)
  have hn1 := legacy_isName file t1 hns (timestamp_noSep t1 h1)
  have hn2 := tagged_isName file t2 hns (timestamp_noSep t2 h2)
  obtain ⟨P, _, hP⟩ := join_name_eq dir
  have hlt : Join [dir, file ++ '~' :: t1] < Join [dir, taggedFilename file t2] := by
    rw [hP _ hn1, hP _ hn2]
    exact List.Lex.append_left _ (legacy_lt_current file t1 t2 hext) _
  refine ⟨hlt, ?_⟩
  intro hmem j hj
  have hremoved := (removedPaths_of_globbed c v fs filePath hk newV oldV hglob)
  rw [hremoved] at hj ⊢
  rw [List.getElem?_take] at hj
  split at hj
  · rename_i hjk
    have hV : Join [dir, file ++ '~' :: t1] ∈ uniqueSortedStrings (oldV ++ newV) := by
      rw [uniqueSorted_mem]; exact hmem
    obtain ⟨i, hi⟩ := List.mem_iff_getElem?.mp hV
    have hij := sorted_index_lt _ (uniqueSorted_sorted _) _ _ hlt i j hi hj
    refine ⟨i, hij, ?_⟩
    rw [List.getElem?_take, if_pos (Nat.lt_trans hij hjk)]
    exact hi
  · simp at hj

/-- **C7**, as stated, fails: with `keep = 1` and a version of 2016 in the archive,
archiving the file last modified in 2015 returns `nil` and leaves no file that was not
there before, because the loop removes the version just made; with `keep = 0` the same
happens in an archive that was empty. -/
theorem archive_one_new_file_counterexample :
    ¬ ((Archive exConfig ⟨1, str "/f"⟩ exNewer (str "/f/a.txt")).result = .nil →
        (Archive exConfig ⟨1, str "/f"⟩ exNewer (str "/f/a.txt")).fs.present (str "/f/a.txt")
            = false
          ∧ (newFiles exNewer
              (Archive exConfig ⟨1, str "/f"⟩ exNewer (str "/f/a.txt")).fs).length = 1)
      ∧ ¬ ((Archive exConfig ⟨0, str "/f"⟩ exFresh (str "/f/a.txt")).result = .nil →
        (Archive exConfig ⟨0, str "/f"⟩ exFresh (str "/f/a.txt")).fs.present (str "/f/a.txt")
            = false
          ∧ (newFiles exFresh
              (Archive exConfig ⟨0, str "/f"⟩ exFresh (str "/f/a.txt")).fs).length = 1) := by
  decide

/-- **C7**, amended. When a file (not a directory) exists at `filePath` and `Archive`
returns `nil`: nothing is found at `filePath` afterwards; the file was renamed to the
destination in the archive, a place whose name is `base~T ext` with `T` the file's own
modification time; a file that was not there before the call can only be at that place, so
there is at most one; the file is at the destination unless the loop removed it; and when
nothing was at the destination before and the loop did not remove it, it is the one new
file. -/
theorem archive_file_moved (c : Config) (v : Simple) (fs : FS) (filePath : Str)
    (fi : FileInfo) (hL : Lstat fs filePath = .ok fi) (hfile : fi.isDir = false)
    (hnil : (Archive c v fs filePath).result = .nil) :
    (Archive c v fs filePath).fs.present filePath = false
      ∧ ∃ rel A, Rel v.folderPath (Dir filePath) = some rel
        ∧ Call.Rename filePath
            (Join [v.folderPath, c.MarkerDir, c.VersionsDir, rel,
              taggedFilename (Base filePath) (Format fi.modTime)]) none
            ∈ (Archive c v fs filePath).trace
        ∧ fs.resolve (Join [v.folderPath, c.MarkerDir, c.VersionsDir, rel,
              taggedFilename (Base filePath) (Format fi.modTime)])
            = A ++ [taggedFilename (Base filePath) (Format fi.modTime)]
        ∧ (∀ loc ∈ newFiles fs (Archive c v fs filePath).fs,
            loc = A ++ [taggedFilename (Base filePath) (Format fi.modTime)])
        ∧ (newFiles fs (Archive c v fs filePath).fs).length ≤ 1
        ∧ ((∀ q ∈ removedPaths (Archive c v fs filePath).trace,
              fs.resolve q ≠ A ++ [taggedFilename (Base filePath) (Format fi.modTime)]) →
            (Archive c v fs filePath).fs.get
                (A ++ [taggedFilename (Base filePath) (Format fi.modTime)]) = some fi
              ∧ (fs.get (A ++ [taggedFilename (Base filePath) (Format fi.modTime)]) = none →
                newFiles fs (Archive c v fs filePath).fs
                  = [A ++ [taggedFilename (Base filePath) (Format fi.modTime)]])) := by
  refine ⟨nil_result_gone c v fs filePath hnil, ?_⟩
  obtain ⟨rel, A, hrel, hcall, hA, hnew, hkeep⟩ := file_moved c v fs filePath fi hL hfile hnil
  rw [archiveDst_flat] at hcall hA hnew hkeep
  rw [hA] at hnew hkeep
  have hall : ∀ loc ∈ newFiles fs (Archive c v fs filePath).fs,
      loc = A ++ [taggedFilename (Base filePath) (Format fi.modTime)] := by
    intro loc hloc
    unfold newFiles at hloc
    rw [List.mem_filter] at hloc
    obtain ⟨_, hcond⟩ := hloc
    simp only [Bool.and_eq_true, Option.isNone_iff_eq_none] at hcond
    obtain ⟨hc1, hc2⟩ := hcond
    cases hg : (Archive c v fs filePath).fs.get loc with
    | none => rw [hg] at hc1; simp at hc1
    | some m =>
      rw [hg] at hc1
      simp at hc1
      exact hnew loc m hg hc1 hc2
  have hnodup : (newFiles fs (Archive c v fs filePath).fs).Nodup := by
    unfold newFiles
    exact (List.nodup_dedup _).filter _
  obtain ⟨hlen, hsingle⟩ := nodup_all_eq _ _ hnodup hall
  refine ⟨rel, A, hrel, hcall, hA, hall, hlen, ?_⟩
  intro hq
  have hget := hkeep hq
  refine ⟨hget, ?_⟩
  intro hnone
  apply hsingle
  unfold newFiles
  rw [List.mem_filter]
  refine ⟨?_, ?_⟩
  · rw [List.mem_dedup]
    exact get_some_mem _ _ _ (by simp) hget
  · simp [hget, hfile, hnone]

/-- **C7**, amended, at an example: archiving `/f/a.txt` with `keep = 2` into an archive
that does not exist yet leaves nothing at `/f/a.txt`. -/
theorem archive_file_moved_witness :
    Lstat exFresh (str "/f/a.txt") = .ok ⟨false, ⟨2015, 3, 4, 5, 6, 7⟩⟩
      ∧ (Archive exConfig ⟨2, str "/f"⟩ exFresh (str "/f/a.txt")).result = .nil
      ∧ (Archive exConfig ⟨2, str "/f"⟩ exFresh (str "/f/a.txt")).fs.present (str "/f/a.txt")
        = false
      ∧ newFiles exFresh (Archive exConfig ⟨2, str "/f"⟩ exFresh (str "/f/a.txt")).fs
        = [[str "f", str ".stfolder", str ".stversions", str "a~20150304-050607.txt"]] :=
  ⟨by decide, by decide,
    (archive_file_moved exConfig ⟨2, str "/f"⟩ exFresh (str "/f/a.txt")
      ⟨false, ⟨2015, 3, 4, 5, 6, 7⟩⟩ (by decide) rfl (by decide)).1,
    by decide⟩

/-- **C6**, at an example: for `a.txt`, the legacy name with the later timestamp is
smaller than the current name with the earlier one. -/
theorem legacy_pruned_before_current_witness :
    Ext (str "a.txt") ≠ [] ∧ isTimestamp (str "20140202-000000") = true
      ∧ isTimestamp (str "20140101-000000") = true
      ∧ str "a.txt" ++ '~' :: str "20140202-000000"
        < taggedFilename (str "a.txt") (str "20140101-000000") :=
  ⟨by decide, by decide, by decide,
    (legacy_pruned_before_current (str "a.txt") (str "20140202-000000")
      (str "20140101-000000") (by decide) (by decide) (by decide)).1⟩

/-- **C4**, at the failing input: with `keep = 1` and the version of 1 January 2015 of
`report[1].txt` in the archive, archiving `/f/report[1].txt` returns `nil`; the rename
and both globs succeed and no removal fails; the globs find nothing, since the name goes
into the patterns as it is and `[1]` is read as a character class, so nothing is removed;
and two archived copies of the file remain, one more than `keep`. -/
theorem archive_leaves_more_than_keep :
    (Archive exConfig ⟨1, str "/f"⟩ exBracketArchived (str "/f/report[1].txt")).result = .nil
      ∧ Call.Rename (str "/f/report[1].txt")
          (str "/f/.stfolder/.stversions/report[1]~20150202-000000.txt") none
        ∈ (Archive exConfig ⟨1, str "/f"⟩ exBracketArchived (str "/f/report[1].txt")).trace
      ∧ globResults
          (Archive exConfig ⟨1, str "/f"⟩ exBracketArchived (str "/f/report[1].txt")).trace
        = [some [], some []]
      ∧ (∀ call ∈
          (Archive exConfig ⟨1, str "/f"⟩ exBracketArchived (str "/f/report[1].txt")).trace,
          call.isFailedRemove = false)
      ∧ removedPaths
          (Archive exConfig ⟨1, str "/f"⟩ exBracketArchived (str "/f/report[1].txt")).trace
        = []
      ∧ taggedFilename (Base (str "/f/report[1].txt")) (Format (day 2015 1 1))
        = str "report[1]~20150101-000000.txt"
      ∧ taggedFilename (Base (str "/f/report[1].txt")) (Format (day 2015 2 2))
        = str "report[1]~20150202-000000.txt"
      ∧ (Archive exConfig ⟨1, str "/f"⟩ exBracketArchived (str "/f/report[1].txt")).fs.present
          (str "/f/.stfolder/.stversions/report[1]~20150101-000000.txt") = true
      ∧ (Archive exConfig ⟨1, str "/f"⟩ exBracketArchived (str "/f/report[1].txt")).fs.present
          (str "/f/.stfolder/.stversions/report[1]~20150202-000000.txt") = true
      ∧ (Archive exConfig ⟨1, str "/f"⟩ exBracketArchived
            (str "/f/report[1].txt")).fs.readdirnames
          [str "f", str ".stfolder", str ".stversions"]
        = [str "report[1]~20150101-000000.txt", str "report[1]~20150202-000000.txt"] := by
  decide

/-- **C9**, at the failing input: with the keep count `-1`, which `NewSimple` builds from
the parameter `keep = -1`, archiving `/f/a.txt` renames the file into the archive without
error, both globs succeed, and the call then ends in a slice-bounds panic: it does not
return `nil`, and it asks for no removal. -/
theorem archive_panics_after_rename :
    NewSimple (str "default") (str "/f") [(str "keep", str "-1")] = ⟨-1, str "/f"⟩
      ∧ Call.Rename (str "/f/a.txt") (str "/f/.stfolder/.stversions/a~20150304-050607.txt")
          none
        ∈ (Archive exConfig ⟨-1, str "/f"⟩ exFresh (str "/f/a.txt")).trace
      ∧ globResults (Archive exConfig ⟨-1, str "/f"⟩ exFresh (str "/f/a.txt")).trace
        = [some [str "/f/.stfolder/.stversions/a~20150304-050607.txt"], some []]
      ∧ (Archive exConfig ⟨-1, str "/f"⟩ exFresh (str "/f/a.txt")).result = .panic
      ∧ (Archive exConfig ⟨-1, str "/f"⟩ exFresh (str "/f/a.txt")).result ≠ .nil
      ∧ removedPaths (Archive exConfig ⟨-1, str "/f"⟩ exFresh (str "/f/a.txt")).trace = [] := by
  decide

/-- **C8**, at the failing input: the parameter `keep = -1` gives the policy the keep
count `-1`; the prune bound `len(versions) - keep` is then beyond `len(versions)`, and
archiving a file ends in a slice-bounds panic after the file was moved.  A missing or
unparsable `keep` gives 5. -/
theorem newSimple_negative_keep :
    NewSimple (str "default") (str "/f") [(str "keep", str "-1")] = ⟨-1, str "/f"⟩
      ∧ (Archive exConfig (NewSimple (str "default") (str "/f") [(str "keep", str "-1")])
          exFresh (str "/f/a.txt")).result = .panic
      ∧ (Archive exConfig (NewSimple (str "default") (str "/f") [(str "keep", str "-1")])
          exFresh (str "/f/a.txt")).fs.present (str "/f/a.txt") = false
      ∧ (NewSimple (str "default") (str "/f") []).keep = 5
      ∧ (NewSimple (str "default") (str "/f") [(str "keep", str "many")]).keep = 5 := by
  decide

/-- **C10**, at the failing input: with `keep = 1`, archiving `/f/report[12].txt` removes
`report1~20150101-000000.txt`, which is the archived version of `report1.txt` and has
neither the current nor the legacy name of a version of `report[12].txt`; the version of
`report[12].txt` itself is not among the matches. -/
theorem archive_removes_version_of_other_file :
    Call.Remove (str "/f/.stfolder/.stversions/report1~20150101-000000.txt") none
        ∈ (Archive exConfig ⟨1, str "/f"⟩ exOthers (str "/f/report[12].txt")).trace
      ∧ exOthers.present (str "/f/.stfolder/.stversions/report1~20150101-000000.txt") = true
      ∧ (Archive exConfig ⟨1, str "/f"⟩ exOthers (str "/f/report[12].txt")).fs.present
          (str "/f/.stfolder/.stversions/report1~20150101-000000.txt") = false
      ∧ str "report1~20150101-000000.txt"
          = taggedFilename (str "report1.txt") (Format (day 2015 1 1))
      ∧ (∀ t, str "report1~20150101-000000.txt"
            ≠ taggedFilename (Base (str "/f/report[12].txt")) t
          ∧ str "report1~20150101-000000.txt" ≠ Base (str "/f/report[12].txt") ++ '~' :: t)
      ∧ globResults (Archive exConfig ⟨1, str "/f"⟩ exOthers (str "/f/report[12].txt")).trace
          = [some [str "/f/.stfolder/.stversions/report1~20150101-000000.txt",
                str "/f/.stfolder/.stversions/report2~20150101-000000.txt"], some []] := by
  refine ⟨by decide, by decide, by decide, by decide, ?_, by decide⟩
  intro t
  have hb : Base (str "/f/report[12].txt") = str "report[12].txt" := by decide
  have he : Ext (str "report[12].txt") = str ".txt" := by decide
  rw [hb]
  constructor
  · intro h
    have h7 := congrArg (fun l => l.take 7) h
    simp only [taggedFilename, he] at h7
    simp [str] at h7
  · intro h
    have h7 := congrArg (fun l => l.take 7) h
    simp [str] at h7

/-- **C5**, at the failing input: with `keep = 1`, after `/f/report[1].txt` was archived
twice, with modification times of 1 January and 2 February 2015, both versions are in the
archive: the glob pattern built from the name matches neither of them. -/
theorem archive_keeps_more_than_keep :
    (Archive exConfig ⟨1, str "/f"⟩ exBracket (str "/f/report[1].txt")).result = .nil
      ∧ (Archive exConfig ⟨1, str "/f"⟩
          ((Archive exConfig ⟨1, str "/f"⟩ exBracket (str "/f/report[1].txt")).fs.write
            [str "f", str "report[1].txt"] ⟨false, day 2015 2 2⟩)
          (str "/f/report[1].txt")).result = .nil
      ∧ exBracketTwice.present (str "/f/.stfolder/.stversions/report[1]~20150101-000000.txt")
          = true
      ∧ exBracketTwice.present (str "/f/.stfolder/.stversions/report[1]~20150202-000000.txt")
          = true
      ∧ exBracketTwice.present (str "/f/report[1].txt") = false := by
  decide

set_option maxRecDepth 100000 in
/-- The example of the spec: with `keep = 2`, after `report.txt` was archived at three
modification times, in whatever order, the versions of the two latest times are in the
archive and the version of the earliest is not. -/
theorem report_thrice_keeps_latest_two :
    (∀ fs ∈ [exReportThrice (day 2015 1 1) (day 2015 2 2) (day 2015 3 3),
          exReportThrice (day 2015 3 3) (day 2015 1 1) (day 2015 2 2),
          exReportThrice (day 2015 2 2) (day 2015 3 3) (day 2015 1 1)],
        fs.present (str "/f/.stfolder/.stversions/report~20150101-000000.txt") = false
          ∧ fs.present (str "/f/.stfolder/.stversions/report~20150202-000000.txt") = true
          ∧ fs.present (str "/f/.stfolder/.stversions/report~20150303-000000.txt") = true
          ∧ fs.present (str "/f/report.txt") = false
          ∧ (fs.readdirnames [str "f", str ".stfolder", str ".stversions"]).length = 2) := by
  decide

/-- The keep count of `NewSimple` is what `strconv.Atoi` reads from the parameter `keep`,
and 5 when it reads nothing. -/
theorem newSimple_keep (folderID folderPath : Str) (params : List (Str × Str)) :
    (NewSimple folderID folderPath params).keep
        = (Atoi ((params.lookup (str "keep")).getD [])).getD 5
      ∧ (NewSimple folderID folderPath params).folderPath = folderPath := by
  unfold NewSimple
  cases h : Atoi ((params.lookup (str "keep")).getD []) with
  | none =>
    have h2 : Atoi ((List.lookup ['k', 'e', 'e', 'p'] params).getD []) = none := h
    simp [h2]
  | some k =>
    have h2 : Atoi ((List.lookup ['k', 'e', 'e', 'p'] params).getD []) = some k := h
    simp [h2]

/-! ## What the two patterns of `Archive` match -/

theorem renderItems_append (a b : List Item) :
    renderItems (a ++ b) = renderItems a ++ renderItems b := by
  induction a with
  | nil => rfl
  | cons it rest ih =>
    cases it with
    | lit c =>
      show c :: renderItems (rest ++ b) = c :: renderItems rest ++ renderItems b
      rw [ih]; rfl
    | digit =>
      show digitClass ++ renderItems (rest ++ b) = (digitClass ++ renderItems rest) ++ renderItems b
      rw [ih, List.append_assoc]

theorem renderItems_lits (l : Str) : renderItems (lits l) = l := by
  induction l with
  | nil => rfl
  | cons c cs ih =>
    show c :: renderItems (lits cs) = c :: cs
    rw [ih]

theorem renderItems_time : renderItems timeItems = TimeGlob := by decide

theorem renderItems_new (file : Str) :
    renderItems (newItems file) = taggedFilename file TimeGlob := by
  unfold newItems taggedFilename
  rw [renderItems_append, renderItems_lits]
  show _ ++ '~' :: renderItems (timeItems ++ lits (Ext file)) = _
  rw [renderItems_append, renderItems_time, renderItems_lits]

theorem renderItems_old (file : Str) :
    renderItems (oldItems file) = file ++ '~' :: TimeGlob := by
  unfold oldItems
  rw [renderItems_append, renderItems_lits]
  show _ ++ '~' :: renderItems timeItems = _
  rw [renderItems_time]

theorem refMatch_cons_nil (it : Item) (items : List Item) :
    refMatch (it :: items) [] = .no := by
  cases it <;> rfl

theorem refMatch_lit_cons (c r : Char) (items : List Item) (s : Str) :
    refMatch (Item.lit c :: items) (r :: s) = if c = r then refMatch items s else .no := rfl

theorem refMatch_digit_cons (r : Char) (items : List Item) (s : Str) :
    refMatch (Item.digit :: items) (r :: s) = if isDigit r then refMatch items s else .no := rfl

theorem refMatch_lits (l : Str) (rest : List Item) (s t : Str) :
    refMatch (lits l ++ rest) s = .yes t ↔ ∃ s1, s = l ++ s1 ∧ refMatch rest s1 = .yes t := by
  induction l generalizing s with
  | nil =>
    show refMatch rest s = .yes t ↔ _
    constructor
    · intro h; exact ⟨s, rfl, h⟩
    · rintro ⟨s1, h1, h2⟩
      rw [h1]; exact h2
  | cons c cs ih =>
    show refMatch (Item.lit c :: (lits cs ++ rest)) s = .yes t ↔ _
    cases s with
    | nil =>
      rw [refMatch_cons_nil]
      constructor
      · intro h; exact ChunkResult.noConfusion h
      · rintro ⟨s1, h1, _⟩
        exact List.noConfusion h1
    | cons r s1 =>
      rw [refMatch_lit_cons]
      by_cases hc : c = r
      · subst hc
        rw [if_pos rfl, ih]
        constructor
        · rintro ⟨s2, h1, h2⟩
          exact ⟨s2, by rw [h1]; rfl, h2⟩
        · rintro ⟨s2, h1, h2⟩
          exact ⟨s2, (List.cons.inj h1).2, h2⟩
      · rw [if_neg hc]
        constructor
        · intro h; exact ChunkResult.noConfusion h
        · rintro ⟨s2, h1, _⟩
          exact absurd (List.cons.inj h1).1.symm hc

theorem refMatch_digits (n : Nat) (rest : List Item) (s t : Str) :
    refMatch (List.replicate n Item.digit ++ rest) s = .yes t
      ↔ ∃ ds s1, s = ds ++ s1 ∧ ds.length = n ∧ ds.all isDigit = true
          ∧ refMatch rest s1 = .yes t := by
  induction n generalizing s with
  | zero =>
    show refMatch rest s = .yes t ↔ _
    constructor
    · intro h; exact ⟨[], s, rfl, rfl, rfl, h⟩
    · rintro ⟨ds, s1, h1, h2, _, h4⟩
      have : ds = [] := List.length_eq_zero.mp h2
      subst this
      rw [h1]; exact h4
  | succ n ih =>
    show refMatch (Item.digit :: (List.replicate n Item.digit ++ rest)) s = .yes t ↔ _
    cases s with
    | nil =>
      rw [refMatch_cons_nil]
      constructor
      · intro h; exact ChunkResult.noConfusion h
      · rintro ⟨ds, s1, h1, h2, _, _⟩
        cases ds with
        | nil => exact absurd h2 (by simp)
        | cons d ds1 => exact List.noConfusion h1
    | cons r s1 =>
      rw [refMatch_digit_cons]
      by_cases hr : isDigit r = true
      · rw [if_pos hr, ih]
        constructor
        · rintro ⟨ds, s2, h1, h2, h3, h4⟩
          exact ⟨r :: ds, s2, by rw [h1]; rfl, by simp [h2], by simp [hr, h3], h4⟩
        · rintro ⟨ds, s2, h1, h2, h3, h4⟩
          cases ds with
          | nil => exact absurd h2 (by simp)
          | cons d ds1 =>
            have h1b := (List.cons.inj h1).2
            simp only [List.length_cons, Nat.add_right_cancel_iff] at h2
            simp only [List.all_cons, Bool.and_eq_true] at h3
            exact ⟨ds1, s2, h1b, h2, h3.2, h4⟩
      · rw [if_neg hr]
        constructor
        · intro h; exact ChunkResult.noConfusion h
        · rintro ⟨ds, s2, h1, h2, h3, _⟩
          cases ds with
          | nil => exact absurd h2 (by simp)
          | cons d ds1 =>
            have h1a := (List.cons.inj h1).1
            simp only [List.all_cons, Bool.and_eq_true] at h3
            rw [h1a] at hr
            exact absurd h3.1 hr

theorem refMatch_lit (c : Char) (rest : List Item) (s t : Str) :
    refMatch (Item.lit c :: rest) s = .yes t ↔ ∃ s1, s = c :: s1 ∧ refMatch rest s1 = .yes t := by
  have := refMatch_lits [c] rest s t
  simpa [lits] using this

theorem refMatch_end (s t : Str) : refMatch (lits s) t = .yes [] ↔ t = s := by
  have := refMatch_lits s [] t []
  simp only [List.append_nil, refMatch] at this
  rw [this]
  constructor
  · rintro ⟨s1, h1, h2⟩
    injection h2 with h2
    rw [h1, h2]; simp
  · intro h
    exact ⟨[], by simp [h], rfl⟩

/-- A string the pattern for any timestamp matches, with something plain behind it, is a
timestamp with that behind it. -/
theorem refMatch_time (ext s : Str) :
    refMatch (timeItems ++ lits ext) s = .yes [] ↔ ∃ T, isTimestamp T = true ∧ s = T ++ ext := by
  unfold timeItems
  rw [List.append_assoc, refMatch_digits]
  constructor
  · rintro ⟨ds1, s1, h1, h2, h3, h4⟩
    rw [List.cons_append, refMatch_lit] at h4
    obtain ⟨s2, h5, h6⟩ := h4
    rw [refMatch_digits] at h6
    obtain ⟨ds2, s3, h7, h8, h9, h10⟩ := h6
    rw [refMatch_end] at h10
    refine ⟨ds1 ++ '-' :: ds2, ?_, by rw [h1, h5, h7, h10]; simp⟩
    unfold isTimestamp
    have e1 : (ds1 ++ '-' :: ds2).take 8 = ds1 := by rw [← h2, List.take_left]
    have e2 : (ds1 ++ '-' :: ds2).drop 8 = '-' :: ds2 := by rw [← h2, List.drop_left]
    have e3 : (ds1 ++ '-' :: ds2).drop 9 = ds2 := by
      have : (ds1 ++ '-' :: ds2).drop 9 = ((ds1 ++ '-' :: ds2).drop 8).drop 1 := by simp
      rw [this, e2]; rfl
    rw [e1, e2, e3]
    simp [h2, h8, h3, h9]
  · rintro ⟨T, hT, hs⟩
    unfold isTimestamp at hT
    simp only [Bool.and_eq_true, beq_iff_eq, List.all_append] at hT
    obtain ⟨⟨hlen, hdash⟩, hd1, hd2⟩ := hT
    have hsplit : T = T.take 8 ++ T.drop 8 := (List.take_append_drop 8 T).symm
    cases hdrop : T.drop 8 with
    | nil => rw [hdrop] at hdash; simp at hdash
    | cons a rest =>
      rw [hdrop] at hdash
      simp at hdash
      subst hdash
      have hrest : T.drop 9 = rest := by
        have : T.drop 9 = (T.drop 8).drop 1 := by simp
        rw [this, hdrop]; rfl
      rw [hrest] at hd2
      have hl8 : (T.take 8).length = 8 := by simp [hlen]
      have hl6 : rest.length = 6 := by
        have := congrArg List.length hdrop
        simp [hlen] at this
        omega
      refine ⟨T.take 8, '-' :: rest ++ ext, ?_, hl8, hd1, ?_⟩
      · rw [hs]
        conv_lhs => rw [hsplit, hdrop]
        simp
      · rw [List.cons_append, List.cons_append, refMatch_lit]
        refine ⟨rest ++ ext, rfl, ?_⟩
        rw [refMatch_digits]
        exact ⟨rest, ext, rfl, hl6, hd2, (refMatch_end ext ext).mpr rfl⟩

/-- What the pattern for the current names matches: the names `base~T ext`. -/
theorem refMatch_new (file name : Str) :
    refMatch (newItems file) name = .yes []
      ↔ ∃ T, isTimestamp T = true ∧ name = taggedFilename file T := by
  unfold newItems taggedFilename
  rw [refMatch_lits]
  constructor
  · rintro ⟨s1, h1, h2⟩
    rw [refMatch_lit] at h2
    obtain ⟨s2, h3, h4⟩ := h2
    rw [refMatch_time] at h4
    obtain ⟨T, hT, h5⟩ := h4
    exact ⟨T, hT, by rw [h1, h3, h5]⟩
  · rintro ⟨T, hT, h1⟩
    refine ⟨'~' :: (T ++ Ext file), h1, ?_⟩
    rw [refMatch_lit]
    exact ⟨T ++ Ext file, rfl, (refMatch_time _ _).mpr ⟨T, hT, rfl⟩⟩

/-- What the pattern for the legacy names matches: the names `file~T`. -/
theorem refMatch_old (file name : Str) :
    refMatch (oldItems file) name = .yes []
      ↔ ∃ T, isTimestamp T = true ∧ name = file ++ '~' :: T := by
  unfold oldItems
  rw [refMatch_lits]
  have ht : ∀ s, refMatch timeItems s = .yes [] ↔ ∃ T, isTimestamp T = true ∧ s = T := by
    intro s
    have := refMatch_time [] s
    simpa [lits] using this
  constructor
  · rintro ⟨s1, h1, h2⟩
    rw [refMatch_lit] at h2
    obtain ⟨s2, h3, h4⟩ := h2
    rw [ht] at h4
    obtain ⟨T, hT, h5⟩ := h4
    exact ⟨T, hT, by rw [h1, h3, h5]⟩
  · rintro ⟨T, hT, h1⟩
    refine ⟨'~' :: T, h1, ?_⟩
    rw [refMatch_lit]
    exact ⟨T, rfl, (ht T).mpr ⟨T, hT, rfl⟩⟩

/-! ## `Glob` for a pattern in a directory without magic characters -/

theorem join_front (dir n : Str) (hn : isName n) : Join [dir, n] = joinFront dir ++ n := by
  have hne : n ≠ [] := hn.1
  have hsplit : splitSep n = [n] := splitSep_noSep n hn.2.2.2
  unfold joinFront
  by_cases hdir : dir = []
  · simp [Join, hdir, hne, joinSep, Clean, name_not_rooted n hn, cleanElems, hsplit,
      cleanStep_name _ _ _ hn]
  · rw [if_neg hdir]
    have hroot : isRooted (dir ++ Separator :: n) = isRooted dir := isRooted_append dir _ hdir
    have helems : cleanElems (isRooted dir) (dir ++ Separator :: n)
        = cleanElems (isRooted dir) dir ++ [n] := by
      simp [cleanElems, splitSep_append_sep, hsplit, List.foldl_append,
        cleanStep_name _ _ _ hn]
    simp only [Join, List.filter, hdir, hne, decide_not, decide_False, Bool.not_false,
      joinSep, Clean, hroot, helems, joinSep_append_singleton]
    generalize isRooted dir = r
    generalize cleanElems r dir = E
    cases r <;> by_cases hE : E = [] <;> simp [hE]

theorem joinFront_shape (dir : Str) :
    joinFront dir = [] ∨ joinFront dir = [Separator]
      ∨ (dir ≠ [] ∧ joinFront dir = Clean dir ++ [Separator] ∧ Clean dir ≠ [Separator]) := by
  unfold joinFront
  by_cases hdir : dir = []
  · left; rw [if_pos hdir]
  · rw [if_neg hdir, clean_eq dir]
    have hcl := cleanList_elems _ _ (cleanElems_clean (isRooted dir) dir)
    have hs := splitSep_joinSep (cleanElems (isRooted dir) dir)
    generalize isRooted dir = r at hcl hs ⊢
    generalize cleanElems r dir = E at hcl hs ⊢
    by_cases hE : E = []
    · cases r
      · left; simp [hE]
      · right; left; simp [hE]
    · right; right
      have hs1 := hs hE (fun e he => (hcl e he).2)
      refine ⟨hdir, ?_, ?_⟩
      · cases r <;> simp [hE]
      · cases r
        · simp only [Bool.false_eq_true, if_false, if_neg hE]
          intro h
          rw [h] at hs1
          have : E = [[], []] := by rw [← hs1]; decide
          exact (hcl [] (by rw [this]; simp)).1 rfl
        · simp only [if_true]
          intro h
          have hj : joinSep E = [] := (List.cons.inj h).2
          rw [hj] at hs1
          have : E = [[]] := by rw [← hs1]; decide
          exact (hcl [] (by rw [this]; simp)).1 rfl

theorem joinFront_globDir (dir : Str) :
    joinFront (globDir (joinFront dir)) = joinFront dir := by
  rcases joinFront_shape dir with h | h | ⟨hdir, h, hne⟩
  · rw [h]; decide
  · rw [h]; decide
  · have hg : globDir (joinFront dir) = Clean dir := by
      rw [h]
      unfold globDir
      rw [if_neg (by simp), if_neg, List.dropLast_concat]
      intro h1
      have := congrArg List.length h1
      have hc := clean_ne_nil dir
      cases hcd : Clean dir with
      | nil => exact hc hcd
      | cons a rest => rw [hcd] at this; simp at this
    rw [hg]
    unfold joinFront
    rw [if_neg (clean_ne_nil dir), if_neg hdir, isRooted_clean, cleanElems_of_clean]

theorem dropWhile_append_all (f : Char → Bool) (l r : Str) (h : ∀ c ∈ l, f c = true) :
    (l ++ r).dropWhile f = r.dropWhile f := by
  induction l with
  | nil => rfl
  | cons a rest ih =>
    have ha : f a = true := h a (by simp)
    rw [List.cons_append, List.dropWhile_cons_of_pos ha]
    exact ih (fun c hc => h c (by simp [hc]))

theorem takeWhile_append_all (f : Char → Bool) (l r : Str) (h : ∀ c ∈ l, f c = true) :
    (l ++ r).takeWhile f = l ++ r.takeWhile f := by
  induction l with
  | nil => rfl
  | cons a rest ih =>
    have ha : f a = true := h a (by simp)
    rw [List.cons_append, List.takeWhile_cons_of_pos ha, ih (fun c hc => h c (by simp [hc]))]
    rfl

/-- `Split` of a name behind a front that is empty or ends in a separator. -/
theorem split_front_name (front name : Str) (hn : Separator ∉ name)
    (hf : front = [] ∨ ∃ X, front = X ++ [Separator]) :
    Split (front ++ name) = (front, name) := by
  have hall : ∀ c ∈ name.reverse, (c != Separator) = true := by
    intro c hc
    have : c ≠ Separator := fun e => hn (by rw [← e]; exact List.mem_reverse.mp hc)
    simpa using this
  unfold Split lastElem
  rw [List.reverse_append, dropWhile_append_all _ _ _ hall, takeWhile_append_all _ _ _ hall]
  rcases hf with h | ⟨X, h⟩
  · subst h; simp
  · subst h
    simp [List.dropWhile, List.takeWhile]

theorem hasMeta_false_iff (p : Str) :
    hasMeta p = false ↔ ∀ c ∈ p, c ≠ '*' ∧ c ≠ '?' ∧ c ≠ '[' := by
  unfold hasMeta
  rw [List.any_eq_false]
  constructor
  · intro h c hc
    have := h c hc
    refine ⟨fun e => this ?_, fun e => this ?_, fun e => this ?_⟩ <;> rw [e] <;> rfl
  · intro h c hc hm
    have := h c hc
    simp only [Bool.or_eq_true, beq_iff_eq] at hm
    rcases hm with (hm | hm) | hm
    · exact this.1 hm
    · exact this.2.1 hm
    · exact this.2.2 hm

/-- For a pattern with magic characters only in its last element, `Glob` reads one
directory. -/
theorem glob_one_dir (fs : FS) (front pat : Str) (hn : Separator ∉ pat)
    (hf : front = [] ∨ ∃ X, front = X ++ [Separator])
    (hm : hasMeta pat = true) (hd : hasMeta (globDir front) = false) :
    Glob fs (front ++ pat) = glob fs (globDir front) pat [] := by
  have hmp : hasMeta (front ++ pat) = true := by
    unfold hasMeta at hm ⊢
    rw [List.any_append, hm, Bool.or_true]
  unfold Glob
  rw [globFuel]
  simp only [hmp, split_front_name front pat hn hf, Bool.true_eq_false, if_false]
  have : (if front = [] then ['.'] else if front = [Separator] then front else front.dropLast)
      = globDir front := rfl
  rw [this, if_pos hd]

theorem globNames_mem (dir pat : Str) (names : List Str) : ∀ (m l : List Str),
    globNames dir pat names m = some l → ∀ q ∈ l,
      q ∈ m ∨ ∃ n ∈ names, Match pat n = some true ∧ q = Join [dir, n] := by
  induction names with
  | nil =>
    intro m l h q hq
    have : m = l := by simpa [globNames] using h
    left; rw [this]; exact hq
  | cons n rest ih =>
    intro m l h q hq
    rw [globNames] at h
    cases hM : Match pat n with
    | none => rw [hM] at h; exact Option.noConfusion h
    | some b =>
      rw [hM] at h
      dsimp only at h
      rcases ih _ l h q hq with h1 | ⟨n1, hn1, hm1, hq1⟩
      · cases b
        · left; simpa using h1
        · simp only [if_true, List.mem_append, List.mem_singleton] at h1
          rcases h1 with h1 | h1
          · left; exact h1
          · right; exact ⟨n, by simp, hM, h1⟩
      · right; exact ⟨n1, by simp [hn1], hm1, hq1⟩

theorem glob_mem (fs : FS) (dir pat : Str) (l : List Str)
    (h : glob fs dir pat [] = some l) (q : Str) (hq : q ∈ l) :
    ∃ n, Match pat n = some true ∧ q = Join [dir, n] := by
  unfold glob at h
  cases hS : Stat fs dir with
  | error e =>
    rw [hS] at h
    have : l = [] := by simpa using h.symm
    rw [this] at hq; simp at hq
  | ok fi =>
    rw [hS] at h
    dsimp only at h
    by_cases hd : fi.isDir = false
    · rw [if_pos hd] at h
      have : l = [] := by simpa using h.symm
      rw [this] at hq; simp at hq
    · rw [if_neg hd] at h
      rcases globNames_mem dir pat _ [] l h q hq with h1 | ⟨n, _, hm, hq1⟩
      · simp at h1
      · exact ⟨n, hm, hq1⟩

/-! ## The characters of a cleaned path -/

theorem splitSep_chars (p : Str) : ∀ e ∈ splitSep p, ∀ c ∈ e, c ∈ p := by
  induction p with
  | nil =>
    intro e he c hc
    have : e = [] := by simpa [splitSep] using he
    rw [this] at hc; simp at hc
  | cons a rest ih =>
    intro e he c hc
    rw [splitSep] at he
    by_cases ha : a = Separator
    · rw [if_pos ha] at he
      rcases List.mem_cons.mp he with h | h
      · rw [h] at hc; simp at hc
      · exact List.mem_cons_of_mem _ (ih e h c hc)
    · rw [if_neg ha] at he
      cases hs : splitSep rest with
      | nil =>
        rw [hs] at he
        have : e = [a] := by simpa using he
        rw [this] at hc
        have : c = a := by simpa using hc
        rw [this]; simp
      | cons h t =>
        rw [hs] at he
        dsimp only at he
        rcases List.mem_cons.mp he with h1 | h1
        · rw [h1] at hc
          rcases List.mem_cons.mp hc with h2 | h2
          · rw [h2]; simp
          · exact List.mem_cons_of_mem _ (ih h (by rw [hs]; simp) c h2)
        · exact List.mem_cons_of_mem _ (ih e (by rw [hs]; simp [h1]) c hc)

theorem cleanStep_mem (r : Bool) (acc : List Str) (c : Str) :
    ∀ e ∈ cleanStep r acc c, e ∈ acc ∨ e = c := by
  intro e he
  unfold cleanStep at he
  split at he
  · left; exact he
  · split at he
    · split at he
      · split at he
        · left; exact he
        · rcases List.mem_append.mp he with h | h
          · left; exact h
          · right; simpa using h
      · split at he
        · rcases List.mem_append.mp he with h | h
          · left; exact h
          · right; simpa using h
        · left; exact List.mem_of_mem_dropLast he
    · rcases List.mem_append.mp he with h | h
      · left; exact h
      · right; simpa using h

theorem foldl_cleanStep_mem (r : Bool) (l : List Str) : ∀ (acc : List Str),
    ∀ e ∈ l.foldl (cleanStep r) acc, e ∈ acc ∨ e ∈ l := by
  induction l with
  | nil => intro acc e he; left; exact he
  | cons a rest ih =>
    intro acc e he
    rw [List.foldl_cons] at he
    rcases ih _ e he with h | h
    · rcases cleanStep_mem r acc a e h with h1 | h1
      · left; exact h1
      · right; rw [h1]; simp
    · right; exact List.mem_cons_of_mem _ h

theorem joinSep_chars (E : List Str) :
    ∀ c ∈ joinSep E, c = Separator ∨ ∃ e ∈ E, c ∈ e := by
  induction E with
  | nil => intro c hc; simp [joinSep] at hc
  | cons a rest ih =>
    cases rest with
    | nil =>
      intro c hc
      right; exact ⟨a, by simp, by simpa [joinSep] using hc⟩
    | cons b rest2 =>
      intro c hc
      rw [joinSep] at hc
      rcases List.mem_append.mp hc with h | h
      · right; exact ⟨a, by simp, h⟩
      · rcases List.mem_cons.mp h with h1 | h1
        · left; exact h1
        · rcases ih c h1 with h2 | ⟨e, he, hce⟩
          · left; exact h2
          · right; exact ⟨e, List.mem_cons_of_mem _ he, hce⟩

theorem cleanElems_chars (r : Bool) (p : Str) :
    ∀ e ∈ cleanElems r p, ∀ c ∈ e, c ∈ p := by
  intro e he c hc
  unfold cleanElems at he
  rcases foldl_cleanStep_mem r _ [] e he with h | h
  · simp at h
  · exact splitSep_chars p e h c hc

/-- A cleaned path holds the characters of the path, separators and dots. -/
theorem clean_chars (p : Str) : ∀ c ∈ Clean p, c = Separator ∨ c = '.' ∨ c ∈ p := by
  intro c hc
  have hj : ∀ c ∈ joinSep (cleanElems (isRooted p) p), c = Separator ∨ c = '.' ∨ c ∈ p := by
    intro c hc
    rcases joinSep_chars _ c hc with h | ⟨e, he, hce⟩
    · left; exact h
    · right; right; exact cleanElems_chars _ p e he c hce
  rw [clean_eq] at hc
  split at hc
  · rcases List.mem_cons.mp hc with h | h
    · left; exact h
    · exact hj c h
  · split at hc
    · right; left; simpa using hc
    · exact hj c hc

theorem hasMeta_clean (p : Str) (h : hasMeta p = false) : hasMeta (Clean p) = false := by
  rw [hasMeta_false_iff] at h ⊢
  intro c hc
  rcases clean_chars p c hc with h1 | h1 | h1
  · rw [h1]; decide
  · rw [h1]; decide
  · exact h c h1

theorem hasMeta_globDir (dir : Str) (h : hasMeta dir = false) :
    hasMeta (globDir (joinFront dir)) = false := by
  rcases joinFront_shape dir with h1 | h1 | ⟨_, h1, _⟩
  · rw [h1]; decide
  · rw [h1]; decide
  · have hg : globDir (joinFront dir) = Clean dir := by
      rw [h1]
      unfold globDir
      rw [if_neg (by simp), if_neg, List.dropLast_concat]
      intro h2
      have := congrArg List.length h2
      cases hcd : Clean dir with
      | nil => exact clean_ne_nil dir hcd
      | cons a rest => rw [hcd] at this; simp at this
    rw [hg]
    exact hasMeta_clean dir h

/-- What `Glob` finds for a pattern of plain characters and digit classes in a directory
without magic characters: paths in that directory whose name the pattern matches. -/
theorem glob_items (fs : FS) (dir : Str) (items : List Item) (hp : plainItems items)
    (hi : isName (renderItems items)) (hm : hasMeta (renderItems items) = true)
    (hnames : ∀ n, refMatch items n = .yes [] → isName n)
    (hd : hasMeta dir = false) (l : List Str)
    (h : Glob fs (Join [dir, renderItems items]) = some l) (q : Str) (hq : q ∈ l) :
    ∃ n, refMatch items n = .yes [] ∧ q = Join [dir, n] := by
  have hne : items ≠ [] := by
    intro e
    rw [e] at hi
    exact hi.1 rfl
  have hf : joinFront dir = [] ∨ ∃ X, joinFront dir = X ++ [Separator] := by
    rcases joinFront_shape dir with h1 | h1 | ⟨_, h1, _⟩
    · left; exact h1
    · right; exact ⟨[], h1⟩
    · right; exact ⟨_, h1⟩
  rw [join_front dir _ hi,
    glob_one_dir fs _ _ hi.2.2.2 hf hm (hasMeta_globDir dir hd)] at h
  obtain ⟨n, hM, hqn⟩ := glob_mem fs _ _ l h q hq
  rw [match_items items hp hne n] at hM
  have hr : refMatch items n = .yes [] := by simpa using hM
  refine ⟨n, hr, ?_⟩
  rw [hqn, join_front _ n (hnames n hr), joinFront_globDir, join_front dir n (hnames n hr)]

/-! ## The versions the two patterns find -/

theorem isPlain_iff (s : Str) : isPlain s = true ↔ ∀ c ∈ s, isMeta c = false := by
  unfold isPlain
  rw [List.all_eq_true]
  constructor
  · intro h c hc
    have := h c hc
    simpa using this
  · intro h c hc
    simp [h c hc]

theorem plainItems_lits (s : Str) (h : ∀ c ∈ s, isMeta c = false) : plainItems (lits s) := by
  intro c hc
  unfold lits at hc
  rw [List.mem_map] at hc
  obtain ⟨a, ha, hac⟩ := hc
  injection hac with hac
  rw [← hac]
  exact h a ha

theorem plainItems_time : plainItems timeItems := by
  intro c hc
  have : c = '-' := by
    unfold timeItems at hc
    simp only [List.mem_append, List.mem_cons, List.mem_replicate] at hc
    rcases hc with ⟨_, h⟩ | h | ⟨_, h⟩
    · exact Item.noConfusion h
    · injection h
    · exact Item.noConfusion h
  rw [this]; decide

theorem plainItems_new (file : Str) (h : isPlain file = true) : plainItems (newItems file) := by
  rw [isPlain_iff] at h
  intro c hc
  unfold newItems at hc
  simp only [List.mem_append, List.mem_cons] at hc
  rcases hc with h1 | h1 | h1 | h1
  · exact plainItems_lits _ (fun a ha => h a (List.mem_of_mem_take ha)) c h1
  · injection h1 with h1; rw [h1]; decide
  · exact plainItems_time c h1
  · exact plainItems_lits _ (fun a ha => h a (ext_mem file a ha)) c h1

theorem plainItems_old (file : Str) (h : isPlain file = true) : plainItems (oldItems file) := by
  rw [isPlain_iff] at h
  intro c hc
  unfold oldItems at hc
  simp only [List.mem_append, List.mem_cons] at hc
  rcases hc with h1 | h1 | h1
  · exact plainItems_lits _ h c h1
  · injection h1 with h1; rw [h1]; decide
  · exact plainItems_time c h1

theorem timeGlob_noSep : Separator ∉ TimeGlob := by decide

theorem hasMeta_of_mem (s : Str) (h : '[' ∈ s) : hasMeta s = true := by
  unfold hasMeta
  rw [List.any_eq_true]
  exact ⟨'[', h, by decide⟩

theorem timeGlob_bracket : '[' ∈ TimeGlob := by decide

/-- The paths the pattern for the current names finds in a directory without magic
characters, for a plain file name. -/
theorem glob_new (fs : FS) (dir file : Str) (hplain : isPlain file = true)
    (hsep : Separator ∉ file) (hd : hasMeta dir = false) (l : List Str)
    (h : Glob fs (Join [dir, taggedFilename file TimeGlob]) = some l) (q : Str) (hq : q ∈ l) :
    ∃ T, isTimestamp T = true ∧ q = Join [dir, taggedFilename file T] := by
  rw [← renderItems_new] at h
  have hi : isName (renderItems (newItems file)) := by
    rw [renderItems_new]
    exact tagged_isName file TimeGlob hsep timeGlob_noSep
  have hm : hasMeta (renderItems (newItems file)) = true := by
    rw [renderItems_new]
    apply hasMeta_of_mem
    unfold taggedFilename
    simp only [List.mem_append, List.mem_cons]
    right; right; left; exact timeGlob_bracket
  have hnames : ∀ n, refMatch (newItems file) n = .yes [] → isName n := by
    intro n hn
    obtain ⟨T, hT, hnT⟩ := (refMatch_new file n).mp hn
    rw [hnT]
    exact tagged_isName file T hsep (timestamp_noSep T hT)
  obtain ⟨n, hn, hqn⟩ := glob_items fs dir _ (plainItems_new file hplain) hi hm hnames hd l h q hq
  obtain ⟨T, hT, hnT⟩ := (refMatch_new file n).mp hn
  exact ⟨T, hT, by rw [hqn, hnT]⟩

/-- The paths the pattern for the legacy names finds in a directory without magic
characters, for a plain file name. -/
theorem glob_old (fs : FS) (dir file : Str) (hplain : isPlain file = true)
    (hsep : Separator ∉ file) (hd : hasMeta dir = false) (l : List Str)
    (h : Glob fs (Join [dir, file ++ '~' :: TimeGlob]) = some l) (q : Str) (hq : q ∈ l) :
    ∃ T, isTimestamp T = true ∧ q = Join [dir, file ++ '~' :: T] := by
  rw [← renderItems_old] at h
  have hi : isName (renderItems (oldItems file)) := by
    rw [renderItems_old]
    exact legacy_isName file TimeGlob hsep timeGlob_noSep
  have hm : hasMeta (renderItems (oldItems file)) = true := by
    rw [renderItems_old]
    apply hasMeta_of_mem
    simp only [List.mem_append, List.mem_cons]
    right; right; exact timeGlob_bracket
  have hnames : ∀ n, refMatch (oldItems file) n = .yes [] → isName n := by
    intro n hn
    obtain ⟨T, hT, hnT⟩ := (refMatch_old file n).mp hn
    rw [hnT]
    exact legacy_isName file T hsep (timestamp_noSep T hT)
  obtain ⟨n, hn, hqn⟩ := glob_items fs dir _ (plainItems_old file hplain) hi hm hnames hd l h q hq
  obtain ⟨T, hT, hnT⟩ := (refMatch_old file n).mp hn
  exact ⟨T, hT, by rw [hqn, hnT]⟩

/-- The paths the pruning asks to remove are among those the two globs found. -/
theorem prune_removed_found (v : Simple) (fs : FS) (dir file : Str) (tr : List Call)
    (q : Str) (hq : q ∈ removedPaths (prune v fs dir file tr).trace) :
    q ∈ removedPaths tr
      ∨ ∃ newV oldV, Glob fs (Join [dir, taggedFilename file TimeGlob]) = some newV
          ∧ Glob fs (Join [dir, file ++ '~' :: TimeGlob]) = some oldV
          ∧ (q ∈ newV ∨ q ∈ oldV) := by
  rcases prune_cases v fs dir file tr with ⟨_, h⟩ | ⟨newV, _, _, h⟩ |
    ⟨newV, oldV, hN, hO, ⟨_, h⟩ | ⟨_, h⟩⟩
  · rw [h] at hq
    left
    simpa [removedPaths_append, removedPaths] using hq
  · rw [h] at hq
    left
    simpa [removedPaths_append, removedPaths] using hq
  · rw [h] at hq
    left
    simpa [removedPaths_append, removedPaths] using hq
  · rw [h] at hq
    simp only [removedPaths_append, removeAll_paths, List.mem_append] at hq
    rcases hq with (h1 | h1) | h1
    · left; exact h1
    · simp [removedPaths] at h1
    · right
      refine ⟨newV, oldV, hN, hO, ?_⟩
      have := (uniqueSorted_mem _ q).mp (List.mem_of_mem_take h1)
      rcases List.mem_append.mp this with h2 | h2
      · right; exact h2
      · left; exact h2

/-- The paths a call asks to remove were found by the two globs in the archive directory
of the file, after the file was moved there. -/
theorem archive_removed_found (c : Config) (v : Simple) (fs : FS) (p : Str) (q : Str)
    (hq : q ∈ removedPaths (Archive c v fs p).trace) :
    ∃ rel fs3 newV oldV, Rel v.folderPath (Dir p) = some rel
      ∧ Separator ∉ Base p
      ∧ Glob fs3 (Join [archiveDir c v rel, taggedFilename (Base p) TimeGlob]) = some newV
      ∧ Glob fs3 (Join [archiveDir c v rel, Base p ++ '~' :: TimeGlob]) = some oldV
      ∧ (q ∈ newV ∨ q ∈ oldV) := by
  rcases archive_cases c v fs p with ⟨e1, _, h1⟩ | ⟨fi, e1, _, _, h1⟩ |
    ⟨fi, rel, fs2, tr, hL, hrel, hprep, h1⟩
  · rw [h1] at hq; simp [removedPaths] at hq
  · rw [removedPaths_prep _ h1] at hq; simp at hq
  · rcases moveAndPrune_cases v fs2 p fi (archiveDir c v rel) (Base p) tr with
      ⟨e2, _, h2⟩ | ⟨fs3, hR, h2⟩
    · rw [h1, h2] at hq
      dsimp only at hq
      rw [removedPaths_before tr hprep.2.2.1] at hq
      simp at hq
    · rw [h1, h2] at hq
      rcases prune_removed_found v fs3 _ _ _ q hq with h3 | ⟨newV, oldV, hN, hO, h3⟩
      · rw [removedPaths_before tr hprep.2.2.1] at h3
        simp at h3
      · obtain ⟨hp, _, _, _, hb3, _⟩ := rename_ok fs2 fs3 p _ hR
        obtain ⟨_, _, _, hns, _⟩ := base_decomp p hp hb3
        exact ⟨rel, fs3, newV, oldV, hrel, hns, hN, hO, h3⟩

/-! ## The characters of the archive directory -/

theorem join_chars (es : List Str) :
    ∀ c ∈ Join es, c = Separator ∨ c = '.' ∨ ∃ e ∈ es, c ∈ e := by
  intro c hc
  rw [join_eq] at hc
  cases hf : es.filter (fun e => e ≠ []) with
  | nil => rw [hf] at hc; simp at hc
  | cons a rest =>
    rw [hf] at hc
    dsimp only at hc
    rcases clean_chars _ c hc with h | h | h
    · left; exact h
    · right; left; exact h
    · rcases joinSep_chars _ c h with h1 | ⟨e, he, hce⟩
      · left; exact h1
      · right; right
        rw [← hf] at he
        exact ⟨e, (List.mem_filter.mp he).1, hce⟩

theorem hasMeta_join (es : List Str) (h : ∀ e ∈ es, hasMeta e = false) :
    hasMeta (Join es) = false := by
  rw [hasMeta_false_iff]
  intro c hc
  rcases join_chars es c hc with h1 | h1 | ⟨e, he, hce⟩
  · rw [h1]; decide
  · rw [h1]; decide
  · exact (hasMeta_false_iff e).mp (h e he) c hce

theorem split_chars (p : Str) : ∀ c ∈ (Split p).1, c ∈ p := by
  intro c hc
  unfold Split at hc
  dsimp only at hc
  rw [List.mem_reverse] at hc
  exact List.mem_reverse.mp ((List.dropWhile_sublist _).subset hc)

theorem lastElem_chars (p : Str) : ∀ c ∈ lastElem p, c ∈ p := by
  intro c hc
  unfold lastElem at hc
  rw [List.mem_reverse] at hc
  exact List.mem_reverse.mp ((List.takeWhile_sublist _).subset hc)

theorem strip_chars (p : Str) : ∀ c ∈ stripTrailingSep p, c ∈ p := by
  intro c hc
  unfold stripTrailingSep at hc
  rw [List.mem_reverse] at hc
  exact List.mem_reverse.mp ((List.dropWhile_sublist _).subset hc)

theorem base_chars (p : Str) : ∀ c ∈ Base p, c = Separator ∨ c = '.' ∨ c ∈ p := by
  intro c hc
  unfold Base at hc
  split at hc
  · right; left; simpa using hc
  · dsimp only at hc
    split at hc
    · left; simpa using hc
    · right; right; exact strip_chars p c (lastElem_chars _ c hc)

theorem hasMeta_dir (p : Str) (h : hasMeta p = false) : hasMeta (Dir p) = false := by
  unfold Dir
  apply hasMeta_clean
  rw [hasMeta_false_iff] at h ⊢
  intro c hc
  exact h c (split_chars p c hc)

theorem isPlain_base (p : Str) (h : isPlain p = true) : isPlain (Base p) = true := by
  rw [isPlain_iff] at h ⊢
  intro c hc
  rcases base_chars p c hc with h1 | h1 | h1
  · rw [h1]; decide
  · rw [h1]; decide
  · exact h c h1

theorem hasMeta_of_isPlain (p : Str) (h : isPlain p = true) : hasMeta p = false := by
  rw [isPlain_iff] at h
  rw [hasMeta_false_iff]
  intro c hc
  have := h c hc
  unfold isMeta at this
  refine ⟨fun e => ?_, fun e => ?_, fun e => ?_⟩ <;> rw [e] at this <;> exact absurd this (by decide)

theorem relStrip_sub : ∀ (bs ts bs1 ts1 : List Str),
    relStrip bs ts = some (bs1, ts1) → ∀ e ∈ ts1, e ∈ ts := by
  intro bs
  induction bs with
  | nil =>
    intro ts bs1 ts1 h e he
    have : ts1 = ts := by
      cases ts <;> simp [relStrip] at h <;> simp [h]
    rw [this] at he; exact he
  | cons b rest ih =>
    intro ts bs1 ts1 h e he
    cases ts with
    | nil =>
      have : ts1 = [] := by simp [relStrip] at h; simp [h]
      rw [this] at he; exact he
    | cons t trest =>
      rw [relStrip] at h
      by_cases hbt : b = t
      · rw [if_pos hbt] at h
        exact List.mem_cons_of_mem _ (ih trest bs1 ts1 h e he)
      · rw [if_neg hbt] at h
        by_cases hdd : b = ['.', '.']
        · rw [if_pos hdd] at h; exact Option.noConfusion h
        · rw [if_neg hdd] at h
          have : ts1 = t :: trest := by
            injection h with h
            exact (Prod.mk.inj h).2.symm
          rw [this] at he; exact he

theorem relElems_chars (p : Str) : ∀ e ∈ relElems p, ∀ c ∈ e, c ∈ p := by
  intro e he c hc
  unfold relElems at he
  split at he
  · simp at he
  · split at he
    · have : e = [] := by simpa using he
      rw [this] at hc; simp at hc
    · exact splitSep_chars p e he c hc

theorem ups_chars (bs : List Str) :
    ∀ c ∈ joinSep (bs.map (fun _ => ['.', '.'])), c = Separator ∨ c = '.' := by
  intro c hc
  rcases joinSep_chars _ c hc with h | ⟨e, he, hce⟩
  · left; exact h
  · right
    rw [List.mem_map] at he
    obtain ⟨_, _, h1⟩ := he
    rw [← h1] at hce
    simpa using hce

/-- A relative path holds characters of the cleaned target, separators and dots. -/
theorem rel_chars (b t r : Str) (h : Rel b t = some r) :
    ∀ c ∈ r, c = Separator ∨ c = '.' ∨ c ∈ Clean t := by
  intro c hc
  unfold Rel at h
  dsimp only at h
  by_cases h1 : Clean t = Clean b
  · rw [if_pos h1] at h
    injection h with h
    rw [← h] at hc
    right; left; simpa using hc
  · rw [if_neg h1] at h
    generalize (if Clean b = ['.'] then [] else Clean b) = base at h
    by_cases h2 : (isRooted base != isRooted (Clean t)) = true
    · rw [if_pos h2] at h; exact Option.noConfusion h
    · rw [if_neg h2] at h
      cases hrs : relStrip (relElems base) (relElems (Clean t)) with
      | none => rw [hrs] at h; exact Option.noConfusion h
      | some pr =>
        obtain ⟨bs, ts⟩ := pr
        rw [hrs] at h
        dsimp only at h
        have hts : ∀ c ∈ joinSep ts, c = Separator ∨ c = '.' ∨ c ∈ Clean t := by
          intro c hc
          rcases joinSep_chars _ c hc with h1 | ⟨e, he, hce⟩
          · left; exact h1
          · right; right
            exact relElems_chars _ e (relStrip_sub _ _ _ _ hrs e he) c hce
        by_cases h3 : bs ≠ []
        · rw [if_pos h3] at h
          by_cases h4 : ts ≠ []
          · rw [if_pos h4] at h
            injection h with h
            rw [← h] at hc
            rcases List.mem_append.mp hc with h5 | h5
            · rcases ups_chars bs c h5 with h6 | h6
              · left; exact h6
              · right; left; exact h6
            · rcases List.mem_cons.mp h5 with h6 | h6
              · left; exact h6
              · exact hts c h6
          · rw [if_neg h4] at h
            injection h with h
            rw [← h] at hc
            rcases ups_chars bs c hc with h6 | h6
            · left; exact h6
            · right; left; exact h6
        · rw [if_neg h3] at h
          injection h with h
          rw [← h] at hc
          exact hts c hc

theorem hasMeta_rel (b t r : Str) (h : Rel b t = some r) (ht : hasMeta t = false) :
    hasMeta r = false := by
  have hct := (hasMeta_false_iff _).mp (hasMeta_clean t ht)
  rw [hasMeta_false_iff]
  intro c hc
  rcases rel_chars b t r h c hc with h1 | h1 | h1
  · rw [h1]; decide
  · rw [h1]; decide
  · exact hct c h1

/-- The archive directory of a file holds no magic character when the paths it is made
of hold none. -/
theorem hasMeta_archiveDir (c : Config) (v : Simple) (p rel : Str)
    (hrel : Rel v.folderPath (Dir p) = some rel)
    (hf : hasMeta v.folderPath = false) (hm : hasMeta c.MarkerDir = false)
    (hv : hasMeta c.VersionsDir = false) (hp : hasMeta p = false) :
    hasMeta (archiveDir c v rel) = false := by
  unfold archiveDir
  apply hasMeta_join
  intro e he
  simp only [List.mem_cons, List.mem_singleton, List.not_mem_nil, or_false] at he
  rcases he with h | h
  · rw [h]
    apply hasMeta_join
    intro e1 he1
    simp only [List.mem_cons, List.mem_singleton, List.not_mem_nil, or_false] at he1
    rcases he1 with h1 | h1 | h1
    · rw [h1]; exact hf
    · rw [h1]; exact hm
    · rw [h1]; exact hv
  · rw [h]
    exact hasMeta_rel _ _ _ hrel (hasMeta_dir p hp)

/-! ## Further properties -/

theorem archiveDir_join (c : Config) (v : Simple) (rel n : Str) :
    Join [archiveDir c v rel, n]
      = Join [v.folderPath, c.MarkerDir, c.VersionsDir, rel, n] := by
  unfold archiveDir
  rw [join_nested, List.cons_append, join_nested]
  rfl

/-- When neither the folder path, the names of the marker and versions directories nor
the file path hold a character that is magic in a pattern, every path a call asks to
remove is a version of the file of the call: it lies in the archive directory of the
file and is named `base~T ext` or `file~T`, where `T` has the shape of a timestamp. -/
theorem archive_removes_only_versions (c : Config) (v : Simple) (fs : FS) (filePath : Str)
    (hf : hasMeta v.folderPath = false) (hm : hasMeta c.MarkerDir = false)
    (hv : hasMeta c.VersionsDir = false) (hp : isPlain filePath = true)
    (q : Str) (hq : q ∈ removedPaths (Archive c v fs filePath).trace) :
    ∃ rel T, Rel v.folderPath (Dir filePath) = some rel ∧ isTimestamp T = true
      ∧ (q = Join [v.folderPath, c.MarkerDir, c.VersionsDir, rel,
                taggedFilename (Base filePath) T]
          ∨ q = Join [v.folderPath, c.MarkerDir, c.VersionsDir, rel,
                Base filePath ++ '~' :: T]) := by
  obtain ⟨rel, fs3, newV, oldV, hrel, hsep, hN, hO, hmem⟩ :=
    archive_removed_found c v fs filePath q hq
  have hd := hasMeta_archiveDir c v filePath rel hrel hf hm hv (hasMeta_of_isPlain _ hp)
  have hb := isPlain_base filePath hp
  rcases hmem with h | h
  · obtain ⟨T, hT, hqT⟩ := glob_new fs3 _ _ hb hsep hd newV hN q h
    exact ⟨rel, T, hrel, hT, Or.inl (by rw [hqT, archiveDir_join])⟩
  · obtain ⟨T, hT, hqT⟩ := glob_old fs3 _ _ hb hsep hd oldV hO q h
    exact ⟨rel, T, hrel, hT, Or.inr (by rw [hqT, archiveDir_join])⟩

/-- The property above at an example: with `keep = 1`, archiving `/f/a.txt` asks to
remove the legacy version `a.txt~20140202-000000`, which is a version of `a.txt`. -/
theorem archive_removes_only_versions_witness :
    str "/f/.stfolder/.stversions/a.txt~20140202-000000"
        ∈ removedPaths (Archive exConfig ⟨1, str "/f"⟩ exFull (str "/f/a.txt")).trace
      ∧ ∃ rel T, Rel (str "/f") (Dir (str "/f/a.txt")) = some rel ∧ isTimestamp T = true
        ∧ (str "/f/.stfolder/.stversions/a.txt~20140202-000000"
              = Join [str "/f", exConfig.MarkerDir, exConfig.VersionsDir, rel,
                  taggedFilename (Base (str "/f/a.txt")) T]
            ∨ str "/f/.stfolder/.stversions/a.txt~20140202-000000"
              = Join [str "/f", exConfig.MarkerDir, exConfig.VersionsDir, rel,
                  Base (str "/f/a.txt") ++ '~' :: T]) :=
  ⟨by decide,
    archive_removes_only_versions exConfig ⟨1, str "/f"⟩ exFull (str "/f/a.txt")
      (by decide) (by decide) (by decide) (by decide) _ (by decide)⟩

end Versioner
